import Mathlib

/-!
# NPuzzle: sliding-tile boards and graph search

A verification development for the `board::Board<N>` state model (`Board.h`),
the search node (`Node.h`) and the four search algorithms of `GraphSearch.h`.

Modelling conventions.
* `Board<N>` is a structure over the template parameter `N`; the grid
  `std::array<Piece, SIZE>` is a list of naturals (pieces are `uint8_t`), the
  `int blank_index_` is a natural (it is never negative: it is produced by
  `locate` and only decremented under the guards of `moveBlank`), and
  `hashcode_` is a natural below `2^64`.
* `std::size_t` arithmetic in `hash` wraps modulo `2^64`.
* Nodes live in an arena (`Heap`): a `NodePtr` is an index into it, and the
  `weak_ptr` parent link is an optional index.  Every node that still has
  descendants is held by an open or closed collection, so a parent link never
  expires while it can be followed.
* `int` depths, costs and step counters are unbounded integers (signed
  overflow is undefined in the source and is not reachable on the runs
  considered).
* The loops of the search algorithms take a fuel argument: `none` means the
  fuel ran out before the loop ended.
-/

namespace board

/-- The `enum class Move`. -/
inductive Move where
  | LEFT
  | UP
  | RIGHT
  | DOWN
  | IDLE
  deriving DecidableEq, Repr

/-- The `operator++(Move&)`: cyclic successor of a direction. -/
def Move.next : Move → Move
  | .LEFT => .UP
  | .UP => .RIGHT
  | .RIGHT => .DOWN
  | .DOWN => .IDLE
  | .IDLE => .LEFT

/-- The class `Board<N>`: grid, blank index and stored hash code. -/
structure Board (N : Nat) where
  grid : List Nat
  blank_index : Nat
  hashcode : Nat
  deriving DecidableEq, Repr

/-- The constant `Board<N>::SIZE = N * N`. -/
def SIZE (N : Nat) : Nat := N * N

/-- The BKDR hash of a grid: `hash = hash * SEED + i` in `std::size_t`
arithmetic over the cells, reduced modulo `LENGTH = 0x7FFFFFFF` at the end. -/
def hashGrid (grid : List Nat) : Nat :=
  (grid.foldl (fun h i => (h * 131 + i) % 2 ^ 64) 0) % 0x7FFFFFFF

/-- The static member `Board::hash`. -/
def Board.hash {N : Nat} (b : Board N) : Nat := hashGrid b.grid

/-- The loop of `Board::locate`, at index `i`: advance while
`grid_[i] != piece && i < SIZE`.  The read at `i = SIZE` (one past the end)
is given the value `0`; the loop leaves at that index whatever is read.  The
fuel bounds the number of iterations. -/
def locateFrom (N : Nat) (grid : List Nat) (piece : Nat) : Nat → Nat → Nat
  | 0, i => i
  | fuel + 1, i =>
    if grid.getD i 0 ≠ piece ∧ i < SIZE N then locateFrom N grid piece fuel (i + 1) else i

/-- The private member `Board::locate`: the loop from index `0`; it leaves
after at most `SIZE` increments. -/
def Board.locate {N : Nat} (b : Board N) (piece : Nat) : Nat :=
  locateFrom N b.grid piece (SIZE N + 1) 0

/-- The initializer-list constructor, for a list that fills the grid: copy
the list, locate the blank, hash the grid. -/
def Board.ofList (N : Nat) (il : List Nat) : Board N :=
  let copied : Board N := { grid := il, blank_index := 0, hashcode := 0 }
  let located : Board N := { copied with blank_index := copied.locate 0 }
  { located with hashcode := located.hash }

/-- The `operator==`: stored hashes equal and grids equal cell by cell. -/
def Board.eq {N : Nat} (a rhs : Board N) : Bool :=
  a.hashcode == rhs.hashcode && a.grid == rhs.grid

/-- The `operator!=`. -/
def Board.ne {N : Nat} (a rhs : Board N) : Bool := !(rhs.eq a)

/-- The `swap(grid_[i], grid_[j])` of two cells. -/
def swapCells (grid : List Nat) (i j : Nat) : List Nat :=
  (grid.set i (grid.getD j 0)).set j (grid.getD i 0)

/-- The `switch` of `Board::moveBlank`: the index `next` and the grid after
the guarded swap. -/
def moveTarget {N : Nat} (b : Board N) (direction : Move) : Nat × List Nat :=
  match direction with
  | .LEFT =>
    if b.blank_index % N ≠ 0 then
      (b.blank_index - 1, swapCells b.grid b.blank_index (b.blank_index - 1))
    else (b.blank_index, b.grid)
  | .UP =>
    if b.blank_index ≥ N then
      (b.blank_index - N, swapCells b.grid b.blank_index (b.blank_index - N))
    else (b.blank_index, b.grid)
  | .RIGHT =>
    if b.blank_index % N ≠ N - 1 then
      (b.blank_index + 1, swapCells b.grid b.blank_index (b.blank_index + 1))
    else (b.blank_index, b.grid)
  | .DOWN =>
    if b.blank_index < SIZE N - N then
      (b.blank_index + N, swapCells b.grid b.blank_index (b.blank_index + N))
    else (b.blank_index, b.grid)
  | .IDLE => (b.blank_index, b.grid)

/-- The member `Board::moveBlank`: the returned flag and the board after the
call. -/
def Board.moveBlank {N : Nat} (b : Board N) (direction : Move) : Bool × Board N :=
  let t := moveTarget b direction
  if b.blank_index ≠ t.1 then
    (true, { grid := t.2, blank_index := t.1, hashcode := hashGrid t.2 })
  else
    (false, { b with grid := t.2 })

/-- The loop of `Board::expand` from direction `next`: copy the board, try the
move, keep the copy when the move applied, advance with `++next` until `IDLE`.
The fuel bounds the number of iterations. -/
def expandLoop {N : Nat} (b : Board N) : Nat → Move → List (Board N)
  | 0, _ => []
  | fuel + 1, next =>
    if next ≠ Move.IDLE then
      let r := b.moveBlank next
      if r.1 then r.2 :: expandLoop b fuel next.next
      else expandLoop b fuel next.next
    else []

/-- The member `Board::expand`: four steps of `++next` lead from `LEFT` to
`IDLE`, so five units of fuel run the loop to its end. -/
def Board.expand {N : Nat} (b : Board N) : List (Board N) :=
  expandLoop b 5 Move.LEFT

/-- The member `Board::compatibilityCalculate`: the number of cells that
differ. -/
def Board.compatibilityCalculate {N : Nat} (a board : Board N) : Int :=
  (List.range (SIZE N)).foldl
    (fun c i => if a.grid.getD i 0 ≠ board.grid.getD i 0 then c + 1 else c) 0

/-- The summand of `Board::similarityCalculate` for cell `i` found at `j`. -/
def cellDistance (N : Nat) (i j : Nat) : Int :=
  |((i % N : Nat) : Int) - ((j % N : Nat) : Int)| + |((i / N : Nat) : Int) - ((j / N : Nat) : Int)|

/-- The member `Board::similarityCalculate`: the sum over all cells `i` of the
row and column offsets between `i` and the place of `grid_[i]` in `board`. -/
def Board.similarityCalculate {N : Nat} (a board : Board N) : Int :=
  (List.range (SIZE N)).foldl
    (fun c i => c + cellDistance N i (board.locate (a.grid.getD i 0))) 0

end board

namespace board

/-! ## Specification-side notions for the state model -/

/-- The direction that undoes a direction. -/
def Move.opposite : Move → Move
  | .LEFT => .RIGHT
  | .UP => .DOWN
  | .RIGHT => .LEFT
  | .DOWN => .UP
  | .IDLE => .IDLE

/-- The row of a cell index. -/
def rowOf (N i : Nat) : Nat := i / N

/-- The column of a cell index. -/
def colOf (N i : Nat) : Nat := i % N

/-- A cell in the first or last row. -/
def onRowEdge (N i : Nat) : Prop := rowOf N i = 0 ∨ rowOf N i = N - 1

/-- A cell in the first or last column. -/
def onColEdge (N i : Nat) : Prop := colOf N i = 0 ∨ colOf N i = N - 1

/-- The stored hash of a board is the hash of its grid. -/
def HashOk {N : Nat} (b : Board N) : Prop := b.hashcode = b.hash

/-- The grid of a board is a permutation of `0..SIZE-1`. -/
def IsPermutation {N : Nat} (b : Board N) : Prop := b.grid.Perm (List.range (SIZE N))

instance {N : Nat} (b : Board N) : Decidable (IsPermutation b) := by
  unfold IsPermutation; infer_instance

/-- A well-formed board: the grid is a permutation of `0..SIZE-1`, the blank
index is in range and points at the blank, and the stored hash is the hash
of the grid. -/
def WellFormed {N : Nat} (b : Board N) : Prop :=
  IsPermutation b ∧ b.blank_index < SIZE N ∧ b.grid.getD b.blank_index 1 = 0 ∧ HashOk b

/-- The offset of the blank index for a direction: `-1`, `-N`, `+1`, `+N`
for `LEFT`, `UP`, `RIGHT`, `DOWN` (and none for the sentinel). -/
def delta (N : Nat) : Move → Int
  | .LEFT => -1
  | .UP => -(N : Int)
  | .RIGHT => 1
  | .DOWN => (N : Int)
  | .IDLE => 0

/-- A sequence of `moveBlank` calls, each of which must apply (return true):
the board after the last one, or none when some call returned false. -/
def applyMoves {N : Nat} (b : Board N) : List Move → Option (Board N)
  | [] => some b
  | d :: ds => if (b.moveBlank d).1 = true then applyMoves (b.moveBlank d).2 ds else none

/-- Boards obtained from the initializer-list constructor (on a list that
fills the grid and holds a blank) by copies and `moveBlank` calls. -/
inductive Built {N : Nat} : Board N → Prop where
  | ofList (il : List Nat) (hlen : il.length = SIZE N) (hblank : 0 ∈ il) :
      Built (Board.ofList N il)
  | moveBlank (b : Board N) (d : Move) (hb : Built b) : Built (b.moveBlank d).2

end board

namespace search

open board

/-- The class `Node<E>` at `E = Board<N>`: the owned state, the `weak_ptr`
parent link (an index into the arena, or none), the depth and the cost.  The
depth is a natural: it starts at `0` and is only ever set to a depth plus
one. -/
structure Node (N : Nat) where
  elem : Board N
  parent : Option Nat
  depth : Nat
  cost : Int
  deriving DecidableEq, Repr

/-- The constructors `Node(const E&)` and `Node(std::unique_ptr<E>&&)`: no
parent, depth `0`, cost `0`. -/
def Node.new {N : Nat} (elem : Board N) : Node N :=
  { elem := elem, parent := none, depth := 0, cost := 0 }

instance {N : Nat} : Inhabited (Node N) := ⟨Node.new ⟨[], 0, 0⟩⟩

/-- The `Node::operator==`: equality of the wrapped states. -/
def Node.eq {N : Nat} (a rhs : Node N) : Bool := a.elem.eq rhs.elem

/-- The `Node::operator!=`. -/
def Node.ne {N : Nat} (a rhs : Node N) : Bool := a.elem.ne rhs.elem

/-- The arena of the nodes created by `std::make_shared`; a `NodePtr` is an
index into it. -/
abbrev Heap (N : Nat) := List (Node N)

/-- The node a `NodePtr` points to. -/
def Heap.deref {N : Nat} (heap : Heap N) (p : Nat) : Node N := heap.getD p default

/-- The call `std::make_shared<Node>(elem)`: the arena after the allocation
and the new pointer. -/
def Heap.alloc {N : Nat} (heap : Heap N) (elem : Board N) : Heap N × Nat :=
  (heap ++ [Node.new elem], heap.length)

/-- The member `Node::setParent`, through a pointer. -/
def Heap.setParent {N : Nat} (heap : Heap N) (p parent : Nat) : Heap N :=
  heap.set p { heap.deref p with parent := some parent }

/-- The member `Node::setDepth`, through a pointer. -/
def Heap.setDepth {N : Nat} (heap : Heap N) (p depth : Nat) : Heap N :=
  heap.set p { heap.deref p with depth := depth }

/-- The member `Node::setCost`, through a pointer. -/
def Heap.setCost {N : Nat} (heap : Heap N) (p : Nat) (cost : Int) : Heap N :=
  heap.set p { heap.deref p with cost := cost }

/-- The member `Node::expand`, through a pointer: wrap every state produced
by the state's `expand` in a new node, in order. -/
def Node.expand {N : Nat} (heap : Heap N) (p : Nat) : Heap N × List Nat :=
  ((heap.deref p).elem.expand).foldl
    (fun acc elem => ((acc.1.alloc elem).1, acc.2 ++ [(acc.1.alloc elem).2]))
    (heap, [])

/-- The function `search::find`: the first pointer of the range whose node is
state-equal to the target node. -/
def find {N : Nat} (heap : Heap N) (range : List Nat) (target : Nat) : Option Nat :=
  range.find? (fun node => (heap.deref node).eq (heap.deref target))

namespace impl

/-- The type `Filter<E>`. -/
abbrev Filter (N : Nat) := Heap N → Nat → Bool

/-- The loop of `isNotSameWithAncestors` at the ancestor `parent`.  The fuel
bounds the length of the walk up the parent chain. -/
def ancestorsLoop {N : Nat} (heap : Heap N) (node : Nat) : Nat → Option Nat → Bool
  | 0, _ => true
  | _ + 1, none => true
  | fuel + 1, some parent =>
    if (heap.deref node).eq (heap.deref parent) then false
    else ancestorsLoop heap node fuel (heap.deref parent).parent

/-- The function `impl::isNotSameWithAncestors`: a parent chain without a
cycle has at most as many nodes as the arena. -/
def isNotSameWithAncestors {N : Nat} : Filter N := fun heap node =>
  ancestorsLoop heap node heap.length (heap.deref node).parent

/-- The function `impl::expand`: set the parent and the depth of every child
and keep the children that pass the filter. -/
def expand {N : Nat} (heap : Heap N) (node : Nat) (filter : Filter N) : Heap N × List Nat :=
  let r := Node.expand heap node
  r.2.foldl
    (fun acc child =>
      let h1 := acc.1.setParent child node
      let h2 := h1.setDepth child ((h1.deref node).depth + 1)
      if filter h2 child then (h2, acc.2 ++ [child]) else (h2, acc.2))
    (r.1, [])

/-- The function `impl::check`. -/
def check {N : Nat} (heap : Heap N) (node target : Nat) : Bool :=
  (heap.deref node).eq (heap.deref target)

end impl

/-- The enumeration `Result::results`. -/
inductive results where
  | SUCCESS
  | FAILED
  deriving DecidableEq, Repr

/-- The class `Result`: the outcome and the step counter. -/
structure Result where
  result : results
  steps : Nat
  deriving DecidableEq, Repr

/-- The constructor `Result(results, std::int64_t)`: the counter is stored in
a bit-field of 63 bits. -/
def Result.make (result : results) (steps : Nat) : Result :=
  { result := result, steps := steps % 2 ^ 63 }

/-- The member `Result::success`. -/
def Result.success (r : Result) : Bool := r.result == results.SUCCESS

/-- The type `Evaluator<E>`. -/
abbrev Evaluator (N : Nat) := Node N → Int

/-- What a search run leaves behind: the returned `Result`, the arena, and
the node given to the last `impl::log` call (none when nothing was logged). -/
structure Outcome (N : Nat) where
  result : Result
  heap : Heap N
  logged : Option Nat
  deriving Repr

end search

namespace search

open board

/-- How a loop body ends: with a `return` of the enclosing function, or by
falling through to the next statement with an updated state. -/
inductive Flow (ρ σ : Type) where
  | ret : ρ → Flow ρ σ
  | next : σ → Flow ρ σ

/-- The child loop of `bfs`: count and log the child, return on a match,
else push it on the queue.  A return carries the step count and the matched
child; otherwise the queue, the step count and the last logged node go on. -/
def bfsChildren {N : Nat} (heap : Heap N) (pt : Nat) :
    List Nat → List Nat → Nat → Option Nat → Flow (Nat × Nat) (List Nat × Nat × Option Nat)
  | [], opened, steps, logged => .next (opened, steps, logged)
  | child :: rest, opened, steps, _ =>
    if impl.check heap child pt then .ret (steps + 1, child)
    else bfsChildren heap pt rest (opened ++ [child]) (steps + 1) (some child)

/-- The `while (!open.empty())` loop of `bfs`; the queue has its front at the
head of the list. -/
def bfsLoop {N : Nat} (pt : Nat) :
    Nat → Heap N → List Nat → List Nat → Nat → Option Nat → Option (Outcome N)
  | _, heap, [], _, steps, logged =>
    some { result := Result.make results.FAILED steps, heap := heap, logged := logged }
  | 0, _, _ :: _, _, _, _ => none
  | fuel + 1, heap, front :: opened, closed, steps, logged =>
    let closed1 := closed ++ [front]
    let pn := front
    let r := impl.expand heap pn impl.isNotSameWithAncestors
    match bfsChildren r.1 pt r.2 opened steps logged with
    | .ret (steps1, child) =>
      some { result := Result.make results.SUCCESS steps1, heap := r.1, logged := some child }
    | .next (opened1, steps1, logged1) => bfsLoop pt fuel r.1 opened1 closed1 steps1 logged1

/-- The function `search::bfs`, with the run it leaves behind. -/
def bfsRun {N : Nat} (fuel : Nat) (start target : Board N) : Option (Outcome N) :=
  if start.eq target then
    some { result := Result.make results.SUCCESS 0, heap := [], logged := none }
  else
    let a := Heap.alloc [] start
    let b := a.1.alloc target
    let heap := b.1
    let ps := a.2
    let pt := b.2
    let steps := 0 + 1
    if impl.check heap ps pt then
      some { result := Result.make results.SUCCESS steps, heap := heap, logged := some ps }
    else bfsLoop pt fuel heap [ps] [] steps (some ps)

/-- The function `search::bfs`. -/
def bfs {N : Nat} (fuel : Nat) (start target : Board N) : Option Result :=
  (bfsRun fuel start target).map (fun o => o.result)

/-- The child loop of `dfs`, over the children in reverse order: push a child
whose depth differs from the bound, else log it and return on a match. -/
def dfsChildren {N : Nat} (heap : Heap N) (pt : Nat) (max_depth : Nat) :
    List Nat → List Nat → Option Nat → Flow Nat (List Nat × Option Nat)
  | [], opened, logged => .next (opened, logged)
  | it :: rest, opened, logged =>
    if (heap.deref it).depth ≠ max_depth then
      dfsChildren heap pt max_depth rest (it :: opened) logged
    else if impl.check heap it pt then .ret it
    else dfsChildren heap pt max_depth rest opened (some it)

/-- The `while (!open.empty())` loop of `dfs`; the stack has its top at the
head of the list. -/
def dfsLoop {N : Nat} (pt : Nat) (max_depth : Nat) :
    Nat → Heap N → List Nat → List Nat → Nat → Option Nat → Option (Outcome N)
  | _, heap, [], _, steps, logged =>
    some { result := Result.make results.FAILED steps, heap := heap, logged := logged }
  | 0, _, _ :: _, _, _, _ => none
  | fuel + 1, heap, top :: opened, closed, steps, _ =>
    let closed1 := closed ++ [top]
    let pn := top
    let steps1 := steps + 1
    if impl.check heap pn pt then
      some { result := Result.make results.SUCCESS steps1, heap := heap, logged := some pn }
    else if (heap.deref pn).depth < max_depth then
      let r := impl.expand heap pn impl.isNotSameWithAncestors
      match dfsChildren r.1 pt max_depth r.2.reverse opened (some pn) with
      | .ret it =>
        some { result := Result.make results.SUCCESS steps1, heap := r.1, logged := some it }
      | .next (opened1, logged1) => dfsLoop pt max_depth fuel r.1 opened1 closed1 steps1 logged1
    else dfsLoop pt max_depth fuel heap opened closed1 steps1 (some pn)

/-- The function `search::dfs`, with the run it leaves behind. -/
def dfsRun {N : Nat} (fuel : Nat) (start target : Board N) (max_depth : Nat) :
    Option (Outcome N) :=
  if start.eq target then
    some { result := Result.make results.SUCCESS 0, heap := [], logged := none }
  else
    let a := Heap.alloc [] start
    let b := a.1.alloc target
    dfsLoop b.2 max_depth fuel b.1 [a.2] [] 0 none

/-- The function `search::dfs`. -/
def dfs {N : Nat} (fuel : Nat) (start target : Board N) (max_depth : Nat) : Option Result :=
  (dfsRun fuel start target max_depth).map (fun o => o.result)

/-- Insertion of a pointer into a list sorted by cost, after the nodes of
strictly smaller cost. -/
def insertByCost {N : Nat} (heap : Heap N) (x : Nat) : List Nat → List Nat
  | [] => [x]
  | y :: ys =>
    if (heap.deref y).cost < (heap.deref x).cost then y :: insertByCost heap x ys
    else x :: y :: ys

/-- The call `open.sort(lhs->getCost() < rhs->getCost())`: the stable sort of
a list of pointers, ascending by cost. -/
def sortByCost {N : Nat} (heap : Heap N) (opened : List Nat) : List Nat :=
  opened.foldr (insertByCost heap) []

/-- The frontier state of `bestFS` and `aStar`: arena, open list, closed
list. -/
structure Frontier (N : Nat) where
  heap : Heap N
  opened : List Nat
  closed : List Nat
  deriving Repr

/-- The body of the child loop of `bestFS`: update in place a state-equal
open node of higher cost, else reopen a state-equal closed node of higher
cost, else insert the child. -/
def bestFSChild {N : Nat} (evaluator : Evaluator N) (pn : Nat) (f : Frontier N) (child : Nat) :
    Frontier N :=
  let cost := evaluator (f.heap.deref child)
  match (find f.heap f.opened child).filter (fun it => cost < (f.heap.deref it).cost) with
  | some it => { f with heap := (f.heap.setParent it pn).setCost it cost }
  | none =>
    match (find f.heap f.closed child).filter (fun it => cost < (f.heap.deref it).cost) with
    | some it =>
      { heap := (f.heap.setParent it pn).setCost it cost,
        opened := it :: f.opened,
        closed := f.closed.filter (fun q => q ≠ it) }
    | none => { f with heap := f.heap.setCost child cost, opened := child :: f.opened }

/-- The `while (!open.empty())` loop of `bestFS`: sort the open list (it is
empty exactly when its sorted form is), move its front to the closed list,
check it, expand it and process the children. -/
def bestFSLoop {N : Nat} (pt : Nat) (evaluator : Evaluator N) :
    Nat → Frontier N → Nat → Option Nat → Option (Outcome N)
  | fuel, f, steps, logged =>
    match sortByCost f.heap f.opened with
    | [] => some { result := Result.make results.FAILED steps, heap := f.heap, logged := logged }
    | pn :: rest =>
      match fuel with
      | 0 => none
      | fuel + 1 =>
        let closed1 := pn :: f.closed
        let steps1 := steps + 1
        if impl.check f.heap pn pt then
          some { result := Result.make results.SUCCESS steps1, heap := f.heap, logged := some pn }
        else
          let r := impl.expand f.heap pn impl.isNotSameWithAncestors
          let f1 := r.2.foldl (bestFSChild evaluator pn)
            { heap := r.1, opened := rest, closed := closed1 }
          bestFSLoop pt evaluator fuel f1 steps1 (some pn)

/-- The function `search::bestFS`, with the run it leaves behind. -/
def bestFSRun {N : Nat} (fuel : Nat) (start target : Board N) (evaluator : Evaluator N) :
    Option (Outcome N) :=
  if start.eq target then
    some { result := Result.make results.SUCCESS 0, heap := [], logged := none }
  else
    let a := Heap.alloc [] start
    let b := a.1.alloc target
    bestFSLoop b.2 evaluator fuel { heap := b.1, opened := [a.2], closed := [] } 0 none

/-- The function `search::bestFS`. -/
def bestFS {N : Nat} (fuel : Nat) (start target : Board N) (evaluator : Evaluator N) :
    Option Result :=
  (bestFSRun fuel start target evaluator).map (fun o => o.result)

/-- The body of the child loop of `aStar`: the comparisons are on `g`, the
recorded cost is `g(child) + h(child)`. -/
def aStarChild {N : Nat} (g h : Evaluator N) (pbn : Nat) (f : Frontier N) (child : Nat) :
    Frontier N :=
  let hv := h (f.heap.deref child)
  let gc := g (f.heap.deref child)
  match (find f.heap f.opened child).filter (fun it => gc < g (f.heap.deref it)) with
  | some old => { f with heap := (f.heap.setParent old pbn).setCost old (gc + hv) }
  | none =>
    match (find f.heap f.closed child).filter (fun it => gc < g (f.heap.deref it)) with
    | some old =>
      { heap := (f.heap.setParent old pbn).setCost old (gc + hv),
        opened := old :: f.opened,
        closed := f.closed.filter (fun q => q ≠ old) }
    | none => { f with heap := f.heap.setCost child (gc + hv), opened := child :: f.opened }

/-- The `while (!open.empty())` loop of `aStar`, of the same shape as that
of `bestFS`. -/
def aStarLoop {N : Nat} (pt : Nat) (g h : Evaluator N) :
    Nat → Frontier N → Nat → Option Nat → Option (Outcome N)
  | fuel, f, steps, logged =>
    match sortByCost f.heap f.opened with
    | [] => some { result := Result.make results.FAILED steps, heap := f.heap, logged := logged }
    | pbn :: rest =>
      match fuel with
      | 0 => none
      | fuel + 1 =>
        let closed1 := pbn :: f.closed
        let steps1 := steps + 1
        if impl.check f.heap pbn pt then
          some { result := Result.make results.SUCCESS steps1, heap := f.heap, logged := some pbn }
        else
          let r := impl.expand f.heap pbn impl.isNotSameWithAncestors
          let f1 := r.2.foldl (aStarChild g h pbn)
            { heap := r.1, opened := rest, closed := closed1 }
          aStarLoop pt g h fuel f1 steps1 (some pbn)

/-- The function `search::aStar`, with the run it leaves behind. -/
def aStarRun {N : Nat} (fuel : Nat) (start target : Board N) (g h : Evaluator N) :
    Option (Outcome N) :=
  if start.eq target then
    some { result := Result.make results.SUCCESS 0, heap := [], logged := none }
  else
    let a := Heap.alloc [] start
    let b := a.1.alloc target
    aStarLoop b.2 g h fuel { heap := b.1, opened := [a.2], closed := [] } 0 none

/-- The function `search::aStar`. -/
def aStar {N : Nat} (fuel : Nat) (start target : Board N) (g h : Evaluator N) : Option Result :=
  (aStarRun fuel start target g h).map (fun o => o.result)

/-- The evaluator `g` of `boardAStar`: the depth of the node. -/
def depthEvaluator {N : Nat} : Evaluator N := fun node => (node.depth : Int)

/-- The evaluator `h` of `boardAStar`: the target's `similarityCalculate` of
the node's state. -/
def similarityEvaluator {N : Nat} (target : Board N) : Evaluator N :=
  fun node => target.similarityCalculate node.elem

/-- The evaluator of `boardBestFS`: depth plus the target's
`compatibilityCalculate` of the node's state. -/
def compatibilityEvaluator {N : Nat} (target : Board N) : Evaluator N :=
  fun node => (node.depth : Int) + target.compatibilityCalculate node.elem

end search

namespace search

open board

/-! ## Specification-side notions for the search engine -/

/-- The start board of the breadth-first scenario of the specification. -/
def scenarioStart : Board 3 := Board.ofList 3 [1, 2, 3, 4, 5, 6, 7, 0, 8]

/-- The target board of the breadth-first scenario of the specification. -/
def scenarioTarget : Board 3 := Board.ofList 3 [1, 2, 3, 4, 5, 6, 7, 8, 0]

/-- Some sequence of exactly `k` applied moves transforms `s` into a board
equal to `target`. -/
def Reaches {N : Nat} (target s : Board N) (k : Nat) : Prop :=
  ∃ ms : List Move, ms.length = k ∧ ∃ b, applyMoves s ms = some b ∧ b.eq target = true

/-- A state differs (by `operator==`) from every state of a parent chain. -/
def passes {N : Nat} (chain : List (Board N)) (e : Board N) : Bool :=
  chain.all (fun a => !(e.eq a))

/-- The depth-bounded search tree below a node, given the states of its
parent chain (the node's own state first) and the number of levels left:
whether it holds a state equal to the target. -/
def hit {N : Nat} (target : Board N) : Nat → List (Board N) → Bool
  | _, [] => false
  | 0, s :: _ => s.eq target
  | b + 1, s :: anc =>
    s.eq target ||
      (s.expand.filter (passes (s :: anc))).any (fun c => hit target b (c :: s :: anc))

/-- The node of a child after `impl::expand` has set its parent and depth. -/
def mkChild {N : Nat} (parent depth : Nat) (e : Board N) : Node N :=
  { elem := e, parent := some parent, depth := depth + 1, cost := 0 }

/-- The pointers and states of the children that pass the ancestor filter,
for children allocated from index `base` on. -/
def filterPairs {N : Nat} (chain : List (Board N)) : Nat → List (Board N) → List (Nat × Board N)
  | _, [] => []
  | base, e :: es =>
    if passes chain e then (base, e) :: filterPairs chain (base + 1) es
    else filterPairs chain (base + 1) es

/-- The states along the parent chain of a pointer, the node's own state
first, for an arena in which every parent was allocated before its child. -/
inductive Chain {N : Nat} (heap : Heap N) : Nat → List (Board N) → Prop where
  | root (p : Nat) (node : Node N) (hp : heap[p]? = some node) (hn : node.parent = none) :
      Chain heap p [node.elem]
  | step (p q : Nat) (node : Node N) (l : List (Board N)) (hp : heap[p]? = some node)
      (hn : node.parent = some q) (hq : q < p) (hc : Chain heap q l) :
      Chain heap p (node.elem :: l)

/-- The pointers along the parent chain of a pointer, the pointer itself
first and the root last, in any arena (a parent need not have been allocated
before its child). -/
inductive Lineage {N : Nat} (heap : Heap N) : Nat → List Nat → Prop where
  | root (p : Nat) (node : Node N) (hp : heap[p]? = some node) (hn : node.parent = none) :
      Lineage heap p [p]
  | step (p q : Nat) (node : Node N) (ps : List Nat) (hp : heap[p]? = some node)
      (hn : node.parent = some q) (hc : Lineage heap q ps) : Lineage heap p (p :: ps)

/-- The states of a list of pointers. -/
def statesOf {N : Nat} (heap : Heap N) (ps : List Nat) : List (Board N) :=
  ps.map (fun q => (heap.deref q).elem)

/-- The arena after the breadth-first scenario has expanded its start node. -/
def scenarioHeap : Heap 3 :=
  (impl.expand [Node.new scenarioStart, Node.new scenarioTarget] 0
    impl.isNotSameWithAncestors).1

/-- The pointer `it` is the first of the range whose node is state-equal to
the node of `child`: what `search::find` returns when it finds one. -/
def FirstEqual {N : Nat} (heap : Heap N) (range : List Nat) (child it : Nat) : Prop :=
  ∃ pre post, range = pre ++ it :: post ∧ (heap.deref it).eq (heap.deref child) = true ∧
    ∀ q ∈ pre, (heap.deref q).eq (heap.deref child) = false

/-- No node of the range is state-equal to the node of `child`: `search::find`
returns the end of the range. -/
def NoEqual {N : Nat} (heap : Heap N) (range : List Nat) (child : Nat) : Prop :=
  ∀ q ∈ range, (heap.deref q).eq (heap.deref child) = false

/-- The comparison of a child loop does not select a node of the range:
either no node is state-equal to the child, or the first one that is fails
the comparison `better`. -/
def NotSelected {N : Nat} (heap : Heap N) (range : List Nat) (child : Nat)
    (better : Nat → Prop) : Prop :=
  NoEqual heap range child ∨ ∃ it, FirstEqual heap range child it ∧ ¬ better it

/-- The child loop writes to the existing node `it`: the update branch (the
first state-equal open node passes the comparison `better`) or the reopen
branch (the open list selects nothing and the first state-equal closed node
passes the comparison). -/
def Selected {N : Nat} (heap : Heap N) (opened closed : List Nat) (child : Nat)
    (better : Nat → Prop) (it : Nat) : Prop :=
  (FirstEqual heap opened child it ∧ better it) ∨
    (NotSelected heap opened child better ∧ FirstEqual heap closed child it ∧ better it)

/-- The pointers of a frontier point into its arena. -/
def Frontier.Valid {N : Nat} (f : Frontier N) : Prop :=
  (∀ q ∈ f.opened, q < f.heap.length) ∧ (∀ q ∈ f.closed, q < f.heap.length)

/-- A frontier with two state-equal open nodes: node `0` is the popped node
(the scenario start), nodes `1` and `2` hold the scenario target at depths
`1` and `3` with recorded costs `1` and `3`, and node `3` is a newly
generated child of node `0` with the same state. -/
def dupFrontier : Frontier 3 :=
  { heap := [Node.new scenarioStart,
             { elem := scenarioTarget, parent := some 0, depth := 1, cost := 1 },
             { elem := scenarioTarget, parent := some 0, depth := 3, cost := 3 },
             mkChild 0 0 scenarioTarget],
    opened := [1, 2],
    closed := [0] }

/-- A frontier whose open node `1` holds the scenario target at depth `3`
with recorded cost `3`; node `0` is the popped node (the scenario start) and
node `2` is a newly generated child of node `0` with the same state. -/
def staleFrontier : Frontier 3 :=
  { heap := [Node.new scenarioStart,
             { elem := scenarioTarget, parent := some 0, depth := 3, cost := 3 },
             mkChild 0 0 scenarioTarget],
    opened := [1],
    closed := [0] }

/-- A frontier whose closed node `1` holds the scenario target at depth `3`
with recorded cost `3`; node `0` is the popped node (the scenario start) and
node `2` is a newly generated child of node `0` with the same state. -/
def reopenFrontier : Frontier 3 :=
  { heap := [Node.new scenarioStart,
             { elem := scenarioTarget, parent := some 0, depth := 3, cost := 3 },
             mkChild 0 0 scenarioTarget],
    opened := [],
    closed := [0, 1] }

/-- The state of the `while` loop of `dfs`. -/
structure DfsState (N : Nat) where
  heap : Heap N
  opened : List Nat
  closed : List Nat
  steps : Nat
  logged : Option Nat

/-- The loop of `dfs` from a state. -/
def dfsFrom {N : Nat} (pt max_depth fuel : Nat) (s : DfsState N) : Option (Outcome N) :=
  dfsLoop pt max_depth fuel s.heap s.opened s.closed s.steps s.logged

/-- The arena of a `dfs` run in progress: the target node is in it, and no
node is deeper than the bound. -/
def HeapOk {N : Nat} (target : Board N) (pt max_depth : Nat) (heap : Heap N) : Prop :=
  pt < heap.length ∧ (heap.deref pt).elem = target ∧ ∀ node ∈ heap, node.depth ≤ max_depth

/-- What the loop of `dfs` does with the top part of its stack, from state
`s` down to the stack `rest`: for some number of iterations, either the
target is found and the loop returns SUCCESS (with no node deeper than the
bound), or it is not and the loop arrives at the stack `rest` with an arena
extended by nodes within the bound. -/
def SubtreeRuns {N : Nat} (pt max_depth : Nat) (found : Bool) (s : DfsState N)
    (rest : List Nat) : Prop :=
  ∃ n,
    (found = true ∧ ∃ o, (∀ fuel, dfsFrom pt max_depth (fuel + n) s = some o) ∧
      o.result.result = results.SUCCESS ∧ ∀ node ∈ o.heap, node.depth ≤ max_depth) ∨
    (found = false ∧ ∃ extra closed steps logged,
      (∀ fuel, dfsFrom pt max_depth (fuel + n) s =
        dfsFrom pt max_depth fuel ⟨s.heap ++ extra, rest, closed, steps, logged⟩) ∧
      ∀ node ∈ extra, node.depth ≤ max_depth)

/-- A heuristic never exceeds the number of applied moves of any sequence that
leads from the node's state to a board equal to the target. -/
def Admissible {N : Nat} (target : Board N) (h : Evaluator N) : Prop :=
  ∀ (n : Node N) (ms : List Move) (b : Board N),
    applyMoves n.elem ms = some b → b.eq target = true → h n ≤ (ms.length : Int)

/-- The start board of the run on which `aStar` reports a stale depth. -/
def trapStart : Board 3 := Board.ofList 3 [0, 1, 2, 3, 4, 5, 6, 7, 8]

/-- The target board of that run, six moves from the start. -/
def trapTarget : Board 3 := Board.ofList 3 [4, 2, 0, 1, 3, 5, 6, 7, 8]

/-- Six moves that lead from `trapStart` to `trapTarget`. -/
def trapMoves : List Move := [.RIGHT, .DOWN, .LEFT, .UP, .RIGHT, .RIGHT]

/-- The grids after one to six moves of the detour `DOWN, RIGHT, UP, LEFT,
DOWN, RIGHT` from `trapStart`; one more `UP` reaches the board that
`RIGHT, DOWN, LEFT, UP, RIGHT` reaches in five moves. -/
def trapZero : List (List Nat) :=
  [[3, 1, 2, 0, 4, 5, 6, 7, 8], [3, 1, 2, 4, 0, 5, 6, 7, 8], [3, 0, 2, 4, 1, 5, 6, 7, 8],
   [0, 3, 2, 4, 1, 5, 6, 7, 8], [4, 3, 2, 0, 1, 5, 6, 7, 8], [4, 3, 2, 1, 0, 5, 6, 7, 8]]

/-- An admissible heuristic for `trapTarget`: zero on the detour, half the
similarity value to the target elsewhere. -/
def trapHeuristic : Evaluator 3 := fun node =>
  if node.elem.grid ∈ trapZero then 0
  else if IsPermutation node.elem ∧ node.elem.blank_index < SIZE 3 then
    node.elem.similarityCalculate trapTarget / 2
  else 0

/-- The parent chains of the children that `impl::expand` keeps for a node
with parent chain `c` (the node's own state first), in generation order. -/
def kids {N : Nat} : List (Board N) → List (List (Board N))
  | [] => []
  | s :: anc => (s.expand.filter (passes (s :: anc))).map (fun e => e :: s :: anc)

/-- The nodes `d` levels below a node of the breadth-first tree, as parent
chains, in generation order. -/
def levelFrom {N : Nat} : Nat → List (Board N) → List (List (Board N))
  | 0, c => [c]
  | d + 1, c => (kids c).flatMap (levelFrom d)

/-- The node of a parent chain holds a state equal to the target. -/
def atTarget {N : Nat} (target : Board N) : List (Board N) → Bool
  | [] => false
  | s :: _ => s.eq target

/-- A pointer of the queue of `bfs` with its parent chain: the depth of the
node is the number of its ancestors. -/
def Queued {N : Nat} (heap : Heap N) (q : Nat) (c : List (Board N)) : Prop :=
  Chain heap q c ∧ (heap.deref q).depth + 1 = c.length

/-- The state of the loop of `bfs` while level `m` of the tree is being
expanded: the nodes `done` of the level have been expanded, the queue holds
the nodes `rest` of the level followed by the children of `done`, and no node
generated so far holds a state equal to the target. -/
def BfsInv {N : Nat} (start target : Board N) (pt : Nat) (heap : Heap N) (opened : List Nat)
    (m : Nat) (done rest : List (List (Board N))) : Prop :=
  pt < heap.length ∧ (heap.deref pt).elem = target ∧
  levelFrom m [start] = done ++ rest ∧
  List.Forall₂ (Queued heap) opened (rest ++ done.flatMap kids) ∧
  (∀ j, j ≤ m → ∀ c ∈ levelFrom j [start], atTarget target c = false) ∧
  (∀ c ∈ done.flatMap kids, atTarget target c = false)

end search

/-! # Theorems -/

namespace board


theorem pos_of_blank_lt {N i : Nat} (h : i < SIZE N) : 0 < N := by
  rcases Nat.eq_zero_or_pos N with h0 | h0
  · subst h0; simp [SIZE] at h
  · exact h0

theorem row_lt {N i : Nat} (h : i < SIZE N) : i / N < N := by
  have hN := pos_of_blank_lt h
  exact Nat.div_lt_of_lt_mul (by simpa [SIZE] using h)

theorem not_ge_iff_row_zero {N i : Nat} (hN : 0 < N) : ¬ i ≥ N ↔ i / N = 0 := by
  rw [Nat.div_eq_zero_iff hN]; omega

theorem not_lt_iff_last_row {N i : Nat} (h : i < SIZE N) :
    ¬ i < SIZE N - N ↔ i / N = N - 1 := by
  have hN := pos_of_blank_lt h
  have hr := row_lt h
  have hs : SIZE N - N = (N - 1) * N := by
    unfold SIZE; rw [Nat.sub_mul]; simp
  rw [hs]
  constructor
  · intro hge
    have : N - 1 ≤ i / N := (Nat.le_div_iff_mul_le hN).2 (by omega)
    omega
  · intro he hlt
    have : N - 1 ≤ i / N := by omega
    have := (Nat.le_div_iff_mul_le hN).1 this
    omega

theorem moveBlank_fst_iff_ne {N : Nat} (b : Board N) (d : Move) :
    (b.moveBlank d).1 = true ↔ b.blank_index ≠ (moveTarget b d).1 := by
  unfold Board.moveBlank
  by_cases h : b.blank_index ≠ (moveTarget b d).1
  · simp only [h, ne_eq, not_false_eq_true, if_true]
  · simp only [h, if_false, Bool.false_eq_true]

/-- The flag of `moveBlank` in terms of the guards. -/
theorem moveBlank_fst {N : Nat} (b : Board N) (d : Move) (hN : 0 < N) :
    (b.moveBlank d).1 = true ↔
      (d = .LEFT ∧ b.blank_index % N ≠ 0) ∨ (d = .UP ∧ b.blank_index ≥ N) ∨
      (d = .RIGHT ∧ b.blank_index % N ≠ N - 1) ∨ (d = .DOWN ∧ b.blank_index < SIZE N - N) := by
  rw [moveBlank_fst_iff_ne]
  cases d <;> simp only [moveTarget]
  · by_cases h : b.blank_index % N = 0
    · simp [h]
    · have : 0 < b.blank_index := by
        rcases Nat.eq_zero_or_pos b.blank_index with h0 | h0
        · simp [h0] at h
        · exact h0
      simp only [ne_eq, h, not_false_eq_true, if_true]
      simp; omega
  · by_cases h : b.blank_index ≥ N
    · simp only [h, if_true]; simp; omega
    · simp [h]
  · by_cases h : b.blank_index % N = N - 1
    · simp [h]
    · simp [h]
  · by_cases h : b.blank_index < SIZE N - N
    · simp only [h, if_true]; simp; omega
    · simp [h]
  · simp

theorem moveBlank_false_snd {N : Nat} (b : Board N) (d : Move) (hN : 0 < N)
    (h : (b.moveBlank d).1 = false) : (b.moveBlank d).2 = b := by
  have h1 := moveBlank_fst b d hN
  rw [h] at h1
  simp only [Bool.false_eq_true, false_iff, not_or, not_and] at h1
  obtain ⟨hl, hu, hr, hd⟩ := h1
  cases d <;> simp only [Board.moveBlank, moveTarget]
  · have := hl rfl
    simp at this
    simp [this]
  · have := hu rfl
    simp [this]
  · have := hr rfl
    simp at this
    simp [this]
  · have := hd rfl
    simp [this]
  · simp

/-- C7: on a board whose blank index is below `SIZE`, `moveBlank` returns
false exactly for `LEFT` in column `0`, `UP` in row `0`, `RIGHT` in column
`N - 1`, `DOWN` in row `N - 1`, and for the sentinel `IDLE`; and when it
returns false the grid, the blank index and the stored hash are unchanged. -/
theorem moveBlank_false_iff {N : Nat} (b : Board N) (d : Move) (hb : b.blank_index < SIZE N) :
    ((b.moveBlank d).1 = false ↔
      (d = .LEFT ∧ colOf N b.blank_index = 0) ∨ (d = .UP ∧ rowOf N b.blank_index = 0) ∨
      (d = .RIGHT ∧ colOf N b.blank_index = N - 1) ∨
      (d = .DOWN ∧ rowOf N b.blank_index = N - 1) ∨ d = .IDLE) ∧
    ((b.moveBlank d).1 = false →
      (b.moveBlank d).2.grid = b.grid ∧ (b.moveBlank d).2.blank_index = b.blank_index ∧
      (b.moveBlank d).2.hashcode = b.hashcode) := by
  have hN := pos_of_blank_lt hb
  refine ⟨?_, fun h => by rw [moveBlank_false_snd b d hN h]; exact ⟨rfl, rfl, rfl⟩⟩
  rw [← Bool.not_eq_true, moveBlank_fst b d hN]
  unfold colOf rowOf
  rw [← not_ge_iff_row_zero hN, ← not_lt_iff_last_row hb]
  cases d <;> simp

/-- A concrete instance of `moveBlank_false_iff`, with its hypotheses discharged. -/
theorem moveBlank_false_iff_witness :
    (Board.ofList 3 [1, 2, 3, 4, 5, 6, 7, 0, 8]).blank_index < SIZE 3 ∧
    ((((Board.ofList 3 [1, 2, 3, 4, 5, 6, 7, 0, 8]).moveBlank Move.DOWN).1 = false ↔
      (Move.DOWN = .LEFT ∧ colOf 3 (Board.ofList 3 [1, 2, 3, 4, 5, 6, 7, 0, 8]).blank_index = 0) ∨
      (Move.DOWN = .UP ∧ rowOf 3 (Board.ofList 3 [1, 2, 3, 4, 5, 6, 7, 0, 8]).blank_index = 0) ∨
      (Move.DOWN = .RIGHT ∧
        colOf 3 (Board.ofList 3 [1, 2, 3, 4, 5, 6, 7, 0, 8]).blank_index = 3 - 1) ∨
      (Move.DOWN = .DOWN ∧
        rowOf 3 (Board.ofList 3 [1, 2, 3, 4, 5, 6, 7, 0, 8]).blank_index = 3 - 1) ∨
      Move.DOWN = .IDLE) ∧
    (((Board.ofList 3 [1, 2, 3, 4, 5, 6, 7, 0, 8]).moveBlank Move.DOWN).1 = false →
      ((Board.ofList 3 [1, 2, 3, 4, 5, 6, 7, 0, 8]).moveBlank Move.DOWN).2.grid =
        (Board.ofList 3 [1, 2, 3, 4, 5, 6, 7, 0, 8]).grid ∧
      ((Board.ofList 3 [1, 2, 3, 4, 5, 6, 7, 0, 8]).moveBlank Move.DOWN).2.blank_index =
        (Board.ofList 3 [1, 2, 3, 4, 5, 6, 7, 0, 8]).blank_index ∧
      ((Board.ofList 3 [1, 2, 3, 4, 5, 6, 7, 0, 8]).moveBlank Move.DOWN).2.hashcode =
        (Board.ofList 3 [1, 2, 3, 4, 5, 6, 7, 0, 8]).hashcode)) :=
  ⟨by decide, moveBlank_false_iff (Board.ofList 3 [1, 2, 3, 4, 5, 6, 7, 0, 8]) Move.DOWN (by decide)⟩


theorem succ_mod_of_ne {N i : Nat} (hN : 0 < N) (h : i % N ≠ N - 1) :
    (i + 1) % N = i % N + 1 := by
  have hlt := Nat.mod_lt i hN
  have hd := Nat.div_add_mod i N
  have : i + 1 = N * (i / N) + (i % N + 1) := by omega
  rw [this, Nat.mul_add_mod, Nat.mod_eq_of_lt (by omega)]

theorem pred_mod_of_ne {N i : Nat} (hN : 0 < N) (h : i % N ≠ 0) :
    (i - 1) % N = i % N - 1 := by
  have hlt := Nat.mod_lt i hN
  have hd := Nat.div_add_mod i N
  have : i - 1 = N * (i / N) + (i % N - 1) := by omega
  rw [this, Nat.mul_add_mod, Nat.mod_eq_of_lt (by omega)]

theorem length_swapCells (g : List Nat) (i j : Nat) : (swapCells g i j).length = g.length := by
  simp [swapCells]

theorem getElem?_swapCells (g : List Nat) {i j : Nat} (hi : i < g.length) (hj : j < g.length)
    (k : Nat) :
    (swapCells g i j)[k]? = if k = j then g[i]? else if k = i then g[j]? else g[k]? := by
  unfold swapCells
  rw [List.getElem?_set]
  by_cases hkj : j = k
  · subst hkj
    simp [hi, hj, List.getD_eq_getElem?_getD, List.getElem?_eq_getElem]
  · have hkj2 : ¬ k = j := fun h => hkj h.symm
    rw [if_neg hkj, if_neg hkj2, List.getElem?_set]
    by_cases hki : i = k
    · subst hki
      simp [hi, hj, List.getD_eq_getElem?_getD, List.getElem?_eq_getElem]
    · have hki2 : ¬ k = i := fun h => hki h.symm
      rw [if_neg hki, if_neg hki2]

theorem swapCells_swapCells (g : List Nat) {i j : Nat} (hi : i < g.length) (hj : j < g.length) :
    swapCells (swapCells g i j) j i = g := by
  apply List.ext_getElem?
  intro k
  have h1 := getElem?_swapCells (swapCells g i j) (i := j) (j := i)
    (by rw [length_swapCells]; exact hj) (by rw [length_swapCells]; exact hi) k
  have h2 := getElem?_swapCells g hi hj
  rw [h1, h2 i, h2 j, h2 k]
  by_cases hki : k = i
  · subst hki; simp
  · by_cases hkj : k = j
    · subst hkj
      have : ¬ i = k := fun h => hki h.symm
      simp [hki, this]
    · simp [hki, hkj]

theorem moveBlank_true_snd {N : Nat} (b : Board N) (d : Move) (h : (b.moveBlank d).1 = true) :
    (b.moveBlank d).2 =
      { grid := (moveTarget b d).2, blank_index := (moveTarget b d).1,
        hashcode := hashGrid (moveTarget b d).2 } := by
  have hne : b.blank_index ≠ (moveTarget b d).1 := by
    unfold Board.moveBlank at h
    by_cases hc : b.blank_index ≠ (moveTarget b d).1
    · exact hc
    · simp only [hc, if_false, Bool.false_eq_true] at h
  unfold Board.moveBlank
  simp only [hne, ne_eq, not_false_eq_true, if_true]

theorem moveBlank_of_target {N : Nat} (c : Board N) (d : Move) (n : Nat) (g : List Nat)
    (ht : moveTarget c d = (n, g)) (hne : c.blank_index ≠ n) :
    c.moveBlank d = (true, { grid := g, blank_index := n, hashcode := hashGrid g }) := by
  unfold Board.moveBlank
  rw [ht]
  simp only [hne, ne_eq, not_false_eq_true, if_true]

/-- C8: on a board whose stored hash is the hash of its grid and whose blank
index is in range, a `moveBlank` that returns true followed by `moveBlank` of
the opposite direction returns true again and restores the grid, the blank
index and the stored hash. -/
theorem moveBlank_opposite_restores {N : Nat} (b : Board N) (d : Move)
    (hlen : b.grid.length = SIZE N) (hhash : b.hashcode = b.hash) (hb : b.blank_index < SIZE N)
    (h : (b.moveBlank d).1 = true) :
    ((b.moveBlank d).2.moveBlank d.opposite).1 = true ∧
    ((b.moveBlank d).2.moveBlank d.opposite).2.grid = b.grid ∧
    ((b.moveBlank d).2.moveBlank d.opposite).2.blank_index = b.blank_index ∧
    ((b.moveBlank d).2.moveBlank d.opposite).2.hashcode = b.hashcode := by
  have hN := pos_of_blank_lt hb
  have hg := (moveBlank_fst b d hN).1 h
  have hbl : b.blank_index < b.grid.length := by rw [hlen]; exact hb
  have hmod := Nat.mod_lt b.blank_index hN
  have key : ∀ n, n < b.grid.length → b.blank_index ≠ n →
      moveTarget b d = (n, swapCells b.grid b.blank_index n) →
      moveTarget (⟨swapCells b.grid b.blank_index n, n,
          hashGrid (swapCells b.grid b.blank_index n)⟩ : Board N) d.opposite =
        (b.blank_index, swapCells (swapCells b.grid b.blank_index n) n b.blank_index) →
      ((b.moveBlank d).2.moveBlank d.opposite) = (true, b) := by
    intro n hn hne h1 h2
    rw [moveBlank_of_target b d n _ h1 hne]
    rw [moveBlank_of_target _ d.opposite _ _ h2 (fun e => hne e.symm)]
    rw [swapCells_swapCells b.grid hbl hn]
    cases b
    simp only [Board.hash] at hhash
    simp [hhash]
  suffices e : (b.moveBlank d).2.moveBlank d.opposite = (true, b) by
    rw [e]; exact ⟨rfl, rfl, rfl, rfl⟩
  rcases hg with ⟨rfl, hc⟩ | ⟨rfl, hc⟩ | ⟨rfl, hc⟩ | ⟨rfl, hc⟩
  · have hpos : 0 < b.blank_index := by
      rcases Nat.eq_zero_or_pos b.blank_index with h0 | h0
      · simp [h0] at hc
      · exact h0
    have hm := pred_mod_of_ne hN hc
    apply key (b.blank_index - 1) (by omega) (by omega)
    · simp only [moveTarget, hc, ne_eq, not_false_eq_true, if_true]
    · have : (b.blank_index - 1) % N ≠ N - 1 := by omega
      simp only [moveTarget, Move.opposite, this, ne_eq, not_false_eq_true, if_true]
      have : b.blank_index - 1 + 1 = b.blank_index := by omega
      rw [this]
  · apply key (b.blank_index - N) (by omega) (by omega)
    · simp only [moveTarget, hc, if_true]
    · have hs : b.blank_index - N < SIZE N - N := by omega
      simp only [moveTarget, Move.opposite, hs, if_true]
      have : b.blank_index - N + N = b.blank_index := by omega
      rw [this]
  · have hm := succ_mod_of_ne hN hc
    have hr := row_lt hb
    have hd := Nat.div_add_mod b.blank_index N
    have hlt : b.blank_index + 1 < SIZE N := by
      have h1 : N * (b.blank_index / N) + N ≤ N * N := by
        have : N * (b.blank_index / N + 1) ≤ N * N := Nat.mul_le_mul_left N hr
        rw [Nat.mul_add, Nat.mul_one] at this
        exact this
      unfold SIZE
      omega
    apply key (b.blank_index + 1) (by omega) (by omega)
    · simp only [moveTarget, hc, ne_eq, not_false_eq_true, if_true]
    · have : (b.blank_index + 1) % N ≠ 0 := by omega
      simp only [moveTarget, Move.opposite, this, ne_eq, not_false_eq_true, if_true]
      have : b.blank_index + 1 - 1 = b.blank_index := by omega
      rw [this]
  · have hNle : N ≤ SIZE N := Nat.le_mul_of_pos_left N hN
    apply key (b.blank_index + N) (by omega) (by omega)
    · simp only [moveTarget, hc, if_true]
    · have hs : b.blank_index + N ≥ N := by omega
      simp only [moveTarget, Move.opposite, hs, if_true]
      have : b.blank_index + N - N = b.blank_index := by omega
      rw [this]

/-- A concrete instance of `moveBlank_opposite_restores`, with its hypotheses discharged. -/
theorem moveBlank_opposite_restores_witness :
    (Board.ofList 3 [1, 2, 3, 4, 5, 6, 7, 0, 8]).grid.length = SIZE 3 ∧
    (Board.ofList 3 [1, 2, 3, 4, 5, 6, 7, 0, 8]).hashcode =
      (Board.ofList 3 [1, 2, 3, 4, 5, 6, 7, 0, 8]).hash ∧
    (Board.ofList 3 [1, 2, 3, 4, 5, 6, 7, 0, 8]).blank_index < SIZE 3 ∧
    ((Board.ofList 3 [1, 2, 3, 4, 5, 6, 7, 0, 8]).moveBlank Move.UP).1 = true ∧
    ((((Board.ofList 3 [1, 2, 3, 4, 5, 6, 7, 0, 8]).moveBlank Move.UP).2.moveBlank
        Move.UP.opposite).1 = true ∧
     (((Board.ofList 3 [1, 2, 3, 4, 5, 6, 7, 0, 8]).moveBlank Move.UP).2.moveBlank
        Move.UP.opposite).2.grid = (Board.ofList 3 [1, 2, 3, 4, 5, 6, 7, 0, 8]).grid ∧
     (((Board.ofList 3 [1, 2, 3, 4, 5, 6, 7, 0, 8]).moveBlank Move.UP).2.moveBlank
        Move.UP.opposite).2.blank_index =
        (Board.ofList 3 [1, 2, 3, 4, 5, 6, 7, 0, 8]).blank_index ∧
     (((Board.ofList 3 [1, 2, 3, 4, 5, 6, 7, 0, 8]).moveBlank Move.UP).2.moveBlank
        Move.UP.opposite).2.hashcode = (Board.ofList 3 [1, 2, 3, 4, 5, 6, 7, 0, 8]).hashcode) :=
  ⟨by decide, by decide, by decide, by decide,
   moveBlank_opposite_restores (Board.ofList 3 [1, 2, 3, 4, 5, 6, 7, 0, 8]) Move.UP
     (by decide) (by decide) (by decide) (by decide)⟩

theorem expand_eq_filterMap {N : Nat} (b : Board N) :
    b.expand = [Move.LEFT, Move.UP, Move.RIGHT, Move.DOWN].filterMap
      (fun d => if (b.moveBlank d).1 = true then some (b.moveBlank d).2 else none) := by
  simp only [Board.expand, expandLoop, Move.next, ne_eq, reduceCtorEq, not_false_eq_true, if_true,
    not_true_eq_false, if_false, List.filterMap_cons, List.filterMap_nil]
  cases (b.moveBlank Move.LEFT).1 <;> cases (b.moveBlank Move.UP).1 <;>
    cases (b.moveBlank Move.RIGHT).1 <;> cases (b.moveBlank Move.DOWN).1 <;> simp

theorem expand_length_eq {N : Nat} (b : Board N) :
    b.expand.length =
      (if (b.moveBlank .LEFT).1 = true then 1 else 0) + (if (b.moveBlank .UP).1 = true then 1 else 0) +
      (if (b.moveBlank .RIGHT).1 = true then 1 else 0) +
      (if (b.moveBlank .DOWN).1 = true then 1 else 0) := by
  rw [expand_eq_filterMap]
  simp only [List.filterMap_cons, List.filterMap_nil]
  cases (b.moveBlank Move.LEFT).1 <;> cases (b.moveBlank Move.UP).1 <;>
    cases (b.moveBlank Move.RIGHT).1 <;> cases (b.moveBlank Move.DOWN).1 <;> simp

/-- C9: for `N ≥ 2` and a blank index below `SIZE`, `expand` returns two
boards when the blank is in a corner (first or last row and first or last
column), three when it is on exactly one edge, four when it is on none. -/
theorem expand_length_by_position {N : Nat} (b : Board N) (hN : 2 ≤ N)
    (hb : b.blank_index < SIZE N) :
    (onRowEdge N b.blank_index ∧ onColEdge N b.blank_index → b.expand.length = 2) ∧
    ((onRowEdge N b.blank_index ∧ ¬ onColEdge N b.blank_index) ∨
      (¬ onRowEdge N b.blank_index ∧ onColEdge N b.blank_index) → b.expand.length = 3) ∧
    (¬ onRowEdge N b.blank_index ∧ ¬ onColEdge N b.blank_index → b.expand.length = 4) := by
  have hN0 : 0 < N := by omega
  have hL : (b.moveBlank .LEFT).1 = true ↔ ¬ colOf N b.blank_index = 0 := by
    rw [moveBlank_fst b _ hN0]; simp [colOf]
  have hU : (b.moveBlank .UP).1 = true ↔ ¬ rowOf N b.blank_index = 0 := by
    have e := not_ge_iff_row_zero (i := b.blank_index) hN0
    rw [moveBlank_fst b _ hN0]; unfold rowOf; rw [← e]; simp
  have hR : (b.moveBlank .RIGHT).1 = true ↔ ¬ colOf N b.blank_index = N - 1 := by
    rw [moveBlank_fst b _ hN0]; simp [colOf]
  have hD : (b.moveBlank .DOWN).1 = true ↔ ¬ rowOf N b.blank_index = N - 1 := by
    have e := not_lt_iff_last_row hb
    rw [moveBlank_fst b _ hN0]; unfold rowOf; rw [← e]
    simp only [reduceCtorEq, false_and, false_or, true_and, not_not]
  rw [expand_length_eq]
  simp only [hL, hU, hR, hD, onRowEdge, onColEdge]
  generalize rowOf N b.blank_index = r
  generalize colOf N b.blank_index = c
  refine ⟨?_, ?_, ?_⟩
  · intro h; split_ifs <;> omega
  · intro h; split_ifs <;> omega
  · intro h; split_ifs <;> omega

/-- A concrete instance of `expand_length_by_position`, with its hypotheses discharged. -/
theorem expand_length_by_position_witness :
    2 ≤ 3 ∧ (Board.ofList 3 [1, 2, 3, 4, 5, 6, 7, 0, 8]).blank_index < SIZE 3 ∧
    ((onRowEdge 3 (Board.ofList 3 [1, 2, 3, 4, 5, 6, 7, 0, 8]).blank_index ∧
        onColEdge 3 (Board.ofList 3 [1, 2, 3, 4, 5, 6, 7, 0, 8]).blank_index →
      (Board.ofList 3 [1, 2, 3, 4, 5, 6, 7, 0, 8]).expand.length = 2) ∧
    ((onRowEdge 3 (Board.ofList 3 [1, 2, 3, 4, 5, 6, 7, 0, 8]).blank_index ∧
        ¬ onColEdge 3 (Board.ofList 3 [1, 2, 3, 4, 5, 6, 7, 0, 8]).blank_index) ∨
      (¬ onRowEdge 3 (Board.ofList 3 [1, 2, 3, 4, 5, 6, 7, 0, 8]).blank_index ∧
        onColEdge 3 (Board.ofList 3 [1, 2, 3, 4, 5, 6, 7, 0, 8]).blank_index) →
      (Board.ofList 3 [1, 2, 3, 4, 5, 6, 7, 0, 8]).expand.length = 3) ∧
    (¬ onRowEdge 3 (Board.ofList 3 [1, 2, 3, 4, 5, 6, 7, 0, 8]).blank_index ∧
        ¬ onColEdge 3 (Board.ofList 3 [1, 2, 3, 4, 5, 6, 7, 0, 8]).blank_index →
      (Board.ofList 3 [1, 2, 3, 4, 5, 6, 7, 0, 8]).expand.length = 4)) :=
  ⟨by decide, by decide,
   expand_length_by_position (Board.ofList 3 [1, 2, 3, 4, 5, 6, 7, 0, 8]) (by decide) (by decide)⟩

theorem swapCells_self (g : List Nat) (i : Nat) : swapCells g i i = g := by
  apply List.ext_getElem?
  intro k
  unfold swapCells
  rw [List.getElem?_set, List.getElem?_set]
  by_cases hik : i = k
  · subst hik
    by_cases hi : i < g.length
    · simp [hi, List.getD_eq_getElem?_getD, List.getElem?_eq_getElem]
    · simp [hi, List.getElem?_eq_none (Nat.le_of_not_lt hi)]
  · simp [hik]

theorem moveTarget_snd_of_fst_eq {N : Nat} (b : Board N) (d : Move)
    (h : (moveTarget b d).1 = b.blank_index) : (moveTarget b d).2 = b.grid := by
  cases d <;> simp only [moveTarget] at h ⊢
  · by_cases hc : b.blank_index % N ≠ 0
    · rw [if_pos hc] at h ⊢; simp only at h ⊢; rw [h, swapCells_self]
    · rw [if_neg hc]
  · by_cases hc : b.blank_index ≥ N
    · rw [if_pos hc] at h ⊢; simp only at h ⊢; rw [h, swapCells_self]
    · rw [if_neg hc]
  · by_cases hc : b.blank_index % N ≠ N - 1
    · rw [if_pos hc] at h ⊢; simp only at h ⊢; rw [h, swapCells_self]
    · rw [if_neg hc]
  · by_cases hc : b.blank_index < SIZE N - N
    · rw [if_pos hc] at h ⊢; simp only at h ⊢; rw [h, swapCells_self]
    · rw [if_neg hc]

theorem hashOk_ofList (N : Nat) (il : List Nat) : HashOk (Board.ofList N il) := rfl

theorem hashOk_moveBlank {N : Nat} (b : Board N) (d : Move) (h : HashOk b) :
    HashOk (b.moveBlank d).2 := by
  unfold HashOk Board.hash Board.moveBlank
  by_cases hc : b.blank_index ≠ (moveTarget b d).1
  · simp only [hc, ne_eq, not_false_eq_true, if_true]
  · simp only [hc, if_false]
    have : (moveTarget b d).1 = b.blank_index := by
      simp only [ne_eq, not_not] at hc; exact hc.symm
    rw [moveTarget_snd_of_fst_eq b d this]
    exact h

theorem hashOk_of_built {N : Nat} {b : Board N} (h : Built b) : HashOk b := by
  induction h with
  | ofList il _ _ => exact hashOk_ofList N il
  | moveBlank b d _ ih => exact hashOk_moveBlank b d ih

theorem eq_iff {N : Nat} (a b : Board N) :
    a.eq b = true ↔ a.hashcode = b.hashcode ∧ a.grid = b.grid := by
  simp [Board.eq]

theorem eq_iff_grid_of_hashOk {N : Nat} {a b : Board N} (ha : HashOk a) (hb : HashOk b) :
    a.eq b = true ↔ a.grid = b.grid := by
  rw [eq_iff]
  constructor
  · exact fun h => h.2
  · intro h
    refine ⟨?_, h⟩
    rw [ha, hb, Board.hash, Board.hash, h]

/-- C10: `operator==` is reflexive, symmetric and transitive, and on boards
produced by the initializer-list constructor followed by copies and
`moveBlank` calls it holds exactly when the grids are equal cell by cell. -/
theorem eq_equivalence_and_grid {N : Nat} :
    (∀ a : Board N, a.eq a = true) ∧
    (∀ a b : Board N, a.eq b = true → b.eq a = true) ∧
    (∀ a b c : Board N, a.eq b = true → b.eq c = true → a.eq c = true) ∧
    (∀ a b : Board N, Built a → Built b → (a.eq b = true ↔ a.grid = b.grid)) := by
  refine ⟨?_, ?_, ?_, ?_⟩
  · intro a; rw [eq_iff]; exact ⟨rfl, rfl⟩
  · intro a b h; rw [eq_iff] at *; exact ⟨h.1.symm, h.2.symm⟩
  · intro a b c h1 h2; rw [eq_iff] at *; exact ⟨h1.1.trans h2.1, h1.2.trans h2.2⟩
  · intro a b ha hb
    exact eq_iff_grid_of_hashOk (hashOk_of_built ha) (hashOk_of_built hb)

/-- A concrete instance of `eq_equivalence_and_grid`, with its hypotheses discharged. -/
theorem eq_equivalence_and_grid_witness :
    Built (Board.ofList 3 [1, 2, 3, 4, 5, 6, 7, 8, 0]) ∧
    Built ((Board.ofList 3 [1, 2, 3, 4, 5, 6, 7, 0, 8]).moveBlank Move.RIGHT).2 ∧
    (((Board.ofList 3 [1, 2, 3, 4, 5, 6, 7, 8, 0]).eq
        ((Board.ofList 3 [1, 2, 3, 4, 5, 6, 7, 0, 8]).moveBlank Move.RIGHT).2 = true) ↔
      (Board.ofList 3 [1, 2, 3, 4, 5, 6, 7, 8, 0]).grid =
        ((Board.ofList 3 [1, 2, 3, 4, 5, 6, 7, 0, 8]).moveBlank Move.RIGHT).2.grid) :=
  ⟨Built.ofList _ (by decide) (by decide),
   Built.moveBlank _ _ (Built.ofList _ (by decide) (by decide)),
   eq_equivalence_and_grid.2.2.2 _ _ (Built.ofList _ (by decide) (by decide))
     (Built.moveBlank _ _ (Built.ofList _ (by decide) (by decide)))⟩

end board

namespace search

open board

theorem bfs_scenario_run (n : Nat) :
    bfs (n + 1) scenarioStart scenarioTarget = some ⟨results.SUCCESS, 4⟩ := by
  rfl

theorem bfs_scenario_zero : bfs 0 scenarioStart scenarioTarget = none := by
  rfl

/-- C1, as amended: in the scenario the target is one rightward blank move
from the start, and `bfs` returns SUCCESS with `steps == 4`: the start node
and the three children generated up to the match are each counted.  The
matched node is the fifth node of the arena. -/
theorem bfs_scenario_four_steps :
    scenarioStart.moveBlank Move.RIGHT = (true, scenarioTarget) ∧
    (∀ n, bfs (n + 1) scenarioStart scenarioTarget = some ⟨results.SUCCESS, 4⟩) ∧
    (∀ n, (bfsRun (n + 1) scenarioStart scenarioTarget).map (fun o => o.logged) = some (some 4)) :=
  ⟨by decide, bfs_scenario_run, fun _ => rfl⟩

/-- C1, as stated, fails: in the scenario `bfs` never returns SUCCESS with
`steps == 1`. -/
theorem bfs_scenario_not_one_step :
    ¬ ∃ fuel, bfs fuel scenarioStart scenarioTarget = some ⟨results.SUCCESS, 1⟩ := by
  rintro ⟨fuel, h⟩
  cases fuel with
  | zero => rw [bfs_scenario_zero] at h; cases h
  | succ n => rw [bfs_scenario_run] at h; cases h

/-- C2: when start and target are the same board, `bfs`, `dfs` (any bound),
`bestFS` (any evaluator) and `aStar` (any `g`, `h`) return SUCCESS with
`steps == 0`, whatever the fuel. -/
theorem search_same_board_zero_steps {N : Nat} (s : Board N) (fuel max_depth : Nat)
    (evaluator g h : Evaluator N) :
    bfs fuel s s = some ⟨results.SUCCESS, 0⟩ ∧
    dfs fuel s s max_depth = some ⟨results.SUCCESS, 0⟩ ∧
    bestFS fuel s s evaluator = some ⟨results.SUCCESS, 0⟩ ∧
    aStar fuel s s g h = some ⟨results.SUCCESS, 0⟩ := by
  have hs : s.eq s = true := by simp [Board.eq]
  simp [bfs, bfsRun, dfs, dfsRun, bestFS, bestFSRun, aStar, aStarRun, hs, Result.make]

/-- C6: when start and target differ, `dfs` with bound `0` returns FAILED
with a step count of `1`: the start node is logged and nothing is expanded
(the arena holds the start and target nodes only). -/
theorem dfs_zero_bound_fails {N : Nat} (start target : Board N)
    (hne : start.eq target = false) (n : Nat) :
    dfs (n + 1) start target 0 = some ⟨results.FAILED, 1⟩ ∧
    (∃ o, dfsRun (n + 1) start target 0 = some o ∧ o.logged = some 0 ∧
      o.heap = [Node.new start, Node.new target]) := by
  have hc : impl.check [Node.new start, Node.new target] 0 1 = false := by
    simp [impl.check, Heap.deref, Node.eq, Node.new, hne]
  have hrun : dfsRun (n + 1) start target 0 =
      some { result := ⟨results.FAILED, 1⟩, heap := [Node.new start, Node.new target],
             logged := some 0 } := by
    simp only [dfsRun, hne, Bool.false_eq_true, if_false, Heap.alloc, List.nil_append,
      List.length_nil, List.length_cons, List.singleton_append, dfsLoop, hc, Heap.deref]
    simp [Node.new, dfsLoop, Result.make]
  refine ⟨by simp [dfs, hrun], _, hrun, rfl, rfl⟩

/-- A concrete instance of `dfs_zero_bound_fails`, with its hypotheses discharged. -/
theorem dfs_zero_bound_fails_witness :
    scenarioStart.eq scenarioTarget = false ∧
    dfs 1 scenarioStart scenarioTarget 0 = some ⟨results.FAILED, 1⟩ :=
  ⟨by decide, (dfs_zero_bound_fails scenarioStart scenarioTarget (by decide) 0).1⟩

end search

namespace board

open search

theorem getElem?_swapCells_swap (g : List Nat) {i j : Nat} (hi : i < g.length)
    (hj : j < g.length) (k : Nat) : (swapCells g i j)[k]? = g[Equiv.swap i j k]? := by
  rw [getElem?_swapCells g hi hj, Equiv.swap_apply_def]
  by_cases h1 : k = j
  · subst h1
    by_cases h2 : k = i
    · subst h2; simp
    · simp [h2]
  · by_cases h2 : k = i
    · subst h2; simp [h1]
    · simp [h1, h2]

theorem swap_lt {n i j k : Nat} (hi : i < n) (hj : j < n) (hk : k < n) :
    Equiv.swap i j k < n := by
  rw [Equiv.swap_apply_def]
  split_ifs <;> assumption

theorem swap_lt_iff {n i j k : Nat} (hi : i < n) (hj : j < n) :
    Equiv.swap i j k < n ↔ k < n := by
  constructor
  · intro h
    have := swap_lt hi hj h
    rwa [Equiv.swap_apply_self] at this
  · exact swap_lt hi hj

theorem map_swap_range_perm {n i j : Nat} (hi : i < n) (hj : j < n) :
    ((List.range n).map (Equiv.swap i j)).Perm (List.range n) := by
  rw [List.perm_ext_iff_of_nodup ((List.nodup_range n).map (Equiv.swap i j).injective)
    (List.nodup_range n)]
  intro a
  simp only [List.mem_map, List.mem_range]
  constructor
  · rintro ⟨k, hk, rfl⟩; exact swap_lt hi hj hk
  · intro ha; exact ⟨Equiv.swap i j a, swap_lt hi hj ha, Equiv.swap_apply_self i j a⟩

theorem eq_map_range_getD (g : List Nat) : g = (List.range g.length).map (fun k => g.getD k 0) := by
  apply List.ext_getElem?
  intro k
  by_cases hk : k < g.length
  · simp [hk, List.getD_eq_getElem?_getD, List.getElem?_eq_getElem]
  · rw [List.getElem?_eq_none (Nat.le_of_not_lt hk), List.getElem?_eq_none]
    simpa using hk

theorem swapCells_eq_map (g : List Nat) {i j : Nat} (hi : i < g.length) (hj : j < g.length) :
    swapCells g i j = (List.range g.length).map (fun k => g.getD (Equiv.swap i j k) 0) := by
  apply List.ext_getElem?
  intro k
  rw [getElem?_swapCells_swap g hi hj]
  by_cases hk : k < g.length
  · have := swap_lt hi hj hk
    simp [hk, this, List.getD_eq_getElem?_getD, List.getElem?_eq_getElem]
  · have hsw : ¬ Equiv.swap i j k < g.length := by rw [swap_lt_iff hi hj]; exact hk
    rw [List.getElem?_eq_none (Nat.le_of_not_lt hsw), List.getElem?_eq_none]
    simpa using hk

theorem swapCells_perm (g : List Nat) {i j : Nat} (hi : i < g.length) (hj : j < g.length) :
    (swapCells g i j).Perm g := by
  have h1 := swapCells_eq_map g hi hj
  have h2 := eq_map_range_getD g
  have h3 : (List.range g.length).map (fun k => g.getD (Equiv.swap i j k) 0) =
      ((List.range g.length).map (Equiv.swap i j)).map (fun k => g.getD k 0) := by
    rw [List.map_map]; rfl
  rw [h1, h3]
  have := (map_swap_range_perm hi hj).map (fun k => g.getD k 0)
  rw [← h2] at this
  exact this

theorem cellDistance_self (N i : Nat) : cellDistance N i i = 0 := by
  simp [cellDistance]

theorem cellDistance_comm (N i j : Nat) : cellDistance N i j = cellDistance N j i := by
  simp only [cellDistance, abs_sub_comm]

theorem cellDistance_triangle (N i j k : Nat) :
    cellDistance N i k ≤ cellDistance N i j + cellDistance N j k := by
  unfold cellDistance
  have h1 := abs_sub_le ((i % N : Nat) : Int) ((j % N : Nat) : Int) ((k % N : Nat) : Int)
  have h2 := abs_sub_le ((i / N : Nat) : Int) ((j / N : Nat) : Int) ((k / N : Nat) : Int)
  omega

theorem cellDistance_of_col {N p q : Nat} (hrow : p / N = q / N)
    (hcol : p % N = q % N + 1 ∨ q % N = p % N + 1) : cellDistance N p q = 1 := by
  unfold cellDistance
  rw [hrow]
  rcases hcol with h | h
  · rw [h]; simp
  · rw [h]; simp

theorem cellDistance_of_row {N p q : Nat} (hcol : p % N = q % N)
    (hrow : p / N = q / N + 1 ∨ q / N = p / N + 1) : cellDistance N p q = 1 := by
  unfold cellDistance
  rw [hcol]
  rcases hrow with h | h
  · rw [h]; simp
  · rw [h]; simp

theorem succ_div_of_ne {N i : Nat} (hN : 0 < N) (h : i % N ≠ N - 1) :
    (i + 1) / N = i / N := by
  have hlt := Nat.mod_lt i hN
  have hd := Nat.div_add_mod i N
  have e : i + 1 = N * (i / N) + (i % N + 1) := by omega
  have z : (i % N + 1) / N = 0 := Nat.div_eq_of_lt (by omega)
  rw [e, Nat.mul_add_div hN, z, Nat.add_zero]

theorem pred_div_of_ne {N i : Nat} (hN : 0 < N) (h : i % N ≠ 0) :
    (i - 1) / N = i / N := by
  have hlt := Nat.mod_lt i hN
  have hd := Nat.div_add_mod i N
  have e : i - 1 = N * (i / N) + (i % N - 1) := by omega
  have z : (i % N - 1) / N = 0 := Nat.div_eq_of_lt (by omega)
  rw [e, Nat.mul_add_div hN, z, Nat.add_zero]

/-- The shape of an applied move: the blank cell is exchanged with a cell at
distance one, which becomes the blank index, and the hash is recomputed. -/
theorem moveBlank_true_shape {N : Nat} (b : Board N) (d : Move) (hb : b.blank_index < SIZE N)
    (h : (b.moveBlank d).1 = true) :
    ∃ q, q < SIZE N ∧ cellDistance N b.blank_index q = 1 ∧
      (b.moveBlank d).2 = ⟨swapCells b.grid b.blank_index q, q,
        hashGrid (swapCells b.grid b.blank_index q)⟩ := by
  have hN := pos_of_blank_lt hb
  have hg := (moveBlank_fst b d hN).1 h
  have hsnd := moveBlank_true_snd b d h
  have hmod := Nat.mod_lt b.blank_index hN
  rcases hg with ⟨rfl, hc⟩ | ⟨rfl, hc⟩ | ⟨rfl, hc⟩ | ⟨rfl, hc⟩
  · have hpos : 0 < b.blank_index := by
      rcases Nat.eq_zero_or_pos b.blank_index with h0 | h0
      · simp [h0] at hc
      · exact h0
    refine ⟨b.blank_index - 1, by omega, ?_, ?_⟩
    · apply cellDistance_of_col
      · rw [pred_div_of_ne hN hc]
      · left; rw [pred_mod_of_ne hN hc]; omega
    · rw [hsnd]; simp only [moveTarget, hc, ne_eq, not_false_eq_true, if_true]
  · refine ⟨b.blank_index - N, by omega, ?_, ?_⟩
    · have e : b.blank_index = (b.blank_index - N) + N := by omega
      apply cellDistance_of_row
      · conv_lhs => rw [e, Nat.add_mod_right]
      · left; conv_lhs => rw [e, Nat.add_div_right _ hN]
    · rw [hsnd]; simp only [moveTarget, hc, if_true]
  · have hr := row_lt hb
    have hd := Nat.div_add_mod b.blank_index N
    have hlt : b.blank_index + 1 < SIZE N := by
      have h1 : N * (b.blank_index / N) + N ≤ N * N := by
        have : N * (b.blank_index / N + 1) ≤ N * N := Nat.mul_le_mul_left N hr
        rw [Nat.mul_add, Nat.mul_one] at this
        exact this
      unfold SIZE
      omega
    refine ⟨b.blank_index + 1, hlt, ?_, ?_⟩
    · apply cellDistance_of_col
      · rw [succ_div_of_ne hN hc]
      · right; rw [succ_mod_of_ne hN hc]
    · rw [hsnd]; simp only [moveTarget, hc, ne_eq, not_false_eq_true, if_true]
  · have hNle : N ≤ SIZE N := Nat.le_mul_of_pos_left N hN
    refine ⟨b.blank_index + N, by omega, ?_, ?_⟩
    · apply cellDistance_of_row
      · rw [Nat.add_mod_right]
      · right; rw [Nat.add_div_right _ hN]
    · rw [hsnd]; simp only [moveTarget, hc, if_true]

theorem locateFrom_eq {N : Nat} (grid : List Nat) (v j : Nat) (hj : j < SIZE N)
    (hv : grid.getD j 0 = v) :
    ∀ fuel i, i ≤ j → j - i < fuel → (∀ k, i ≤ k → k < j → grid.getD k 0 ≠ v) →
      locateFrom N grid v fuel i = j := by
  intro fuel
  induction fuel with
  | zero => intro i _ h; omega
  | succ fuel ih =>
    intro i hij hf hk
    unfold locateFrom
    rcases Nat.eq_or_lt_of_le hij with e | hlt
    · subst e
      rw [if_neg (fun h => h.1 hv)]
    · have h1 : grid.getD i 0 ≠ v := hk i (Nat.le_refl i) hlt
      have h2 : i < SIZE N := by omega
      rw [if_pos ⟨h1, h2⟩]
      exact ih (i + 1) hlt (by omega) (fun k hk1 hk2 => hk k (by omega) hk2)

theorem getD_ne_of_nodup {g : List Nat} (hn : g.Nodup) {k j : Nat} (hkj : k < j)
    (hj : j < g.length) : g.getD k 0 ≠ g.getD j 0 := by
  have hk : k < g.length := by omega
  rw [List.getD_eq_getElem _ _ hk, List.getD_eq_getElem _ _ hj]
  intro e
  have := (hn.getElem_inj_iff).1 e
  omega

theorem locate_getD_of_nodup {N : Nat} (b : Board N) (hn : b.grid.Nodup)
    (hlen : b.grid.length = SIZE N) {j : Nat} (hj : j < SIZE N) :
    b.locate (b.grid.getD j 0) = j := by
  unfold Board.locate
  apply locateFrom_eq b.grid _ j hj rfl (SIZE N + 1) 0 (Nat.zero_le j) (by omega)
  intro k _ hkj
  exact getD_ne_of_nodup hn hkj (by omega)

theorem foldl_add_range (f : Nat → Int) (n : Nat) :
    (List.range n).foldl (fun c i => c + f i) 0 = ∑ i in Finset.range n, f i := by
  induction n with
  | zero => simp
  | succ n ih => rw [List.range_succ, List.foldl_append, ih, Finset.sum_range_succ]; rfl

theorem similarityCalculate_eq_sum {N : Nat} (a b : Board N) :
    a.similarityCalculate b =
      ∑ i in Finset.range (SIZE N), cellDistance N i (b.locate (a.grid.getD i 0)) := by
  unfold Board.similarityCalculate
  exact foldl_add_range _ _

theorem similarityCalculate_self {N : Nat} (a : Board N) (hn : a.grid.Nodup)
    (hlen : a.grid.length = SIZE N) : a.similarityCalculate a = 0 := by
  rw [similarityCalculate_eq_sum]
  apply Finset.sum_eq_zero
  intro i hi
  rw [locate_getD_of_nodup a hn hlen (Finset.mem_range.1 hi), cellDistance_self]

theorem getD_swapCells (g : List Nat) {i j : Nat} (hi : i < g.length) (hj : j < g.length)
    (k : Nat) : (swapCells g i j).getD k 0 = g.getD (Equiv.swap i j k) 0 := by
  rw [List.getD_eq_getElem?_getD, List.getD_eq_getElem?_getD, getElem?_swapCells_swap g hi hj]

theorem sum_cellDistance_swap_le {N n p q : Nat} (hp : p < n) (hq : q < n)
    (hd : cellDistance N p q = 1) :
    ∑ i in Finset.range n, cellDistance N i (Equiv.swap p q i) ≤ 2 := by
  have hle : ∀ i ∈ Finset.range n, cellDistance N i (Equiv.swap p q i) ≤
      (if i = p then (1 : Int) else 0) + (if i = q then (1 : Int) else 0) := by
    intro i _
    rw [Equiv.swap_apply_def]
    by_cases h1 : i = p
    · subst h1
      rw [if_pos rfl, if_pos rfl, hd]
      split_ifs <;> omega
    · by_cases h2 : i = q
      · subst h2
        rw [if_neg h1, if_pos rfl, if_neg h1, if_pos rfl, cellDistance_comm, hd]
        omega
      · rw [if_neg h1, if_neg h2, if_neg h1, if_neg h2, cellDistance_self]
        omega
  refine (Finset.sum_le_sum hle).trans ?_
  rw [Finset.sum_add_distrib, Finset.sum_ite_eq', Finset.sum_ite_eq']
  simp [hp, hq]

/-- One exchange of two cells at distance one in the first board raises the
similarity value to a fixed second board by at most two. -/
theorem similarityCalculate_swap_le {N : Nat} (a a1 b : Board N)
    (hlen : a.grid.length = SIZE N) {p q : Nat} (hp : p < SIZE N) (hq : q < SIZE N)
    (hd : cellDistance N p q = 1) (hg : a1.grid = swapCells a.grid p q) :
    a.similarityCalculate b ≤ a1.similarityCalculate b + 2 := by
  rw [similarityCalculate_eq_sum, similarityCalculate_eq_sum]
  have hp1 : p < a.grid.length := by omega
  have hq1 : q < a.grid.length := by omega
  have hcell : ∀ i, a.grid.getD i 0 = a1.grid.getD (Equiv.swap p q i) 0 := by
    intro i
    rw [hg, getD_swapCells a.grid hp1 hq1, Equiv.swap_apply_self]
  have hre : ∑ i in Finset.range (SIZE N), cellDistance N i (b.locate (a1.grid.getD i 0)) =
      ∑ i in Finset.range (SIZE N),
        cellDistance N (Equiv.swap p q i) (b.locate (a1.grid.getD (Equiv.swap p q i) 0)) := by
    apply Finset.sum_nbij' (Equiv.swap p q) (Equiv.swap p q)
    · intro i hi; exact Finset.mem_range.2 (swap_lt hp hq (Finset.mem_range.1 hi))
    · intro i hi; exact Finset.mem_range.2 (swap_lt hp hq (Finset.mem_range.1 hi))
    · intro i _; exact Equiv.swap_apply_self p q i
    · intro i _; exact Equiv.swap_apply_self p q i
    · intro i _; rw [Equiv.swap_apply_self]
  rw [hre]
  have hsum := sum_cellDistance_swap_le (N := N) hp hq hd
  have hterm : ∀ i ∈ Finset.range (SIZE N),
      cellDistance N i (b.locate (a.grid.getD i 0)) ≤
        cellDistance N (Equiv.swap p q i) (b.locate (a1.grid.getD (Equiv.swap p q i) 0)) +
          cellDistance N i (Equiv.swap p q i) := by
    intro i _
    rw [hcell i]
    have := cellDistance_triangle N i (Equiv.swap p q i)
      (b.locate (a1.grid.getD (Equiv.swap p q i) 0))
    omega
  have := Finset.sum_le_sum hterm
  rw [Finset.sum_add_distrib] at this
  omega

theorem IsPermutation.grid_length {N : Nat} {b : Board N} (h : IsPermutation b) :
    b.grid.length = SIZE N := by
  have := List.Perm.length_eq h
  simpa using this

theorem IsPermutation.nodup {N : Nat} {b : Board N} (h : IsPermutation b) : b.grid.Nodup :=
  (List.Perm.nodup_iff h).2 (List.nodup_range _)

/-- An applied move keeps the grid a permutation and the blank index in
range. -/
theorem moveBlank_true_preserves {N : Nat} (b : Board N) (d : Move) (hp : IsPermutation b)
    (hb : b.blank_index < SIZE N) (h : (b.moveBlank d).1 = true) :
    IsPermutation (b.moveBlank d).2 ∧ (b.moveBlank d).2.blank_index < SIZE N := by
  obtain ⟨q, hq, _, hs⟩ := moveBlank_true_shape b d hb h
  rw [hs]
  have hlen := hp.grid_length
  exact ⟨(swapCells_perm b.grid (by omega) (by omega)).trans hp, hq⟩

theorem similarityCalculate_le_aux {N : Nat} (ms : List Move) :
    ∀ (a b : Board N), IsPermutation a → a.blank_index < SIZE N → applyMoves a ms = some b →
      a.similarityCalculate b ≤ 2 * (ms.length : Int) := by
  induction ms with
  | nil =>
    intro a b ha _ h
    simp only [applyMoves, Option.some.injEq] at h
    subst h
    rw [similarityCalculate_self a ha.nodup ha.grid_length]
    simp
  | cons d ds ih =>
    intro a b ha hbl h
    simp only [applyMoves] at h
    by_cases hf : (a.moveBlank d).1 = true
    · rw [if_pos hf] at h
      obtain ⟨q, hq, hd, hs⟩ := moveBlank_true_shape a d hbl hf
      obtain ⟨hp1, hb1⟩ := moveBlank_true_preserves a d ha hbl hf
      have h1 := ih (a.moveBlank d).2 b hp1 hb1 h
      have h2 := similarityCalculate_swap_le a (a.moveBlank d).2 b ha.grid_length hbl hq hd
        (by rw [hs])
      simp only [List.length_cons, Nat.cast_add, Nat.cast_one]
      omega
    · rw [if_neg hf] at h
      cases h

/-- C4, as amended: for a board `a` whose grid is a permutation of
`0..SIZE-1` (blank index in range) and a board `b` obtained from `a` by a
sequence of `k` applied `moveBlank` moves, `a.similarityCalculate(b) <= 2 * k`:
the sum runs over all cells, the blank included, and one move displaces two
of them by one step each. -/
theorem similarityCalculate_le_twice_moves {N : Nat} (a b : Board N) (ms : List Move)
    (ha : IsPermutation a) (hbl : a.blank_index < SIZE N) (h : applyMoves a ms = some b) :
    a.similarityCalculate b ≤ 2 * (ms.length : Int) :=
  similarityCalculate_le_aux ms a b ha hbl h

/-- A concrete instance of `similarityCalculate_le_twice_moves`, with its hypotheses discharged. -/
theorem similarityCalculate_le_twice_moves_witness :
    IsPermutation scenarioStart ∧ scenarioStart.blank_index < SIZE 3 ∧
    applyMoves scenarioStart [Move.RIGHT] = some scenarioTarget ∧
    scenarioStart.similarityCalculate scenarioTarget ≤ 2 * ([Move.RIGHT].length : Int) :=
  ⟨by decide, by decide, by decide,
   similarityCalculate_le_twice_moves scenarioStart scenarioTarget [Move.RIGHT]
     (by decide) (by decide) (by decide)⟩

/-- C4, as stated, fails: the scenario boards are permutations one applied
move apart, and the similarity value between them is `2`, above `1`. -/
theorem similarityCalculate_not_admissible :
    IsPermutation scenarioStart ∧ IsPermutation scenarioTarget ∧
    applyMoves scenarioStart [Move.RIGHT] = some scenarioTarget ∧
    scenarioStart.similarityCalculate scenarioTarget = 2 ∧
    ¬ scenarioStart.similarityCalculate scenarioTarget ≤ ([Move.RIGHT].length : Int) := by
  decide

end board

namespace search

open board

theorem mem_expand_iff {N : Nat} (b c : Board N) :
    c ∈ b.expand ↔ ∃ d, (b.moveBlank d).1 = true ∧ (b.moveBlank d).2 = c := by
  rw [expand_eq_filterMap]
  simp only [List.mem_filterMap]
  constructor
  · rintro ⟨d, _, hd⟩
    by_cases hf : (b.moveBlank d).1 = true
    · rw [if_pos hf] at hd
      exact ⟨d, hf, Option.some.inj hd⟩
    · rw [if_neg hf] at hd; cases hd
  · rintro ⟨d, hf, hc⟩
    refine ⟨d, ?_, by rw [if_pos hf, hc]⟩
    cases d
    · simp
    · simp
    · simp
    · simp
    · exfalso
      simp [Board.moveBlank, moveTarget] at hf

theorem wellFormed_moveBlank {N : Nat} (b : Board N) (d : Move) (hw : WellFormed b)
    (h : (b.moveBlank d).1 = true) : WellFormed (b.moveBlank d).2 := by
  obtain ⟨hp, hb, hz, _⟩ := hw
  obtain ⟨q, hq, _, hs⟩ := moveBlank_true_shape b d hb h
  obtain ⟨hp1, hb1⟩ := moveBlank_true_preserves b d hp hb h
  refine ⟨hp1, hb1, ?_, ?_⟩
  · rw [hs]
    have hlen := hp.grid_length
    simp only
    rw [List.getD_eq_getElem?_getD, getElem?_swapCells_swap b.grid (by omega) (by omega),
      Equiv.swap_apply_right, ← List.getD_eq_getElem?_getD]
    exact hz
  · rw [hs]; rfl

theorem eq_of_wellFormed {N : Nat} {a b : Board N} (ha : WellFormed a) (hb : WellFormed b)
    (h : a.eq b = true) : a = b := by
  obtain ⟨hg1, hg2⟩ := (eq_iff a b).1 h
  obtain ⟨hpa, hla, hza, _⟩ := ha
  obtain ⟨_, hlb, hzb, _⟩ := hb
  have hlen := hpa.grid_length
  have hbl : a.blank_index = b.blank_index := by
    rw [← hg2] at hzb
    rw [List.getD_eq_getElem _ _ (by omega)] at hza hzb
    exact (hpa.nodup.getElem_inj_iff).1 (hza.trans hzb.symm)
  cases a; cases b
  simp only at hg1 hg2 hbl
  subst hg1; subst hg2; subst hbl
  rfl

theorem reaches_zero {N : Nat} {target s : Board N} :
    Reaches target s 0 ↔ s.eq target = true := by
  constructor
  · rintro ⟨ms, hlen, b, happ, heq⟩
    have : ms = [] := List.length_eq_zero.1 hlen
    subst this
    simp only [applyMoves, Option.some.injEq] at happ
    subst happ
    exact heq
  · intro h
    exact ⟨[], rfl, s, rfl, h⟩

theorem reaches_succ {N : Nat} {target s : Board N} {k : Nat} :
    Reaches target s (k + 1) ↔ ∃ c ∈ s.expand, Reaches target c k := by
  constructor
  · rintro ⟨ms, hlen, b, happ, heq⟩
    cases ms with
    | nil => simp at hlen
    | cons d ds =>
      simp only [applyMoves] at happ
      by_cases hf : (s.moveBlank d).1 = true
      · rw [if_pos hf] at happ
        refine ⟨(s.moveBlank d).2, (mem_expand_iff s _).2 ⟨d, hf, rfl⟩, ds, ?_, b, happ, heq⟩
        simpa using hlen
      · rw [if_neg hf] at happ; cases happ
  · rintro ⟨c, hc, ms, hlen, b, happ, heq⟩
    obtain ⟨d, hf, hd⟩ := (mem_expand_iff s c).1 hc
    refine ⟨d :: ms, by simp [hlen], b, ?_, heq⟩
    simp only [applyMoves]
    rw [if_pos hf, hd]
    exact happ

theorem wellFormed_of_mem_expand {N : Nat} {s c : Board N} (hw : WellFormed s)
    (hc : c ∈ s.expand) : WellFormed c := by
  obtain ⟨d, hf, hd⟩ := (mem_expand_iff s c).1 hc
  rw [← hd]
  exact wellFormed_moveBlank s d hw hf

theorem passes_iff {N : Nat} (chain : List (Board N)) (e : Board N) :
    passes chain e = true ↔ ∀ a ∈ chain, e.eq a = false := by
  simp [passes]

/-- A hit of the bounded tree gives a sequence of applied moves within the
bound. -/
theorem hit_sound {N : Nat} (target : Board N) :
    ∀ (b : Nat) (s : Board N) (anc : List (Board N)), hit target b (s :: anc) = true →
      ∃ k, k ≤ b ∧ Reaches target s k := by
  intro b
  induction b with
  | zero =>
    intro s anc h
    simp only [hit] at h
    exact ⟨0, Nat.le_refl 0, reaches_zero.2 h⟩
  | succ b ih =>
    intro s anc h
    simp only [hit, Bool.or_eq_true, List.any_eq_true, List.mem_filter] at h
    rcases h with h | ⟨c, ⟨hc, _⟩, hh⟩
    · exact ⟨0, Nat.zero_le _, reaches_zero.2 h⟩
    · obtain ⟨k, hk, hr⟩ := ih c (s :: anc) hh
      exact ⟨k + 1, by omega, reaches_succ.2 ⟨c, hc, hr⟩⟩

/-- A shortest sequence of applied moves to the target stays clear of the
parent chain, so the bounded tree holds the target. -/
theorem hit_complete {N : Nat} (target : Board N) :
    ∀ (k : Nat) (s : Board N) (anc : List (Board N)) (b : Nat), WellFormed s →
      (∀ a ∈ anc, WellFormed a ∧ ∀ j, j ≤ k → ¬ Reaches target a j) →
      Reaches target s k → (∀ j, j < k → ¬ Reaches target s j) → k ≤ b →
      hit target b (s :: anc) = true := by
  intro k
  induction k with
  | zero =>
    intro s anc b _ _ hr _ _
    have := reaches_zero.1 hr
    cases b <;> simp [hit, this]
  | succ k ih =>
    intro s anc b hw hanc hr hmin hkb
    obtain ⟨c, hc, hrc⟩ := reaches_succ.1 hr
    cases b with
    | zero => omega
    | succ b =>
      simp only [hit, Bool.or_eq_true, List.any_eq_true, List.mem_filter]
      right
      have hwc := wellFormed_of_mem_expand hw hc
      refine ⟨c, ⟨hc, ?_⟩, ?_⟩
      · rw [passes_iff]
        intro a ha
        by_contra hne
        have heq : c.eq a = true := by
          cases h : c.eq a
          · exact absurd h hne
          · rfl
        rcases List.mem_cons.1 ha with rfl | ha'
        · have := eq_of_wellFormed hwc hw heq
          subst this
          exact hmin k (Nat.lt_succ_self k) hrc
        · have := eq_of_wellFormed hwc (hanc a ha').1 heq
          subst this
          exact (hanc c ha').2 k (Nat.le_succ k) hrc
      · apply ih c (s :: anc) b hwc _ hrc _ (by omega)
        · intro a ha
          rcases List.mem_cons.1 ha with rfl | ha'
          · exact ⟨hw, fun j hj => hmin j (by omega)⟩
          · exact ⟨(hanc a ha').1, fun j hj => (hanc a ha').2 j (by omega)⟩
        · intro j hj hrj
          exact hmin (j + 1) (by omega) (reaches_succ.2 ⟨c, hc, hrj⟩)

/-- For a well-formed start, the bounded tree from the start holds the target
exactly when some sequence of at most `b` applied moves reaches it. -/
theorem hit_iff_reaches {N : Nat} (target start : Board N) (b : Nat) (hw : WellFormed start) :
    hit target b [start] = true ↔ ∃ k, k ≤ b ∧ Reaches target start k := by
  constructor
  · exact hit_sound target b start []
  · rintro ⟨k, hk, hr⟩
    classical
    have hex : ∃ j, Reaches target start j := ⟨k, hr⟩
    have hmin := fun j (hj : j < Nat.find hex) => Nat.find_min hex hj
    have hle : Nat.find hex ≤ k := Nat.find_min' hex hr
    exact hit_complete target (Nat.find hex) start [] b hw (by simp) (Nat.find_spec hex) hmin
      (by omega)

theorem deref_eq_of_getElem? {N : Nat} {heap : Heap N} {p : Nat} {node : Node N}
    (h : heap[p]? = some node) : heap.deref p = node := by
  simp [Heap.deref, List.getD_eq_getElem?_getD, h]

theorem getElem?_eq_deref {N : Nat} {heap : Heap N} {p : Nat} (h : p < heap.length) :
    heap[p]? = some (heap.deref p) := by
  simp [Heap.deref, List.getD_eq_getElem?_getD, List.getElem?_eq_getElem h]

theorem deref_append_left {N : Nat} (heap extra : Heap N) {p : Nat} (h : p < heap.length) :
    (heap ++ extra).deref p = heap.deref p := by
  simp [Heap.deref, List.getD_eq_getElem?_getD, List.getElem?_append_left h]

theorem nodeExpand_fold {N : Nat} (elems : List (Board N)) :
    ∀ (h : Heap N) (acc : List Nat),
      elems.foldl (fun (acc : Heap N × List Nat) elem =>
          ((acc.1.alloc elem).1, acc.2 ++ [(acc.1.alloc elem).2])) (h, acc) =
        (h ++ elems.map Node.new, acc ++ List.range' h.length elems.length) := by
  induction elems with
  | nil => intro h acc; simp
  | cons e es ih =>
    intro h acc
    rw [List.foldl_cons, ih]
    simp [Heap.alloc, List.range'_succ]

theorem nodeExpand_eq {N : Nat} (heap : Heap N) (p : Nat) :
    Node.expand heap p =
      (heap ++ (heap.deref p).elem.expand.map Node.new,
        List.range' heap.length (heap.deref p).elem.expand.length) := by
  unfold Node.expand
  rw [nodeExpand_fold]
  simp

theorem Chain.lt_length {N : Nat} {heap : Heap N} {p : Nat} {l : List (Board N)}
    (h : Chain heap p l) : p < heap.length := by
  cases h with
  | root p node hp hn =>
    by_contra hge
    rw [List.getElem?_eq_none (Nat.le_of_not_lt hge)] at hp
    cases hp
  | step p q node l hp hn hq hc =>
    by_contra hge
    rw [List.getElem?_eq_none (Nat.le_of_not_lt hge)] at hp
    cases hp

theorem Chain.length_le {N : Nat} {heap : Heap N} {p : Nat} {l : List (Board N)}
    (h : Chain heap p l) : l.length ≤ p + 1 := by
  induction h with
  | root p node hp hn => simp
  | step p q node l hp hn hq hc ih => simp only [List.length_cons]; omega

theorem Chain.head_eq {N : Nat} {heap : Heap N} {p : Nat} {l : List (Board N)}
    (h : Chain heap p l) : ∃ anc, l = (heap.deref p).elem :: anc := by
  cases h with
  | root p node hp hn => exact ⟨[], by rw [deref_eq_of_getElem? hp]⟩
  | step p q node l hp hn hq hc => exact ⟨l, by rw [deref_eq_of_getElem? hp]⟩

/-- A chain only reads the arena at indices up to its pointer. -/
theorem Chain.of_agree {N : Nat} {heap heap1 : Heap N} {p : Nat} {l : List (Board N)}
    (h : Chain heap p l) (hag : ∀ i, i ≤ p → heap1[i]? = heap[i]?) : Chain heap1 p l := by
  induction h with
  | root p node hp hn => exact Chain.root p node (by rw [hag p (Nat.le_refl p)]; exact hp) hn
  | step p q node l hp hn hq hc ih =>
    exact Chain.step p q node l (by rw [hag p (Nat.le_refl p)]; exact hp) hn hq
      (ih (fun i hi => hag i (by omega)))

theorem Chain.append {N : Nat} {heap : Heap N} {p : Nat} {l : List (Board N)}
    (h : Chain heap p l) (extra : Heap N) : Chain (heap ++ extra) p l := by
  apply h.of_agree
  intro i hi
  exact List.getElem?_append_left (by have := h.lt_length; omega)

theorem ancestorsLoop_eq_passes {N : Nat} (heap : Heap N) (c : Nat) {q : Nat}
    {l : List (Board N)} (h : Chain heap q l) :
    ∀ fuel, l.length ≤ fuel →
      impl.ancestorsLoop heap c fuel (some q) = passes l (heap.deref c).elem := by
  induction h with
  | root p node hp hn =>
    intro fuel hf
    cases fuel with
    | zero => simp at hf
    | succ fuel =>
      simp only [impl.ancestorsLoop, deref_eq_of_getElem? hp, hn, Node.eq, passes, List.all_cons,
        List.all_nil, Bool.and_true]
      cases (heap.deref c).elem.eq node.elem
      · cases fuel <;> simp [impl.ancestorsLoop]
      · simp
  | step p q node l hp hn hq hc ih =>
    intro fuel hf
    cases fuel with
    | zero => simp at hf
    | succ fuel =>
      simp only [impl.ancestorsLoop, deref_eq_of_getElem? hp, hn, Node.eq, passes, List.all_cons]
      have := ih fuel (by simpa using hf)
      cases (heap.deref c).elem.eq node.elem
      · simp only [Bool.false_eq_true, if_false, Bool.not_false, Bool.true_and]
        rw [this]; rfl
      · simp

theorem deref_append_length {N : Nat} (xs : Heap N) (y : Node N) (zs : Heap N) :
    Heap.deref (xs ++ y :: zs) xs.length = y := by
  unfold Heap.deref
  rw [List.getD_eq_getElem?_getD, List.getElem?_append_right (Nat.le_refl _)]
  simp

theorem set_append_length {N : Nat} (xs : Heap N) (y y1 : Node N) (zs : Heap N) :
    List.set (xs ++ y :: zs) xs.length y1 = xs ++ y1 :: zs := by
  rw [List.set_append_right _ _ (Nat.le_refl _)]
  simp

theorem implExpand_fold {N : Nat} (heap : Heap N) (p : Nat) (l : List (Board N))
    (hc : Chain heap p l) :
    ∀ (es : List (Board N)) (done : List (Node N)) (res : List Nat),
      (List.range' (heap.length + done.length) es.length).foldl
        (fun (acc : Heap N × List Nat) child =>
          if impl.isNotSameWithAncestors
              ((acc.1.setParent child p).setDepth child
                (((acc.1.setParent child p).deref p).depth + 1)) child = true then
            ((acc.1.setParent child p).setDepth child
                (((acc.1.setParent child p).deref p).depth + 1), acc.2 ++ [child])
          else
            ((acc.1.setParent child p).setDepth child
                (((acc.1.setParent child p).deref p).depth + 1), acc.2))
        (heap ++ done ++ es.map Node.new, res) =
      (heap ++ done ++ es.map (mkChild p (heap.deref p).depth),
        res ++ (filterPairs l (heap.length + done.length) es).map Prod.fst) := by
  have hp := hc.lt_length
  have hl := hc.length_le
  intro es
  induction es with
  | nil => intro done res; simp [filterPairs]
  | cons e es ih =>
    intro done res
    have hlen : heap.length + done.length = (heap ++ done).length := by simp
    have hset1 : Heap.setParent (heap ++ done ++ List.map Node.new (e :: es))
        (heap.length + done.length) p =
        heap ++ done ++ ({ Node.new e with parent := some p } :: es.map Node.new) := by
      unfold Heap.setParent
      rw [List.map_cons, hlen, deref_append_length, set_append_length]
    have hder : Heap.deref (heap ++ done ++ ({ Node.new e with parent := some p } ::
        es.map Node.new)) p = heap.deref p := by
      rw [List.append_assoc]; exact deref_append_left _ _ hp
    have hset2 : Heap.setDepth (heap ++ done ++ ({ Node.new e with parent := some p } ::
        es.map Node.new)) (heap.length + done.length) ((heap.deref p).depth + 1) =
        heap ++ done ++ (mkChild p (heap.deref p).depth e :: es.map Node.new) := by
      unfold Heap.setDepth
      rw [hlen, deref_append_length, set_append_length]
      rfl
    have hfil : impl.isNotSameWithAncestors
        (heap ++ done ++ (mkChild p (heap.deref p).depth e :: es.map Node.new))
        (heap.length + done.length) = passes l e := by
      unfold impl.isNotSameWithAncestors
      rw [hlen, deref_append_length]
      have hch : Chain (heap ++ done ++ (mkChild p (heap.deref p).depth e :: es.map Node.new))
          p l := by
        rw [List.append_assoc]; exact hc.append _
      have := ancestorsLoop_eq_passes _ (heap ++ done).length hch
        (heap ++ done ++ (mkChild p (heap.deref p).depth e :: es.map Node.new)).length
        (by simp only [List.length_append]; omega)
      rw [deref_append_length] at this
      exact this
    rw [List.length_cons, List.range'_succ, List.foldl_cons, hset1, hder, hset2, hfil]
    have hre : heap ++ done ++ (mkChild p (heap.deref p).depth e :: es.map Node.new) =
        heap ++ (done ++ [mkChild p (heap.deref p).depth e]) ++ es.map Node.new := by
      simp
    have hidx : heap.length + done.length + 1 =
        heap.length + (done ++ [mkChild p (heap.deref p).depth e]).length := by
      simp; omega
    by_cases hpass : passes l e = true
    · rw [if_pos hpass, hre, hidx, ih]
      simp [filterPairs, hpass, Nat.add_assoc]
    · rw [if_neg hpass, hre, hidx, ih]
      simp [filterPairs, hpass, Nat.add_assoc]

/-- The outcome of `impl::expand` with the ancestor filter: every child is
allocated with its parent and depth set, and the pointers of those that
differ from every state of the parent chain are returned in order. -/
theorem implExpand_eq {N : Nat} (heap : Heap N) (p : Nat) (l : List (Board N))
    (hc : Chain heap p l) :
    impl.expand heap p impl.isNotSameWithAncestors =
      (heap ++ (heap.deref p).elem.expand.map (mkChild p (heap.deref p).depth),
        (filterPairs l heap.length (heap.deref p).elem.expand).map Prod.fst) := by
  unfold impl.expand
  rw [nodeExpand_eq]
  have := implExpand_fold heap p l hc (heap.deref p).elem.expand [] []
  simp only [List.length_nil, Nat.add_zero, List.append_nil, List.nil_append] at this
  exact this

theorem filterPairs_map_snd {N : Nat} (l : List (Board N)) :
    ∀ (es : List (Board N)) (base : Nat),
      (filterPairs l base es).map Prod.snd = es.filter (passes l) := by
  intro es
  induction es with
  | nil => intro base; simp [filterPairs]
  | cons e es ih =>
    intro base
    by_cases hp : passes l e = true
    · simp [filterPairs, hp, ih]
    · simp [filterPairs, hp, ih]

theorem filterPairs_getElem? {N : Nat} (l : List (Board N)) (f : Board N → Node N) :
    ∀ (es : List (Board N)) (pre : Heap N) (x : Nat × Board N),
      x ∈ filterPairs l pre.length es →
        (pre ++ es.map f)[x.1]? = some (f x.2) ∧ pre.length ≤ x.1 := by
  intro es
  induction es with
  | nil => intro pre x hx; simp [filterPairs] at hx
  | cons e es ih =>
    intro pre x hx
    have hrec : x ∈ filterPairs l (pre ++ [f e]).length es →
        (pre ++ (e :: es).map f)[x.1]? = some (f x.2) ∧ pre.length ≤ x.1 := by
      intro h
      have := ih (pre ++ [f e]) x h
      simp only [List.append_assoc, List.singleton_append, List.length_append,
        List.length_singleton] at this
      exact ⟨this.1, by omega⟩
    have hl : (pre ++ [f e]).length = pre.length + 1 := by simp
    by_cases hp : passes l e = true
    · simp only [filterPairs, hp, if_true, List.mem_cons] at hx
      rcases hx with rfl | hx
      · refine ⟨?_, Nat.le_refl _⟩
        simp only [List.map_cons]
        rw [List.getElem?_append_right (Nat.le_refl _)]
        simp
      · exact hrec (by rw [hl]; exact hx)
    · simp only [filterPairs, hp, if_false, Bool.false_eq_true] at hx
      exact hrec (by rw [hl]; exact hx)

theorem dfsChildren_push {N : Nat} (heap : Heap N) (pt md : Nat) :
    ∀ (cs opened : List Nat) (logged : Option Nat),
      (∀ c ∈ cs, (heap.deref c).depth ≠ md) →
      dfsChildren heap pt md cs opened logged = .next (cs.reverse ++ opened, logged) := by
  intro cs
  induction cs with
  | nil => intro opened logged _; simp [dfsChildren]
  | cons c cs ih =>
    intro opened logged h
    have hc := h c (List.mem_cons_self c cs)
    simp only [dfsChildren, hc, ne_eq, not_false_eq_true, if_true]
    rw [ih (c :: opened) logged (fun x hx => h x (List.mem_cons_of_mem c hx))]
    simp

theorem dfsChildren_leaf_found {N : Nat} (heap : Heap N) (pt md : Nat) :
    ∀ (cs opened : List Nat) (logged : Option Nat),
      (∀ c ∈ cs, (heap.deref c).depth = md) →
      cs.any (fun c => impl.check heap c pt) = true →
      ∃ it, dfsChildren heap pt md cs opened logged = .ret it := by
  intro cs
  induction cs with
  | nil => intro opened logged _ h; simp at h
  | cons c cs ih =>
    intro opened logged hd h
    have hc := hd c (List.mem_cons_self c cs)
    simp only [dfsChildren, hc, ne_eq, not_true_eq_false, if_false]
    by_cases hk : impl.check heap c pt = true
    · rw [if_pos hk]; exact ⟨c, rfl⟩
    · rw [if_neg hk]
      simp only [List.any_cons, Bool.or_eq_true] at h
      rcases h with h | h
      · exact absurd h hk
      · exact ih opened (some c) (fun x hx => hd x (List.mem_cons_of_mem c hx)) h

theorem dfsChildren_leaf_none {N : Nat} (heap : Heap N) (pt md : Nat) :
    ∀ (cs opened : List Nat) (logged : Option Nat),
      (∀ c ∈ cs, (heap.deref c).depth = md) →
      cs.any (fun c => impl.check heap c pt) = false →
      ∃ lg, dfsChildren heap pt md cs opened logged = .next (opened, lg) := by
  intro cs
  induction cs with
  | nil => intro opened logged _ _; exact ⟨logged, rfl⟩
  | cons c cs ih =>
    intro opened logged hd h
    have hc := hd c (List.mem_cons_self c cs)
    simp only [List.any_cons, Bool.or_eq_false_iff] at h
    simp only [dfsChildren, hc, ne_eq, not_true_eq_false, if_false, h.1, Bool.false_eq_true]
    exact ih opened (some c) (fun x hx => hd x (List.mem_cons_of_mem c hx)) h.2

theorem dfsFrom_nil {N : Nat} (pt md fuel : Nat) (heap : Heap N) (closed : List Nat)
    (steps : Nat) (logged : Option Nat) :
    dfsFrom pt md fuel ⟨heap, [], closed, steps, logged⟩ =
      some { result := Result.make results.FAILED steps, heap := heap, logged := logged } := by
  cases fuel <;> simp [dfsFrom, dfsLoop]

theorem dfsFrom_cons {N : Nat} (pt md fuel : Nat) (heap : Heap N) (p : Nat)
    (rest closed : List Nat) (steps : Nat) (logged : Option Nat) :
    dfsFrom pt md (fuel + 1) ⟨heap, p :: rest, closed, steps, logged⟩ =
      if impl.check heap p pt = true then
        some { result := Result.make results.SUCCESS (steps + 1), heap := heap, logged := some p }
      else if (heap.deref p).depth < md then
        match dfsChildren (impl.expand heap p impl.isNotSameWithAncestors).1 pt md
            (impl.expand heap p impl.isNotSameWithAncestors).2.reverse rest (some p) with
        | .ret it =>
          some { result := Result.make results.SUCCESS (steps + 1),
                 heap := (impl.expand heap p impl.isNotSameWithAncestors).1, logged := some it }
        | .next (opened1, logged1) =>
          dfsFrom pt md fuel ⟨(impl.expand heap p impl.isNotSameWithAncestors).1, opened1,
            closed ++ [p], steps + 1, logged1⟩
      else dfsFrom pt md fuel ⟨heap, rest, closed ++ [p], steps + 1, some p⟩ := by
  rfl

theorem heapOk_append {N : Nat} {target : Board N} {pt md : Nat} {heap extra : Heap N}
    (h : HeapOk target pt md heap) (he : ∀ node ∈ extra, node.depth ≤ md) :
    HeapOk target pt md (heap ++ extra) := by
  obtain ⟨h1, h2, h3⟩ := h
  refine ⟨by simp only [List.length_append]; omega, ?_, ?_⟩
  · rw [deref_append_left _ _ h1]; exact h2
  · intro node hn
    rcases List.mem_append.1 hn with hn | hn
    · exact h3 node hn
    · exact he node hn

theorem subtreeRuns_found {N : Nat} {pt md : Nat} {s : DfsState N} {rest : List Nat}
    (o : Outcome N) (n : Nat) (hrun : ∀ fuel, dfsFrom pt md (fuel + n) s = some o)
    (hres : o.result.result = results.SUCCESS) (hd : ∀ node ∈ o.heap, node.depth ≤ md) :
    SubtreeRuns pt md true s rest :=
  ⟨n, Or.inl ⟨rfl, o, hrun, hres, hd⟩⟩

/-- Running a first part of the stack and then a second part. -/
theorem subtreeRuns_seq {N : Nat} {pt md : Nat} {s : DfsState N} {mid rest : List Nat}
    {f1 f2 : Bool} (h1 : SubtreeRuns pt md f1 s mid)
    (h2 : ∀ extra closed steps logged, (∀ node ∈ extra, node.depth ≤ md) →
      SubtreeRuns pt md f2 ⟨s.heap ++ extra, mid, closed, steps, logged⟩ rest) :
    SubtreeRuns pt md (f1 || f2) s rest := by
  obtain ⟨n1, h1⟩ := h1
  rcases h1 with ⟨hf, o, hrun, hres, hd⟩ | ⟨hf, extra, closed, steps, logged, hrun, hd⟩
  · subst hf
    exact ⟨n1, Or.inl ⟨by simp, o, hrun, hres, hd⟩⟩
  · subst hf
    obtain ⟨n2, h2⟩ := h2 extra closed steps logged hd
    have hcomp : ∀ fuel, dfsFrom pt md (fuel + (n2 + n1)) s =
        dfsFrom pt md (fuel + n2) ⟨s.heap ++ extra, mid, closed, steps, logged⟩ := by
      intro fuel
      rw [← Nat.add_assoc]
      exact hrun (fuel + n2)
    rcases h2 with ⟨hf2, o, hrun2, hres, hd2⟩ | ⟨hf2, extra2, closed2, steps2, logged2, hrun2, hd2⟩
    · subst hf2
      exact ⟨n2 + n1, Or.inl ⟨rfl, o, fun fuel => by rw [hcomp, hrun2], hres, hd2⟩⟩
    · subst hf2
      refine ⟨n2 + n1, Or.inr ⟨rfl, extra ++ extra2, closed2, steps2, logged2, ?_, ?_⟩⟩
      · intro fuel
        rw [hcomp, hrun2]
        simp only [List.append_assoc]
      · intro node hn
        rcases List.mem_append.1 hn with hn | hn
        · exact hd node hn
        · exact hd2 node hn

/-- One iteration that extends the arena, followed by a run. -/
theorem subtreeRuns_step {N : Nat} {pt md : Nat} {s s1 : DfsState N} {rest : List Nat}
    {f : Bool} (kids : Heap N) (hrun : ∀ fuel, dfsFrom pt md (fuel + 1) s = dfsFrom pt md fuel s1)
    (hheap : s1.heap = s.heap ++ kids) (hkids : ∀ node ∈ kids, node.depth ≤ md)
    (h : SubtreeRuns pt md f s1 rest) : SubtreeRuns pt md f s rest := by
  obtain ⟨n, h⟩ := h
  have hcomp : ∀ fuel, dfsFrom pt md (fuel + (n + 1)) s = dfsFrom pt md (fuel + n) s1 := by
    intro fuel
    rw [← Nat.add_assoc]
    exact hrun (fuel + n)
  rcases h with ⟨hf, o, hrun1, hres, hd⟩ | ⟨hf, extra, closed, steps, logged, hrun1, hd⟩
  · exact ⟨n + 1, Or.inl ⟨hf, o, fun fuel => by rw [hcomp, hrun1], hres, hd⟩⟩
  · refine ⟨n + 1, Or.inr ⟨hf, kids ++ extra, closed, steps, logged, ?_, ?_⟩⟩
    · intro fuel
      rw [hcomp, hrun1, hheap]
      simp only [List.append_assoc]
    · intro node hn
      rcases List.mem_append.1 hn with hn | hn
      · exact hkids node hn
      · exact hd node hn

theorem subtreeRuns_nil {N : Nat} (pt md : Nat) (s : DfsState N) :
    SubtreeRuns pt md false s s.opened := by
  refine ⟨0, Or.inr ⟨rfl, [], s.closed, s.steps, s.logged, ?_, by simp⟩⟩
  intro fuel
  simp

/-- The loop of `dfs` on a stack whose top part is a list of nodes, given
what it does on the subtree of each. -/
theorem dfs_list {N : Nat} (target : Board N) (pt md b : Nat)
    (ih : ∀ (heap : Heap N) (p : Nat) (l : List (Board N)) (rest closed : List Nat) (steps : Nat)
      (logged : Option Nat), HeapOk target pt md heap → Chain heap p l →
      (heap.deref p).depth + b = md →
      SubtreeRuns pt md (hit target b l) ⟨heap, p :: rest, closed, steps, logged⟩ rest) :
    ∀ (cl : List (Nat × List (Board N))) (heap : Heap N) (rest closed : List Nat) (steps : Nat)
      (logged : Option Nat), HeapOk target pt md heap →
      (∀ x ∈ cl, Chain heap x.1 x.2 ∧ (heap.deref x.1).depth + b = md) →
      SubtreeRuns pt md (cl.any (fun x => hit target b x.2))
        ⟨heap, cl.map Prod.fst ++ rest, closed, steps, logged⟩ rest := by
  intro cl
  induction cl with
  | nil =>
    intro heap rest closed steps logged _ _
    exact subtreeRuns_nil pt md ⟨heap, rest, closed, steps, logged⟩
  | cons x cl ihl =>
    intro heap rest closed steps logged hok hx
    have hx1 := hx x (List.mem_cons_self x cl)
    have h1 := ih heap x.1 x.2 (cl.map Prod.fst ++ rest) closed steps logged hok hx1.1 hx1.2
    simp only [List.any_cons, List.map_cons, List.cons_append]
    apply subtreeRuns_seq h1
    intro extra closed1 steps1 logged1 hextra
    apply ihl (heap ++ extra) rest closed1 steps1 logged1 (heapOk_append hok hextra)
    intro y hy
    have hy1 := hx y (List.mem_cons_of_mem x hy)
    refine ⟨hy1.1.append extra, ?_⟩
    rw [deref_append_left _ _ hy1.1.lt_length]
    exact hy1.2


theorem any_map_fun {α β : Type} (f : α → β) (p : β → Bool) (l : List α) :
    (l.map f).any p = l.any (fun a => p (f a)) := by
  induction l with
  | nil => rfl
  | cons a l ih => simp only [List.map_cons, List.any_cons, ih]

theorem any_congr_mem {α : Type} (p q : α → Bool) (l : List α) (h : ∀ a ∈ l, p a = q a) :
    l.any p = l.any q := by
  induction l with
  | nil => rfl
  | cons a l ih =>
    simp only [List.any_cons]
    rw [h a (List.mem_cons_self a l), ih (fun x hx => h x (List.mem_cons_of_mem a hx))]

/-- The children returned by `impl::expand` for a node with parent chain
`l`: each is in the extended arena with its state, the node as parent and
one more level of depth. -/
theorem implExpand_children {N : Nat} (heap : Heap N) (p : Nat) (l : List (Board N))
    (hc : Chain heap p l) (x : Nat × Board N)
    (hx : x ∈ filterPairs l heap.length (heap.deref p).elem.expand) :
    Chain (heap ++ (heap.deref p).elem.expand.map (mkChild p (heap.deref p).depth)) x.1
        (x.2 :: l) ∧
      (Heap.deref (heap ++ (heap.deref p).elem.expand.map (mkChild p (heap.deref p).depth))
        x.1) = mkChild p (heap.deref p).depth x.2 := by
  obtain ⟨hget, hle⟩ := filterPairs_getElem? l (mkChild p (heap.deref p).depth) _ heap x hx
  refine ⟨?_, deref_eq_of_getElem? hget⟩
  have := Chain.step x.1 p (mkChild p (heap.deref p).depth x.2) l hget rfl
    (by have := hc.lt_length; omega) (hc.append _)
  exact this

theorem check_eq {N : Nat} {target : Board N} {pt md : Nat} {heap : Heap N}
    (hok : HeapOk target pt md heap) (p : Nat) :
    impl.check heap p pt = (heap.deref p).elem.eq target := by
  unfold impl.check Node.eq
  rw [hok.2.1]

/-- The loop of `dfs` on the node at the top of the stack, with `b` levels
left below it: it finds the target exactly when the bounded tree of the node
holds it, and otherwise arrives at the rest of the stack. -/
theorem dfs_subtree {N : Nat} (target : Board N) (pt md : Nat) :
    ∀ (b : Nat) (heap : Heap N) (p : Nat) (l : List (Board N)) (rest closed : List Nat)
      (steps : Nat) (logged : Option Nat), HeapOk target pt md heap → Chain heap p l →
      (heap.deref p).depth + b = md →
      SubtreeRuns pt md (hit target b l) ⟨heap, p :: rest, closed, steps, logged⟩ rest := by
  intro b
  induction b with
  | zero =>
    intro heap p l rest closed steps logged hok hc hd
    obtain ⟨anc, rfl⟩ := hc.head_eq
    simp only [hit]
    by_cases hk : (heap.deref p).elem.eq target = true
    · rw [hk]
      refine subtreeRuns_found
        { result := Result.make results.SUCCESS (steps + 1), heap := heap, logged := some p } 1
        ?_ rfl hok.2.2
      intro fuel
      rw [dfsFrom_cons, check_eq hok, if_pos hk]
    · have hk2 : (heap.deref p).elem.eq target = false := by
        cases h : (heap.deref p).elem.eq target
        · rfl
        · exact absurd h hk
      rw [hk2]
      refine ⟨1, Or.inr ⟨rfl, [], closed ++ [p], steps + 1, some p, ?_, by simp⟩⟩
      intro fuel
      rw [dfsFrom_cons, check_eq hok, if_neg hk, if_neg (by omega)]
      simp
  | succ b ih =>
    intro heap p l rest closed steps logged hok hc hd
    obtain ⟨anc, hl⟩ := hc.head_eq
    by_cases hk : (heap.deref p).elem.eq target = true
    · have hh : hit target (b + 1) l = true := by
        rw [hl]; simp [hit, hk]
      rw [hh]
      refine subtreeRuns_found
        { result := Result.make results.SUCCESS (steps + 1), heap := heap, logged := some p } 1
        ?_ rfl hok.2.2
      intro fuel
      rw [dfsFrom_cons, check_eq hok, if_pos hk]
    · have hk2 : (heap.deref p).elem.eq target = false := by
        cases h : (heap.deref p).elem.eq target
        · rfl
        · exact absurd h hk
      have hlt : (heap.deref p).depth < md := by omega
      have hexp := implExpand_eq heap p l hc
      have hkids : ∀ node ∈ (heap.deref p).elem.expand.map (mkChild p (heap.deref p).depth),
          node.depth ≤ md := by
        intro node hn
        obtain ⟨e, _, rfl⟩ := List.mem_map.1 hn
        simp only [mkChild]; omega
      have hok1 := heapOk_append hok hkids
      have hstep : ∀ fuel, dfsFrom pt md (fuel + 1) ⟨heap, p :: rest, closed, steps, logged⟩ =
          match dfsChildren (heap ++ (heap.deref p).elem.expand.map
              (mkChild p (heap.deref p).depth)) pt md
              ((filterPairs l heap.length (heap.deref p).elem.expand).map Prod.fst).reverse rest
              (some p) with
          | .ret it =>
            some { result := Result.make results.SUCCESS (steps + 1),
                   heap := heap ++ (heap.deref p).elem.expand.map
                     (mkChild p (heap.deref p).depth), logged := some it }
          | .next (opened1, logged1) =>
            dfsFrom pt md fuel ⟨heap ++ (heap.deref p).elem.expand.map
              (mkChild p (heap.deref p).depth), opened1, closed ++ [p], steps + 1, logged1⟩ := by
        intro fuel
        rw [dfsFrom_cons, check_eq hok, if_neg hk, if_pos hlt, hexp]
      have hhit : hit target (b + 1) l =
          (filterPairs l heap.length (heap.deref p).elem.expand).any
            (fun x => hit target b (x.2 :: l)) := by
        conv_lhs => rw [hl]
        simp only [hit, hk2, Bool.false_or]
        rw [← hl, ← filterPairs_map_snd l _ heap.length, any_map_fun]
      have hdepth : ∀ x ∈ filterPairs l heap.length (heap.deref p).elem.expand,
          (Heap.deref (heap ++ (heap.deref p).elem.expand.map (mkChild p (heap.deref p).depth))
            x.1).depth = (heap.deref p).depth + 1 := by
        intro x hx
        rw [(implExpand_children heap p l hc x hx).2]
        rfl
      cases b with
      | zero =>
        have hleaf : ∀ c ∈ ((filterPairs l heap.length (heap.deref p).elem.expand).map
            Prod.fst).reverse,
            (Heap.deref (heap ++ (heap.deref p).elem.expand.map
              (mkChild p (heap.deref p).depth)) c).depth = md := by
          intro c hcm
          obtain ⟨x, hx, rfl⟩ := List.mem_map.1 (List.mem_reverse.1 hcm)
          rw [hdepth x hx]; omega
        have hany : (((filterPairs l heap.length (heap.deref p).elem.expand).map
            Prod.fst).reverse.any (fun c => impl.check (heap ++ (heap.deref p).elem.expand.map
              (mkChild p (heap.deref p).depth)) c pt)) = hit target (0 + 1) l := by
          rw [hhit, List.any_reverse, any_map_fun]
          apply any_congr_mem
          intro x hx
          simp only [hit]
          rw [check_eq hok1, (implExpand_children heap p l hc x hx).2]
          rfl
        cases hfound : hit target (0 + 1) l
        · rw [hfound] at hany
          obtain ⟨lg, hlg⟩ := dfsChildren_leaf_none _ pt md _ rest (some p) hleaf hany
          refine ⟨1, Or.inr ⟨rfl, _, closed ++ [p], steps + 1, lg, ?_, hkids⟩⟩
          intro fuel
          rw [hstep, hlg]
        · rw [hfound] at hany
          obtain ⟨it, hit1⟩ := dfsChildren_leaf_found _ pt md _ rest (some p) hleaf hany
          refine subtreeRuns_found
            { result := Result.make results.SUCCESS (steps + 1),
              heap := heap ++ (heap.deref p).elem.expand.map (mkChild p (heap.deref p).depth),
              logged := some it } 1 ?_ rfl hok1.2.2
          intro fuel
          rw [hstep, hit1]
      | succ b =>
        have hpush : ∀ c ∈ ((filterPairs l heap.length (heap.deref p).elem.expand).map
            Prod.fst).reverse,
            (Heap.deref (heap ++ (heap.deref p).elem.expand.map
              (mkChild p (heap.deref p).depth)) c).depth ≠ md := by
          intro c hcm
          obtain ⟨x, hx, rfl⟩ := List.mem_map.1 (List.mem_reverse.1 hcm)
          rw [hdepth x hx]; omega
        have hch := dfsChildren_push _ pt md _ rest (some p) hpush
        rw [List.reverse_reverse] at hch
        rw [hhit]
        apply subtreeRuns_step
          ((heap.deref p).elem.expand.map (mkChild p (heap.deref p).depth))
          (fun fuel => by rw [hstep, hch]) rfl hkids
        have hlist := dfs_list target pt md (b + 1) ih
          ((filterPairs l heap.length (heap.deref p).elem.expand).map
            (fun x => (x.1, x.2 :: l)))
          (heap ++ (heap.deref p).elem.expand.map (mkChild p (heap.deref p).depth))
          rest (closed ++ [p]) (steps + 1) (some p) hok1
        rw [any_map_fun, List.map_map] at hlist
        apply hlist
        intro y hy
        obtain ⟨x, hx, rfl⟩ := List.mem_map.1 hy
        have hcx := implExpand_children heap p l hc x hx
        refine ⟨hcx.1, ?_⟩
        simp only
        rw [hcx.2]
        simp only [mkChild]
        omega

theorem reaches_within_iff {N : Nat} (target start : Board N) (b : Nat) :
    (∃ k, k ≤ b ∧ Reaches target start k) ↔
      ∃ ms : List Move, ms.length ≤ b ∧ ∃ c, applyMoves start ms = some c ∧ c.eq target = true := by
  constructor
  · rintro ⟨k, hk, ms, hlen, c, happ, heq⟩
    exact ⟨ms, by omega, c, happ, heq⟩
  · rintro ⟨ms, hlen, c, happ, heq⟩
    exact ⟨ms.length, hlen, ms, rfl, c, happ, heq⟩

/-- The run of `dfs` from a start that differs from the target: with enough
fuel it ends, with SUCCESS exactly when the bounded tree of the start holds
the target, and no node of the arena is deeper than the bound. -/
theorem dfsRun_spec {N : Nat} (start target : Board N) (max_depth : Nat)
    (hne : start.eq target = false) :
    ∃ fuel o, (∀ n, dfsRun (n + fuel) start target max_depth = some o) ∧
      (o.result.result = results.SUCCESS ↔ hit target max_depth [start] = true) ∧
      (o.result.result = results.FAILED ↔ hit target max_depth [start] = false) ∧
      ∀ node ∈ o.heap, node.depth ≤ max_depth := by
  have hrun : ∀ fuel, dfsRun fuel start target max_depth =
      dfsFrom 1 max_depth fuel ⟨[Node.new start, Node.new target], [0], [], 0, none⟩ := by
    intro fuel
    simp only [dfsRun, hne, Bool.false_eq_true, if_false, Heap.alloc, dfsFrom]
    rfl
  have hok : HeapOk target 1 max_depth [Node.new start, Node.new target] := by
    refine ⟨by simp, rfl, ?_⟩
    intro node hn
    simp only [List.mem_cons, List.mem_singleton, List.not_mem_nil, or_false] at hn
    rcases hn with rfl | rfl <;> simp [Node.new]
  have hchain : Chain [Node.new start, Node.new target] 0 [start] :=
    Chain.root 0 (Node.new start) rfl rfl
  have hsub := dfs_subtree target 1 max_depth max_depth [Node.new start, Node.new target] 0
    [start] [] [] 0 none hok hchain (by simp [Heap.deref, Node.new])
  obtain ⟨n, h⟩ := hsub
  rcases h with ⟨hf, o, hr, hres, hd⟩ | ⟨hf, extra, closed, steps, logged, hr, hd⟩
  · refine ⟨n, o, fun m => by rw [hrun, hr], ?_, ?_, hd⟩
    · simp [hres, hf]
    · simp [hres, hf]
  · refine ⟨n, { result := Result.make results.FAILED steps,
                 heap := [Node.new start, Node.new target] ++ extra, logged := logged },
      fun m => by rw [hrun, hr, dfsFrom_nil], ?_, ?_, ?_⟩
    · simp [Result.make, hf]
    · simp [Result.make, hf]
    · exact (heapOk_append hok hd).2.2

/-- C5: for a well-formed start that differs from the target and any bound,
`dfs` terminates (with enough fuel it returns a result that more fuel does
not change); the result is SUCCESS exactly when some sequence of at most
`max_depth` applied moves transforms the start into a board equal to the
target, and FAILED otherwise; and no node of the arena is deeper than the
bound, so no node of depth `max_depth` or more was expanded. -/
theorem dfs_success_iff_reachable {N : Nat} (start target : Board N) (max_depth : Nat)
    (hw : WellFormed start) (hne : start.eq target = false) :
    ∃ fuel r, (∀ n, dfs (n + fuel) start target max_depth = some r) ∧
      (r.result = results.SUCCESS ↔
        ∃ ms : List Move, ms.length ≤ max_depth ∧
          ∃ c, applyMoves start ms = some c ∧ c.eq target = true) ∧
      (r.result = results.FAILED ↔
        ¬ ∃ ms : List Move, ms.length ≤ max_depth ∧
          ∃ c, applyMoves start ms = some c ∧ c.eq target = true) ∧
      (∀ n, ∃ o, dfsRun (n + fuel) start target max_depth = some o ∧
        ∀ node ∈ o.heap, node.depth ≤ max_depth) := by
  obtain ⟨fuel, o, hrun, hs, hf, hd⟩ := dfsRun_spec start target max_depth hne
  have hiff := (hit_iff_reaches target start max_depth hw).trans
    (reaches_within_iff target start max_depth)
  refine ⟨fuel, o.result, fun n => by simp [dfs, hrun n], hs.trans hiff, ?_,
    fun n => ⟨o, hrun n, hd⟩⟩
  rw [hf, ← hiff]
  simp

/-- A concrete instance of `dfs_success_iff_reachable`, with its hypotheses discharged. -/
theorem dfs_success_iff_reachable_witness :
    WellFormed scenarioStart ∧ scenarioStart.eq scenarioTarget = false ∧
    ∃ fuel r, (∀ n, dfs (n + fuel) scenarioStart scenarioTarget 1 = some r) ∧
      (r.result = results.SUCCESS ↔
        ∃ ms : List Move, ms.length ≤ 1 ∧
          ∃ c, applyMoves scenarioStart ms = some c ∧ c.eq scenarioTarget = true) ∧
      (r.result = results.FAILED ↔
        ¬ ∃ ms : List Move, ms.length ≤ 1 ∧
          ∃ c, applyMoves scenarioStart ms = some c ∧ c.eq scenarioTarget = true) ∧
      (∀ n, ∃ o, dfsRun (n + fuel) scenarioStart scenarioTarget 1 = some o ∧
        ∀ node ∈ o.heap, node.depth ≤ 1) :=
  ⟨⟨by decide, by decide, by decide, hashOk_ofList 3 _⟩, by decide,
   dfs_success_iff_reachable scenarioStart scenarioTarget 1
     ⟨by decide, by decide, by decide, hashOk_ofList 3 _⟩ (by decide)⟩

end search

namespace search

open board

theorem similarityCalculate_congr_grid {N : Nat} (a b c : Board N) (h : b.grid = c.grid) :
    a.similarityCalculate b = a.similarityCalculate c := by
  unfold Board.similarityCalculate Board.locate
  rw [h]

theorem trapHeuristic_admissible : Admissible trapTarget trapHeuristic := by
  intro n ms b happ heq
  unfold trapHeuristic
  by_cases hz : n.elem.grid ∈ trapZero
  · rw [if_pos hz]; exact Int.natCast_nonneg _
  · rw [if_neg hz]
    by_cases hw : IsPermutation n.elem ∧ n.elem.blank_index < SIZE 3
    · rw [if_pos hw]
      have h1 := similarityCalculate_le_aux ms n.elem b hw.1 hw.2 happ
      rw [similarityCalculate_congr_grid n.elem b trapTarget ((eq_iff b trapTarget).1 heq).2] at h1
      omega
    · rw [if_neg hw]; exact Int.natCast_nonneg _

theorem aStarLoop_fuel_mono {N : Nat} (pt : Nat) (g h : Evaluator N) :
    ∀ (fuel : Nat) (f : Frontier N) (steps : Nat) (logged : Option Nat) (o : Outcome N),
      aStarLoop pt g h fuel f steps logged = some o →
      ∀ n, aStarLoop pt g h (fuel + n) f steps logged = some o := by
  intro fuel
  induction fuel with
  | zero =>
    intro f steps logged o hrun n
    unfold aStarLoop at hrun ⊢
    cases hs : sortByCost f.heap f.opened with
    | nil => rw [hs] at hrun; simpa using hrun
    | cons pbn rest => rw [hs] at hrun; simp at hrun
  | succ fuel ih =>
    intro f steps logged o hrun n
    have e : fuel + 1 + n = (fuel + n) + 1 := by omega
    rw [e]
    unfold aStarLoop at hrun ⊢
    cases hs : sortByCost f.heap f.opened with
    | nil => rw [hs] at hrun; simpa using hrun
    | cons pbn rest =>
      rw [hs] at hrun
      simp only at hrun ⊢
      by_cases hc : impl.check f.heap pbn pt = true
      · rw [if_pos hc] at hrun ⊢; exact hrun
      · rw [if_neg hc] at hrun ⊢
        exact ih _ _ _ _ hrun n

set_option maxRecDepth 100000 in
theorem aStar_trap_run :
    (aStarRun 23 trapStart trapTarget depthEvaluator trapHeuristic).map
      (fun o => (o.result, o.logged.map (fun p => (o.heap.deref p).depth))) =
    some (⟨results.SUCCESS, 23⟩, some 8) := by
  decide

theorem aStarRun_fuel_mono {N : Nat} (fuel : Nat) (start target : Board N) (g h : Evaluator N)
    (o : Outcome N) (hrun : aStarRun fuel start target g h = some o) (n : Nat) :
    aStarRun (fuel + n) start target g h = some o := by
  unfold aStarRun at hrun ⊢
  by_cases he : start.eq target = true
  · rw [if_pos he] at hrun ⊢; exact hrun
  · rw [if_neg he] at hrun ⊢
    exact aStarLoop_fuel_mono _ g h fuel _ _ _ o hrun n

/-- The minimum number of applied moves from `trapStart` to `trapTarget` is
not below six. -/
theorem trap_not_within_five :
    ¬ ∃ ms : List Move, ms.length ≤ 5 ∧
      ∃ c, applyMoves trapStart ms = some c ∧ c.eq trapTarget = true := by
  rw [← reaches_within_iff, ← hit_iff_reaches trapTarget trapStart 5
    ⟨by decide, by decide, by decide, hashOk_ofList 3 _⟩]
  decide

/-- C3 fails on the code: `trapHeuristic` is admissible for `trapTarget`, the
minimum number of applied moves from `trapStart` to `trapTarget` is six, and
yet `aStar` with `g` the node depth returns SUCCESS (after 23 steps, for
every fuel of at least 23) on a popped node whose depth is 8.  An open node
of depth 7 was given a cheaper parent and cost by a child of depth 5, and
kept its depth. -/
theorem aStar_depth_not_minimal :
    Admissible trapTarget trapHeuristic ∧
    applyMoves trapStart trapMoves = some trapTarget ∧ trapMoves.length = 6 ∧
    (¬ ∃ ms : List Move, ms.length ≤ 5 ∧
      ∃ c, applyMoves trapStart ms = some c ∧ c.eq trapTarget = true) ∧
    (∀ n, ∃ o, aStarRun (23 + n) trapStart trapTarget depthEvaluator trapHeuristic = some o ∧
      o.result = ⟨results.SUCCESS, 23⟩ ∧
      o.logged.map (fun p => (o.heap.deref p).depth) = some 8) ∧
    (∀ n, aStar (23 + n) trapStart trapTarget depthEvaluator trapHeuristic =
      some ⟨results.SUCCESS, 23⟩) := by
  have hrun := aStar_trap_run
  obtain ⟨o, ho, hval⟩ := Option.map_eq_some'.1 hrun
  have h1 : o.result = ⟨results.SUCCESS, 23⟩ := congrArg Prod.fst hval
  have h2 : o.logged.map (fun p => (o.heap.deref p).depth) = some 8 := congrArg Prod.snd hval
  refine ⟨trapHeuristic_admissible, by decide, rfl, trap_not_within_five, ?_, ?_⟩
  · intro n
    exact ⟨o, aStarRun_fuel_mono 23 _ _ _ _ o ho n, h1, h2⟩
  · intro n
    simp [aStar, aStarRun_fuel_mono 23 _ _ _ _ o ho n, h1]

end search

namespace board

open search

theorem locateFrom_absent {N : Nat} (grid : List Nat) (v : Nat) :
    ∀ fuel i, i ≤ SIZE N → SIZE N - i < fuel →
      (∀ k, i ≤ k → k < SIZE N → grid.getD k 0 ≠ v) →
      locateFrom N grid v fuel i = SIZE N := by
  intro fuel
  induction fuel with
  | zero => intro i _ h; omega
  | succ fuel ih =>
    intro i hi hf hk
    unfold locateFrom
    rcases Nat.eq_or_lt_of_le hi with e | hlt
    · subst e
      rw [if_neg (fun h => Nat.lt_irrefl _ h.2)]
    · rw [if_pos ⟨hk i (Nat.le_refl i) hlt, hlt⟩]
      exact ih (i + 1) hlt (by omega) (fun k hk1 hk2 => hk k (by omega) hk2)

/-- The first occurrence: `locate` of a piece found at index `j` below `SIZE`
and at no smaller index is `j`. -/
theorem locate_eq_of_first {N : Nat} (b : Board N) (p j : Nat) (hj : j < SIZE N)
    (hv : b.grid.getD j 0 = p) (hk : ∀ k, k < j → b.grid.getD k 0 ≠ p) : b.locate p = j :=
  locateFrom_eq b.grid p j hj hv (SIZE N + 1) 0 (Nat.zero_le j) (by omega)
    (fun k _ hkj => hk k hkj)

theorem locate_eq_size_of_absent {N : Nat} (b : Board N) (p : Nat)
    (hk : ∀ k, k < SIZE N → b.grid.getD k 0 ≠ p) : b.locate p = SIZE N :=
  locateFrom_absent b.grid p (SIZE N + 1) 0 (Nat.zero_le _) (by omega) (fun k _ h => hk k h)

/-- A piece that occurs below `SIZE` is located at an index that holds it. -/
theorem locate_of_occurs {N : Nat} (b : Board N) (p : Nat)
    (h : ∃ j, j < SIZE N ∧ b.grid.getD j 0 = p) :
    b.locate p < SIZE N ∧ b.grid.getD (b.locate p) 0 = p := by
  classical
  have hspec := Nat.find_spec h
  have hmin : ∀ k, k < Nat.find h → b.grid.getD k 0 ≠ p := by
    intro k hk hp
    exact Nat.find_min h hk ⟨by omega, hp⟩
  rw [locate_eq_of_first b p (Nat.find h) hspec.1 hspec.2 hmin]
  exact hspec

/-- C19: `locate(p)` returns the smallest index below `SIZE` whose cell holds
`p` when there is one, and `SIZE` when no cell below `SIZE` holds `p`
(whatever is read one past the end of the grid). -/
theorem locate_first_or_size {N : Nat} (b : Board N) (p : Nat) :
    (∀ j, j < SIZE N → b.grid.getD j 0 = p → (∀ k, k < j → b.grid.getD k 0 ≠ p) →
      b.locate p = j) ∧
    ((∀ k, k < SIZE N → b.grid.getD k 0 ≠ p) → b.locate p = SIZE N) :=
  ⟨fun j hj hv hk => locate_eq_of_first b p j hj hv hk, locate_eq_size_of_absent b p⟩

/-- A concrete instance of `locate_first_or_size`, with its hypotheses discharged. -/
theorem locate_first_or_size_witness :
    (7 < SIZE 3 ∧ scenarioStart.grid.getD 7 0 = 0 ∧
      (∀ k, k < 7 → scenarioStart.grid.getD k 0 ≠ 0) ∧ scenarioStart.locate 0 = 7) ∧
    ((∀ k, k < SIZE 3 → scenarioStart.grid.getD k 0 ≠ 9) ∧ scenarioStart.locate 9 = SIZE 3) :=
  ⟨⟨by decide, by decide, by decide,
     (locate_first_or_size scenarioStart 0).1 7 (by decide) (by decide) (by decide)⟩,
   ⟨by decide, (locate_first_or_size scenarioStart 9).2 (by decide)⟩⟩

theorem foldl_count_range (P : Nat → Prop) [DecidablePred P] (n : Nat) :
    (List.range n).foldl (fun (c : Int) i => if P i then c + 1 else c) 0 =
      (((List.range n).filter (fun i => decide (P i))).length : Int) := by
  induction n with
  | zero => simp
  | succ n ih =>
    rw [List.range_succ, List.foldl_append, ih, List.filter_append]
    by_cases hp : P n
    · simp [hp]
    · simp [hp]

theorem compatibilityCalculate_eq_count {N : Nat} (a b : Board N) :
    a.compatibilityCalculate b =
      (((List.range (SIZE N)).filter
        (fun i => decide (a.grid.getD i 0 ≠ b.grid.getD i 0))).length : Int) := by
  unfold Board.compatibilityCalculate
  exact foldl_count_range (fun i => a.grid.getD i 0 ≠ b.grid.getD i 0) (SIZE N)

/-- C11: `compatibilityCalculate` is the number of indices below `SIZE` at
which the two grids differ; it is zero exactly when the grids agree at every
index below `SIZE`; and it is zero of a board with itself. -/
theorem compatibilityCalculate_counts {N : Nat} (a b : Board N) :
    a.compatibilityCalculate b =
      (((List.range (SIZE N)).filter
        (fun i => decide (a.grid.getD i 0 ≠ b.grid.getD i 0))).length : Int) ∧
    (a.compatibilityCalculate b = 0 ↔ ∀ i, i < SIZE N → a.grid.getD i 0 = b.grid.getD i 0) ∧
    a.compatibilityCalculate a = 0 := by
  refine ⟨compatibilityCalculate_eq_count a b, ?_, ?_⟩
  · rw [compatibilityCalculate_eq_count]
    simp only [Nat.cast_eq_zero, List.length_eq_zero, List.filter_eq_nil_iff, List.mem_range,
      decide_eq_true_eq, ne_eq, not_not]
  · rw [compatibilityCalculate_eq_count]
    simp

theorem cellDistance_nonneg (N i j : Nat) : 0 ≤ cellDistance N i j := by
  unfold cellDistance
  have h1 := abs_nonneg (((i % N : Nat) : Int) - ((j % N : Nat) : Int))
  have h2 := abs_nonneg (((i / N : Nat) : Int) - ((j / N : Nat) : Int))
  omega

theorem eq_of_cellDistance_eq_zero {N i j : Nat} (h : cellDistance N i j = 0) : i = j := by
  unfold cellDistance at h
  have h1 := abs_nonneg (((i % N : Nat) : Int) - ((j % N : Nat) : Int))
  have h2 := abs_nonneg (((i / N : Nat) : Int) - ((j / N : Nat) : Int))
  have e1 : |((i % N : Nat) : Int) - ((j % N : Nat) : Int)| = 0 := by omega
  have e2 : |((i / N : Nat) : Int) - ((j / N : Nat) : Int)| = 0 := by omega
  rw [abs_eq_zero] at e1 e2
  have hm : i % N = j % N := by omega
  have hd : i / N = j / N := by omega
  rw [← Nat.div_add_mod i N, ← Nat.div_add_mod j N, hm, hd]

/-- C12: for boards whose grids are permutations of `0..SIZE-1`, the
similarity value is zero exactly when the grids are equal, and it is zero of
such a board with itself. -/
theorem similarityCalculate_eq_zero_iff {N : Nat} (a b : Board N) (ha : IsPermutation a)
    (hb : IsPermutation b) :
    (a.similarityCalculate b = 0 ↔ a.grid = b.grid) ∧ a.similarityCalculate a = 0 := by
  have hself := similarityCalculate_self a ha.nodup ha.grid_length
  refine ⟨⟨?_, ?_⟩, hself⟩
  · intro h
    rw [similarityCalculate_eq_sum] at h
    have hz := (Finset.sum_eq_zero_iff_of_nonneg
      (fun i _ => cellDistance_nonneg N i (b.locate (a.grid.getD i 0)))).1 h
    have hla := ha.grid_length
    have hlb := hb.grid_length
    apply List.ext_getElem (by omega)
    intro i h1 h2
    have hi : i < SIZE N := by omega
    have hloc : b.locate (a.grid.getD i 0) = i :=
      (eq_of_cellDistance_eq_zero (hz i (Finset.mem_range.2 hi))).symm
    have hmem : a.grid.getD i 0 ∈ b.grid := by
      have hperm : a.grid.Perm b.grid := ha.trans hb.symm
      rw [← hperm.mem_iff, List.getD_eq_getElem _ _ h1]
      exact List.getElem_mem h1
    obtain ⟨j, hj, hje⟩ := List.getElem_of_mem hmem
    have hocc := locate_of_occurs b (a.grid.getD i 0)
      ⟨j, by omega, by rw [List.getD_eq_getElem _ _ hj]; exact hje⟩
    rw [hloc, List.getD_eq_getElem _ _ h2, List.getD_eq_getElem _ _ h1] at hocc
    exact hocc.2.symm
  · intro h
    rw [← similarityCalculate_congr_grid a a b h]
    exact hself

/-- A concrete instance of `similarityCalculate_eq_zero_iff`, with its hypotheses
discharged. -/
theorem similarityCalculate_eq_zero_iff_witness :
    IsPermutation scenarioStart ∧ IsPermutation scenarioTarget ∧
    ((scenarioStart.similarityCalculate scenarioTarget = 0 ↔
        scenarioStart.grid = scenarioTarget.grid) ∧
      scenarioStart.similarityCalculate scenarioStart = 0) :=
  ⟨by decide, by decide,
   similarityCalculate_eq_zero_iff scenarioStart scenarioTarget (by decide) (by decide)⟩

theorem wellFormed_moveBlank_any {N : Nat} (b : Board N) (d : Move) (hw : WellFormed b) :
    WellFormed (b.moveBlank d).2 := by
  by_cases h : (b.moveBlank d).1 = true
  · exact search.wellFormed_moveBlank b d hw h
  · have hf : (b.moveBlank d).1 = false := by
      cases hv : (b.moveBlank d).1
      · rfl
      · exact absurd hv h
    rw [moveBlank_false_snd b d (pos_of_blank_lt hw.2.1) hf]
    exact hw

theorem wellFormed_iff {N : Nat} (b : Board N) :
    WellFormed b ↔ IsPermutation b ∧ b.grid[b.blank_index]? = some 0 ∧ HashOk b := by
  unfold WellFormed
  constructor
  · rintro ⟨hp, hb, hz, hh⟩
    refine ⟨hp, ?_, hh⟩
    have hlen := hp.grid_length
    rw [List.getD_eq_getElem _ _ (by omega)] at hz
    rw [List.getElem?_eq_getElem (by omega), hz]
  · rintro ⟨hp, hz, hh⟩
    have hlen := hp.grid_length
    have hb : b.blank_index < b.grid.length := by
      by_contra hge
      rw [List.getElem?_eq_none (Nat.le_of_not_lt hge)] at hz
      cases hz
    refine ⟨hp, by omega, ?_, hh⟩
    rw [List.getD_eq_getElem?_getD, hz]
    rfl

/-- C14: if the grid is a permutation of `0..SIZE-1`, the cell at the blank
index holds `0` and the stored hash is the hash of the grid, then the same
three hold of the board after any `moveBlank` call, whatever it returns, and
of every board returned by `expand`. -/
theorem invariant_preserved {N : Nat} (b : Board N) (hp : IsPermutation b)
    (hz : b.grid[b.blank_index]? = some 0) (hh : HashOk b) :
    (∀ d : Move, IsPermutation (b.moveBlank d).2 ∧
      (b.moveBlank d).2.grid[(b.moveBlank d).2.blank_index]? = some 0 ∧
      HashOk (b.moveBlank d).2) ∧
    (∀ c ∈ b.expand, IsPermutation c ∧ c.grid[c.blank_index]? = some 0 ∧ HashOk c) := by
  have hw : WellFormed b := (wellFormed_iff b).2 ⟨hp, hz, hh⟩
  exact ⟨fun d => (wellFormed_iff _).1 (wellFormed_moveBlank_any b d hw),
    fun c hc => (wellFormed_iff c).1 (search.wellFormed_of_mem_expand hw hc)⟩

/-- A concrete instance of `invariant_preserved`, with its hypotheses discharged. -/
theorem invariant_preserved_witness :
    IsPermutation scenarioStart ∧ scenarioStart.grid[scenarioStart.blank_index]? = some 0 ∧
    HashOk scenarioStart ∧
    ((∀ d : Move, IsPermutation (scenarioStart.moveBlank d).2 ∧
      (scenarioStart.moveBlank d).2.grid[(scenarioStart.moveBlank d).2.blank_index]? = some 0 ∧
      HashOk (scenarioStart.moveBlank d).2) ∧
    (∀ c ∈ scenarioStart.expand,
      IsPermutation c ∧ c.grid[c.blank_index]? = some 0 ∧ HashOk c)) :=
  ⟨by decide, by decide, hashOk_ofList 3 _,
   invariant_preserved scenarioStart (by decide) (by decide) (hashOk_ofList 3 _)⟩

/-- C15: when `moveBlank(d)` returns true on a board whose blank index `b`
is in range, the new blank index is `b + delta(d)`, the new grid has the
cells at the old and new blank index exchanged and every other cell
unchanged, and the new stored hash is the hash of the new grid. -/
theorem moveBlank_true_effect {N : Nat} (b : Board N) (d : Move)
    (hlen : b.grid.length = SIZE N) (hb : b.blank_index < SIZE N)
    (h : (b.moveBlank d).1 = true) :
    (((b.moveBlank d).2.blank_index : Nat) : Int) = (b.blank_index : Int) + delta N d ∧
    (b.moveBlank d).2.blank_index < SIZE N ∧
    (b.moveBlank d).2.blank_index ≠ b.blank_index ∧
    (b.moveBlank d).2.grid.length = b.grid.length ∧
    (b.moveBlank d).2.grid[b.blank_index]? = b.grid[(b.moveBlank d).2.blank_index]? ∧
    (b.moveBlank d).2.grid[(b.moveBlank d).2.blank_index]? = b.grid[b.blank_index]? ∧
    (∀ k, k ≠ b.blank_index → k ≠ (b.moveBlank d).2.blank_index →
      (b.moveBlank d).2.grid[k]? = b.grid[k]?) ∧
    (b.moveBlank d).2.hashcode = (b.moveBlank d).2.hash := by
  have hN := pos_of_blank_lt hb
  obtain ⟨q, hq, hd, hs⟩ := moveBlank_true_shape b d hb h
  have hne : q ≠ b.blank_index := by
    intro e
    rw [e, cellDistance_self] at hd
    exact absurd hd (by decide)
  have hdelta : ((q : Nat) : Int) = (b.blank_index : Int) + delta N d := by
    have hg := (moveBlank_fst b d hN).1 h
    have hsnd := moveBlank_true_snd b d h
    have hq2 : q = (moveTarget b d).1 := by
      have := congrArg Board.blank_index (hs.symm.trans hsnd)
      exact this
    rcases hg with ⟨rfl, hc⟩ | ⟨rfl, hc⟩ | ⟨rfl, hc⟩ | ⟨rfl, hc⟩
    · have hpos : 0 < b.blank_index := by
        rcases Nat.eq_zero_or_pos b.blank_index with h0 | h0
        · simp [h0] at hc
        · exact h0
      simp only [moveTarget, hc, ne_eq, not_false_eq_true, if_true] at hq2
      simp only [delta]
      omega
    · simp only [moveTarget, hc, if_true] at hq2
      simp only [delta]
      omega
    · simp only [moveTarget, hc, ne_eq, not_false_eq_true, if_true] at hq2
      simp only [delta]
      omega
    · simp only [moveTarget, hc, if_true] at hq2
      simp only [delta]
      omega
  have hp1 : b.blank_index < b.grid.length := by omega
  have hq1 : q < b.grid.length := by omega
  rw [hs]
  refine ⟨hdelta, hq, hne, length_swapCells _ _ _, ?_, ?_, ?_, rfl⟩
  · simp only
    rw [getElem?_swapCells_swap b.grid hp1 hq1, Equiv.swap_apply_left]
  · simp only
    rw [getElem?_swapCells_swap b.grid hp1 hq1, Equiv.swap_apply_right]
  · intro k hk1 hk2
    simp only at hk2 ⊢
    rw [getElem?_swapCells_swap b.grid hp1 hq1, Equiv.swap_apply_of_ne_of_ne hk1 hk2]

/-- A concrete instance of `moveBlank_true_effect`, with its hypotheses discharged. -/
theorem moveBlank_true_effect_witness :
    scenarioStart.grid.length = SIZE 3 ∧ scenarioStart.blank_index < SIZE 3 ∧
    (scenarioStart.moveBlank Move.UP).1 = true ∧
    ((((scenarioStart.moveBlank Move.UP).2.blank_index : Nat) : Int) =
      (scenarioStart.blank_index : Int) + delta 3 Move.UP ∧
    (scenarioStart.moveBlank Move.UP).2.blank_index < SIZE 3 ∧
    (scenarioStart.moveBlank Move.UP).2.blank_index ≠ scenarioStart.blank_index ∧
    (scenarioStart.moveBlank Move.UP).2.grid.length = scenarioStart.grid.length ∧
    (scenarioStart.moveBlank Move.UP).2.grid[scenarioStart.blank_index]? =
      scenarioStart.grid[(scenarioStart.moveBlank Move.UP).2.blank_index]? ∧
    (scenarioStart.moveBlank Move.UP).2.grid[(scenarioStart.moveBlank Move.UP).2.blank_index]? =
      scenarioStart.grid[scenarioStart.blank_index]? ∧
    (∀ k, k ≠ scenarioStart.blank_index → k ≠ (scenarioStart.moveBlank Move.UP).2.blank_index →
      (scenarioStart.moveBlank Move.UP).2.grid[k]? = scenarioStart.grid[k]?) ∧
    (scenarioStart.moveBlank Move.UP).2.hashcode = (scenarioStart.moveBlank Move.UP).2.hash) :=
  ⟨by decide, by decide, by decide,
   moveBlank_true_effect scenarioStart Move.UP (by decide) (by decide) (by decide)⟩

/-- C16: `expand` is the list of the boards after `moveBlank` on a copy, for
the directions `LEFT`, `UP`, `RIGHT`, `DOWN` in that order for which
`moveBlank` returned true; it has at most four elements. -/
theorem expand_by_direction {N : Nat} (s : Board N) :
    s.expand = ([Move.LEFT, Move.UP, Move.RIGHT, Move.DOWN].filter
        (fun d => (s.moveBlank d).1)).map (fun d => (s.moveBlank d).2) ∧
    0 ≤ s.expand.length ∧ s.expand.length ≤ 4 := by
  have h : s.expand = ([Move.LEFT, Move.UP, Move.RIGHT, Move.DOWN].filter
      (fun d => (s.moveBlank d).1)).map (fun d => (s.moveBlank d).2) := by
    rw [expand_eq_filterMap]
    simp only [List.filterMap_cons, List.filterMap_nil, List.filter_cons, List.filter_nil]
    cases (s.moveBlank Move.LEFT).1 <;> cases (s.moveBlank Move.UP).1 <;>
      cases (s.moveBlank Move.RIGHT).1 <;> cases (s.moveBlank Move.DOWN).1 <;> simp
  refine ⟨h, Nat.zero_le _, ?_⟩
  rw [h, List.length_map]
  exact (List.length_filter_le _ _).trans (by simp)

end board

namespace search

open board

theorem Lineage.mem_lt {N : Nat} {heap : Heap N} {p : Nat} {ps : List Nat}
    (h : Lineage heap p ps) : ∀ q ∈ ps, q < heap.length := by
  induction h with
  | root p node hp hn =>
    intro q hq
    simp only [List.mem_singleton] at hq
    subst hq
    by_contra hge
    rw [List.getElem?_eq_none (Nat.le_of_not_lt hge)] at hp
    cases hp
  | step p q node ps hp hn hc ih =>
    intro r hr
    rcases List.mem_cons.1 hr with rfl | hr
    · by_contra hge
      rw [List.getElem?_eq_none (Nat.le_of_not_lt hge)] at hp
      cases hp
    · exact ih r hr

theorem Lineage.determined {N : Nat} {heap : Heap N} {p : Nat} {ps : List Nat}
    (h : Lineage heap p ps) : ∀ ps1, Lineage heap p ps1 → ps1 = ps := by
  induction h with
  | root p node hp hn =>
    intro ps1 h1
    cases h1 with
    | root _ node1 hp1 hn1 => rfl
    | step _ q1 node1 ps2 hp1 hn1 hc1 =>
      rw [hp] at hp1
      cases hp1
      rw [hn] at hn1
      cases hn1
  | step p q node ps hp hn hc ih =>
    intro ps1 h1
    cases h1 with
    | root _ node1 hp1 hn1 =>
      rw [hp] at hp1
      cases hp1
      rw [hn] at hn1
      cases hn1
    | step _ q1 node1 ps2 hp1 hn1 hc1 =>
      rw [hp] at hp1
      cases hp1
      rw [hn] at hn1
      cases hn1
      rw [ih ps2 hc1]

theorem Lineage.of_mem {N : Nat} {heap : Heap N} {p : Nat} {ps : List Nat}
    (h : Lineage heap p ps) : ∀ q ∈ ps, ∃ qs, Lineage heap q qs ∧ qs.length ≤ ps.length := by
  induction h with
  | root p node hp hn =>
    intro q hq
    simp only [List.mem_singleton] at hq
    subst hq
    exact ⟨[q], Lineage.root q node hp hn, Nat.le_refl _⟩
  | step p q node ps hp hn hc ih =>
    intro r hr
    rcases List.mem_cons.1 hr with rfl | hr
    · exact ⟨r :: ps, Lineage.step r q node ps hp hn hc, Nat.le_refl _⟩
    · obtain ⟨qs, hqs, hlen⟩ := ih r hr
      exact ⟨qs, hqs, by simp only [List.length_cons]; omega⟩

/-- A parent chain that ends at a root visits no node twice. -/
theorem Lineage.distinct {N : Nat} {heap : Heap N} {p : Nat} {ps : List Nat}
    (h : Lineage heap p ps) : ps.Nodup := by
  induction h with
  | root p node hp hn => simp
  | step p q node ps hp hn hc ih =>
    refine List.nodup_cons.2 ⟨?_, ih⟩
    intro hmem
    obtain ⟨qs, hqs, hlen⟩ := hc.of_mem p hmem
    have := (Lineage.step p q node ps hp hn hc).determined qs hqs
    rw [this] at hlen
    simp at hlen

theorem Lineage.length_bound {N : Nat} {heap : Heap N} {p : Nat} {ps : List Nat}
    (h : Lineage heap p ps) : ps.length ≤ heap.length := by
  have h1 : ps.toFinset ⊆ Finset.range heap.length := by
    intro q hq
    exact Finset.mem_range.2 (h.mem_lt q (List.mem_toFinset.1 hq))
  have h2 := Finset.card_le_card h1
  rw [List.toFinset_card_of_nodup h.distinct, Finset.card_range] at h2
  exact h2

theorem Lineage.head_is {N : Nat} {heap : Heap N} {p : Nat} {ps : List Nat}
    (h : Lineage heap p ps) : ∃ qs, ps = p :: qs := by
  cases h with
  | root p node hp hn => exact ⟨[], rfl⟩
  | step p q node ps hp hn hc => exact ⟨ps, rfl⟩

/-- A parent chain is the same in an arena that agrees below the old
length. -/
theorem Lineage.extend {N : Nat} {heap : Heap N} {p : Nat} {ps : List Nat}
    (h : Lineage heap p ps) (extra : Heap N) : Lineage (heap ++ extra) p ps := by
  induction h with
  | root p node hp hn =>
    refine Lineage.root p node ?_ hn
    rw [List.getElem?_append_left]
    · exact hp
    · by_contra hge
      rw [List.getElem?_eq_none (Nat.le_of_not_lt hge)] at hp
      cases hp
  | step p q node ps hp hn hc ih =>
    refine Lineage.step p q node ps ?_ hn ih
    rw [List.getElem?_append_left]
    · exact hp
    · by_contra hge
      rw [List.getElem?_eq_none (Nat.le_of_not_lt hge)] at hp
      cases hp

theorem ancestorsLoop_eq_passes_lineage {N : Nat} (heap : Heap N) (c : Nat) {q : Nat}
    {ps : List Nat} (h : Lineage heap q ps) :
    ∀ fuel, ps.length ≤ fuel →
      impl.ancestorsLoop heap c fuel (some q) = passes (statesOf heap ps) (heap.deref c).elem := by
  induction h with
  | root p node hp hn =>
    intro fuel hf
    cases fuel with
    | zero => simp at hf
    | succ fuel =>
      simp only [impl.ancestorsLoop, deref_eq_of_getElem? hp, hn, Node.eq, passes, statesOf,
        List.map_cons, List.map_nil, List.all_cons, List.all_nil, Bool.and_true]
      cases (heap.deref c).elem.eq node.elem
      · cases fuel <;> simp [impl.ancestorsLoop]
      · simp
  | step p q node ps hp hn hc ih =>
    intro fuel hf
    cases fuel with
    | zero => simp at hf
    | succ fuel =>
      simp only [impl.ancestorsLoop, deref_eq_of_getElem? hp, hn, Node.eq, passes, statesOf,
        List.map_cons, List.all_cons]
      have := ih fuel (by simpa using hf)
      cases (heap.deref c).elem.eq node.elem
      · simp only [Bool.false_eq_true, if_false, Bool.not_false, Bool.true_and]
        rw [this]; rfl
      · simp

theorem statesOf_append {N : Nat} (heap extra : Heap N) (ps : List Nat)
    (h : ∀ q ∈ ps, q < heap.length) : statesOf (heap ++ extra) ps = statesOf heap ps := by
  unfold statesOf
  apply List.map_congr_left
  intro q hq
  rw [deref_append_left _ _ (h q hq)]

theorem all_map_fun {α β : Type} (f : α → β) (p : β → Bool) (l : List α) :
    (l.map f).all p = l.all (fun a => p (f a)) := by
  induction l with
  | nil => rfl
  | cons a l ih => simp only [List.map_cons, List.all_cons, ih]

theorem Lineage.self_lt {N : Nat} {heap : Heap N} {p : Nat} {ps : List Nat}
    (h : Lineage heap p ps) : p < heap.length := by
  obtain ⟨qs, rfl⟩ := h.head_is
  exact h.mem_lt p (List.mem_cons_self p qs)

theorem implExpand_fold_lineage {N : Nat} (heap : Heap N) (p : Nat) (ps : List Nat)
    (hc : Lineage heap p ps) :
    ∀ (es : List (Board N)) (done : List (Node N)) (res : List Nat),
      (List.range' (heap.length + done.length) es.length).foldl
        (fun (acc : Heap N × List Nat) child =>
          if impl.isNotSameWithAncestors
              ((acc.1.setParent child p).setDepth child
                (((acc.1.setParent child p).deref p).depth + 1)) child = true then
            ((acc.1.setParent child p).setDepth child
                (((acc.1.setParent child p).deref p).depth + 1), acc.2 ++ [child])
          else
            ((acc.1.setParent child p).setDepth child
                (((acc.1.setParent child p).deref p).depth + 1), acc.2))
        (heap ++ done ++ es.map Node.new, res) =
      (heap ++ done ++ es.map (mkChild p (heap.deref p).depth),
        res ++ (filterPairs (statesOf heap ps) (heap.length + done.length) es).map Prod.fst) := by
  have hp := hc.self_lt
  have hl := hc.length_bound
  intro es
  induction es with
  | nil => intro done res; simp [filterPairs]
  | cons e es ih =>
    intro done res
    have hlen : heap.length + done.length = (heap ++ done).length := by simp
    have hset1 : Heap.setParent (heap ++ done ++ List.map Node.new (e :: es))
        (heap.length + done.length) p =
        heap ++ done ++ ({ Node.new e with parent := some p } :: es.map Node.new) := by
      unfold Heap.setParent
      rw [List.map_cons, hlen, deref_append_length, set_append_length]
    have hder : Heap.deref (heap ++ done ++ ({ Node.new e with parent := some p } ::
        es.map Node.new)) p = heap.deref p := by
      rw [List.append_assoc]; exact deref_append_left _ _ hp
    have hset2 : Heap.setDepth (heap ++ done ++ ({ Node.new e with parent := some p } ::
        es.map Node.new)) (heap.length + done.length) ((heap.deref p).depth + 1) =
        heap ++ done ++ (mkChild p (heap.deref p).depth e :: es.map Node.new) := by
      unfold Heap.setDepth
      rw [hlen, deref_append_length, set_append_length]
      rfl
    have hfil : impl.isNotSameWithAncestors
        (heap ++ done ++ (mkChild p (heap.deref p).depth e :: es.map Node.new))
        (heap.length + done.length) = passes (statesOf heap ps) e := by
      unfold impl.isNotSameWithAncestors
      rw [hlen, deref_append_length]
      have hch : Lineage (heap ++ (done ++ (mkChild p (heap.deref p).depth e ::
          es.map Node.new))) p ps := hc.extend _
      have := ancestorsLoop_eq_passes_lineage _ (heap ++ done).length hch
        (heap ++ (done ++ (mkChild p (heap.deref p).depth e :: es.map Node.new))).length
        (by simp only [List.length_append]; omega)
      rw [statesOf_append _ _ _ hc.mem_lt, ← List.append_assoc, deref_append_length] at this
      exact this
    rw [List.length_cons, List.range'_succ, List.foldl_cons, hset1, hder, hset2, hfil]
    have hre : heap ++ done ++ (mkChild p (heap.deref p).depth e :: es.map Node.new) =
        heap ++ (done ++ [mkChild p (heap.deref p).depth e]) ++ es.map Node.new := by
      simp
    have hidx : heap.length + done.length + 1 =
        heap.length + (done ++ [mkChild p (heap.deref p).depth e]).length := by
      simp; omega
    by_cases hpass : passes (statesOf heap ps) e = true
    · rw [if_pos hpass, hre, hidx, ih]
      simp [filterPairs, hpass, Nat.add_assoc]
    · rw [if_neg hpass, hre, hidx, ih]
      simp [filterPairs, hpass, Nat.add_assoc]

/-- The outcome of `impl::expand` with the ancestor filter in any arena in
which the parent chain of the node ends at a root. -/
theorem implExpand_eq_lineage {N : Nat} (heap : Heap N) (p : Nat) (ps : List Nat)
    (hc : Lineage heap p ps) :
    impl.expand heap p impl.isNotSameWithAncestors =
      (heap ++ (heap.deref p).elem.expand.map (mkChild p (heap.deref p).depth),
        (filterPairs (statesOf heap ps) heap.length (heap.deref p).elem.expand).map Prod.fst) := by
  unfold impl.expand
  rw [nodeExpand_eq]
  have := implExpand_fold_lineage heap p ps hc (heap.deref p).elem.expand [] []
  simp only [List.length_nil, Nat.add_zero, List.append_nil, List.nil_append] at this
  exact this

/-- C13: for a node `n` whose parent chain `ps` (`n` first) ends at a root,
`impl::expand` with `isNotSameWithAncestors` returns, in generation order,
the pointers of exactly those children of `n`'s state that differ (by
`operator==`) from the state of `n` and of every node of the chain; each
returned child is a new node with parent `n` and depth `n.depth + 1`; and the
nodes already in the arena are unchanged. -/
theorem implExpand_spec {N : Nat} (heap : Heap N) (n : Nat) (ps : List Nat)
    (hl : Lineage heap n ps) :
    ∃ heap1 cs, impl.expand heap n impl.isNotSameWithAncestors = (heap1, cs) ∧
      cs.map (fun c => (heap1.deref c).elem) =
        (heap.deref n).elem.expand.filter
          (fun e => ps.all (fun q => !(e.eq (heap.deref q).elem))) ∧
      (∀ c ∈ cs, heap.length ≤ c ∧ (heap1.deref c).parent = some n ∧
        (heap1.deref c).depth = (heap.deref n).depth + 1) ∧
      (∀ i, i < heap.length → heap1[i]? = heap[i]?) := by
  refine ⟨_, _, implExpand_eq_lineage heap n ps hl, ?_, ?_, ?_⟩
  · have hfil : (fun e : Board N => ps.all (fun q => !(e.eq (heap.deref q).elem))) =
        passes (statesOf heap ps) := by
      funext e
      simp only [passes, statesOf]
      rw [all_map_fun]
    rw [hfil, ← filterPairs_map_snd (statesOf heap ps) _ heap.length, List.map_map]
    apply List.map_congr_left
    intro x hx
    obtain ⟨hget, _⟩ := filterPairs_getElem? (statesOf heap ps)
      (mkChild n (heap.deref n).depth) _ heap x hx
    simp only [Function.comp]
    rw [deref_eq_of_getElem? hget]
    rfl
  · intro c hc
    obtain ⟨x, hx, rfl⟩ := List.mem_map.1 hc
    obtain ⟨hget, hle⟩ := filterPairs_getElem? (statesOf heap ps)
      (mkChild n (heap.deref n).depth) _ heap x hx
    rw [deref_eq_of_getElem? hget]
    exact ⟨hle, rfl, rfl⟩
  · intro i hi
    exact List.getElem?_append_left hi

theorem scenarioHeap_lineage : Lineage scenarioHeap 2 [2, 0] :=
  Lineage.step 2 0 (scenarioHeap.deref 2) [0] (by decide) (by decide)
    (Lineage.root 0 (scenarioHeap.deref 0) (by decide) (by decide))

/-- A concrete instance of `implExpand_spec`, with its hypothesis discharged: the
node of the board after `LEFT` in the breadth-first scenario, whose parent is
the start node. -/
theorem implExpand_spec_witness :
    Lineage scenarioHeap 2 [2, 0] ∧
    ∃ heap1 cs, impl.expand scenarioHeap 2 impl.isNotSameWithAncestors = (heap1, cs) ∧
      cs.map (fun c => (heap1.deref c).elem) =
        (scenarioHeap.deref 2).elem.expand.filter
          (fun e => [2, 0].all (fun q => !(e.eq (scenarioHeap.deref q).elem))) ∧
      (∀ c ∈ cs, scenarioHeap.length ≤ c ∧ (heap1.deref c).parent = some 2 ∧
        (heap1.deref c).depth = (scenarioHeap.deref 2).depth + 1) ∧
      (∀ i, i < scenarioHeap.length → heap1[i]? = scenarioHeap[i]?) :=
  ⟨scenarioHeap_lineage, implExpand_spec scenarioHeap 2 [2, 0] scenarioHeap_lineage⟩

end search

namespace search

open board

/-! ## The child loops of `bestFS` and `aStar` -/

theorem find_eq_some_iff {N : Nat} (heap : Heap N) (range : List Nat) (child it : Nat) :
    find heap range child = some it ↔ FirstEqual heap range child it := by
  unfold find FirstEqual
  rw [List.find?_eq_some]
  constructor
  · rintro ⟨h1, pre, post, h2, h3⟩
    refine ⟨pre, post, h2, h1, ?_⟩
    intro q hq
    have := h3 q hq
    simpa using this
  · rintro ⟨pre, post, h2, h1, h3⟩
    refine ⟨h1, pre, post, h2, ?_⟩
    intro q hq
    simp [h3 q hq]

theorem find_eq_none_iff {N : Nat} (heap : Heap N) (range : List Nat) (child : Nat) :
    find heap range child = none ↔ NoEqual heap range child := by
  unfold find NoEqual
  rw [List.find?_eq_none]
  constructor
  · intro h q hq
    have := h q hq
    simpa using this
  · intro h q hq
    simp [h q hq]

theorem FirstEqual.listed {N : Nat} {heap : Heap N} {range : List Nat} {child it : Nat}
    (h : FirstEqual heap range child it) : it ∈ range := by
  obtain ⟨pre, post, h1, _, _⟩ := h
  rw [h1]
  simp

theorem FirstEqual.state_eq {N : Nat} {heap : Heap N} {range : List Nat} {child it : Nat}
    (h : FirstEqual heap range child it) : (heap.deref it).eq (heap.deref child) = true := by
  obtain ⟨_, _, _, h2, _⟩ := h
  exact h2

/-- The selection of a child loop: the node found by `search::find`, if it
passes the comparison. -/
theorem select_eq_some_iff {N : Nat} (heap : Heap N) (range : List Nat) (child it : Nat)
    (better : Nat → Bool) :
    (find heap range child).filter better = some it ↔
      FirstEqual heap range child it ∧ better it = true := by
  rw [Option.filter_eq_some, ← find_eq_some_iff]
  rfl

theorem select_eq_none_iff {N : Nat} (heap : Heap N) (range : List Nat) (child : Nat)
    (better : Nat → Bool) :
    (find heap range child).filter better = none ↔
      NotSelected heap range child (fun it => better it = true) := by
  unfold NotSelected
  cases hf : find heap range child with
  | none =>
    simp only [Option.filter_none, true_iff]
    exact Or.inl ((find_eq_none_iff heap range child).1 hf)
  | some it =>
    rw [Option.filter_some]
    have hfe := (find_eq_some_iff heap range child it).1 hf
    constructor
    · intro h
      right
      refine ⟨it, hfe, ?_⟩
      intro hb
      rw [if_pos hb] at h
      cases h
    · rintro (h | ⟨it1, h1, h2⟩)
      · rw [(find_eq_none_iff heap range child).2 h] at hf
        cases hf
      · rw [(find_eq_some_iff heap range child it1).2 h1] at hf
        cases hf
        rw [if_neg h2]

theorem deref_set {N : Nat} (heap : Heap N) (p : Nat) (x : Node N) (hp : p < heap.length)
    (q : Nat) : Heap.deref (List.set heap p x) q = if q = p then x else heap.deref q := by
  unfold Heap.deref
  rw [List.getD_eq_getElem?_getD, List.getElem?_set]
  by_cases h : p = q
  · subst h
    simp [hp]
  · have h2 : ¬ q = p := fun e => h e.symm
    rw [if_neg h, if_neg h2, List.getD_eq_getElem?_getD]

/-- The node of `it` after `setParent` and `setCost`: parent and cost are
the new ones, state and depth are kept; every other node is as before. -/
theorem deref_setParent_setCost {N : Nat} (heap : Heap N) (it pn : Nat) (c : Int)
    (hit : it < heap.length) (q : Nat) :
    ((heap.setParent it pn).setCost it c).deref q =
      if q = it then { heap.deref it with parent := some pn, cost := c } else heap.deref q := by
  unfold Heap.setCost
  have hlen : it < (heap.setParent it pn).length := by
    unfold Heap.setParent; rw [List.length_set]; exact hit
  rw [deref_set _ _ _ hlen]
  have h1 : ∀ r, (heap.setParent it pn).deref r =
      if r = it then { heap.deref it with parent := some pn } else heap.deref r := by
    intro r
    unfold Heap.setParent
    exact deref_set _ _ _ hit r
  by_cases h : q = it
  · rw [if_pos h, if_pos h, h1 it, if_pos rfl]
  · rw [if_neg h, if_neg h, h1 q, if_neg h]

theorem deref_setCost {N : Nat} (heap : Heap N) (p : Nat) (c : Int) (hp : p < heap.length)
    (q : Nat) :
    (heap.setCost p c).deref q = if q = p then { heap.deref p with cost := c } else heap.deref q := by
  unfold Heap.setCost
  exact deref_set _ _ _ hp q


theorem bestFSChild_update {N : Nat} (evaluator : Evaluator N) (pn : Nat) (f : Frontier N)
    (child it : Nat) (h1 : FirstEqual f.heap f.opened child it)
    (h2 : evaluator (f.heap.deref child) < (f.heap.deref it).cost) :
    bestFSChild evaluator pn f child =
      { f with heap := (f.heap.setParent it pn).setCost it (evaluator (f.heap.deref child)) } := by
  have hs := (select_eq_some_iff f.heap f.opened child it
    (fun it => decide (evaluator (f.heap.deref child) < (f.heap.deref it).cost))).2
    ⟨h1, by simpa using h2⟩
  unfold bestFSChild
  simp only [hs]

theorem bestFSChild_reopen {N : Nat} (evaluator : Evaluator N) (pn : Nat) (f : Frontier N)
    (child it : Nat)
    (h0 : NotSelected f.heap f.opened child
      (fun q => evaluator (f.heap.deref child) < (f.heap.deref q).cost))
    (h1 : FirstEqual f.heap f.closed child it)
    (h2 : evaluator (f.heap.deref child) < (f.heap.deref it).cost) :
    bestFSChild evaluator pn f child =
      { heap := (f.heap.setParent it pn).setCost it (evaluator (f.heap.deref child)),
        opened := it :: f.opened,
        closed := f.closed.filter (fun q => q ≠ it) } := by
  have hn := (select_eq_none_iff f.heap f.opened child
    (fun it => decide (evaluator (f.heap.deref child) < (f.heap.deref it).cost))).2
    (by simpa using h0)
  have hs := (select_eq_some_iff f.heap f.closed child it
    (fun it => decide (evaluator (f.heap.deref child) < (f.heap.deref it).cost))).2
    ⟨h1, by simpa using h2⟩
  unfold bestFSChild
  simp only [hn, hs]

theorem bestFSChild_insert {N : Nat} (evaluator : Evaluator N) (pn : Nat) (f : Frontier N)
    (child : Nat)
    (h0 : NotSelected f.heap f.opened child
      (fun q => evaluator (f.heap.deref child) < (f.heap.deref q).cost))
    (h1 : NotSelected f.heap f.closed child
      (fun q => evaluator (f.heap.deref child) < (f.heap.deref q).cost)) :
    bestFSChild evaluator pn f child =
      { f with heap := f.heap.setCost child (evaluator (f.heap.deref child)),
               opened := child :: f.opened } := by
  have hn := (select_eq_none_iff f.heap f.opened child
    (fun it => decide (evaluator (f.heap.deref child) < (f.heap.deref it).cost))).2
    (by simpa using h0)
  have hn1 := (select_eq_none_iff f.heap f.closed child
    (fun it => decide (evaluator (f.heap.deref child) < (f.heap.deref it).cost))).2
    (by simpa using h1)
  unfold bestFSChild
  simp only [hn, hn1]

theorem aStarChild_update {N : Nat} (g h : Evaluator N) (pbn : Nat) (f : Frontier N)
    (child old : Nat) (h1 : FirstEqual f.heap f.opened child old)
    (h2 : g (f.heap.deref child) < g (f.heap.deref old)) :
    aStarChild g h pbn f child =
      { f with
        heap := (f.heap.setParent old pbn).setCost old
                  (g (f.heap.deref child) + h (f.heap.deref child)) } := by
  have hs := (select_eq_some_iff f.heap f.opened child old
    (fun it => decide (g (f.heap.deref child) < g (f.heap.deref it)))).2
    ⟨h1, by simpa using h2⟩
  unfold aStarChild
  simp only [hs]

theorem aStarChild_reopen {N : Nat} (g h : Evaluator N) (pbn : Nat) (f : Frontier N)
    (child old : Nat)
    (h0 : NotSelected f.heap f.opened child
      (fun q => g (f.heap.deref child) < g (f.heap.deref q)))
    (h1 : FirstEqual f.heap f.closed child old)
    (h2 : g (f.heap.deref child) < g (f.heap.deref old)) :
    aStarChild g h pbn f child =
      { heap := (f.heap.setParent old pbn).setCost old
                  (g (f.heap.deref child) + h (f.heap.deref child)),
        opened := old :: f.opened,
        closed := f.closed.filter (fun q => q ≠ old) } := by
  have hn := (select_eq_none_iff f.heap f.opened child
    (fun it => decide (g (f.heap.deref child) < g (f.heap.deref it)))).2
    (by simpa using h0)
  have hs := (select_eq_some_iff f.heap f.closed child old
    (fun it => decide (g (f.heap.deref child) < g (f.heap.deref it)))).2
    ⟨h1, by simpa using h2⟩
  unfold aStarChild
  simp only [hn, hs]

theorem aStarChild_insert {N : Nat} (g h : Evaluator N) (pbn : Nat) (f : Frontier N)
    (child : Nat)
    (h0 : NotSelected f.heap f.opened child
      (fun q => g (f.heap.deref child) < g (f.heap.deref q)))
    (h1 : NotSelected f.heap f.closed child
      (fun q => g (f.heap.deref child) < g (f.heap.deref q))) :
    aStarChild g h pbn f child =
      { f with heap := f.heap.setCost child (g (f.heap.deref child) + h (f.heap.deref child)),
               opened := child :: f.opened } := by
  have hn := (select_eq_none_iff f.heap f.opened child
    (fun it => decide (g (f.heap.deref child) < g (f.heap.deref it)))).2
    (by simpa using h0)
  have hn1 := (select_eq_none_iff f.heap f.closed child
    (fun it => decide (g (f.heap.deref child) < g (f.heap.deref it)))).2
    (by simpa using h1)
  unfold aStarChild
  simp only [hn, hn1]

/-- Every range is either selected from or not. -/
theorem selected_or_not {N : Nat} (heap : Heap N) (range : List Nat) (child : Nat)
    (better : Nat → Prop) [DecidablePred better] :
    (∃ it, FirstEqual heap range child it ∧ better it) ∨
      NotSelected heap range child better := by
  cases hf : find heap range child with
  | none => exact Or.inr (Or.inl ((find_eq_none_iff heap range child).1 hf))
  | some it =>
    have hfe := (find_eq_some_iff heap range child it).1 hf
    by_cases hb : better it
    · exact Or.inl ⟨it, hfe, hb⟩
    · exact Or.inr (Or.inr ⟨it, hfe, hb⟩)


theorem FirstEqual.same {N : Nat} {heap : Heap N} {range : List Nat} {child it it2 : Nat}
    (h1 : FirstEqual heap range child it) (h2 : FirstEqual heap range child it2) : it = it2 := by
  have a := (find_eq_some_iff heap range child it).2 h1
  have b := (find_eq_some_iff heap range child it2).2 h2
  rw [a] at b
  exact Option.some.inj b

/-- The heap after the child step of `bestFS` has written to a selected
node. -/
theorem bestFSChild_selected {N : Nat} (evaluator : Evaluator N) (pn : Nat) (f : Frontier N)
    (child it : Nat)
    (hs : Selected f.heap f.opened f.closed child
      (fun q => evaluator (f.heap.deref child) < (f.heap.deref q).cost) it) :
    (bestFSChild evaluator pn f child).heap =
      (f.heap.setParent it pn).setCost it (evaluator (f.heap.deref child)) := by
  rcases hs with ⟨h1, h2⟩ | ⟨h0, h1, h2⟩
  · rw [bestFSChild_update evaluator pn f child it h1 h2]
  · rw [bestFSChild_reopen evaluator pn f child it h0 h1 h2]

/-- The heap after the child step of `aStar` has written to a selected
node. -/
theorem aStarChild_selected {N : Nat} (g h : Evaluator N) (pbn : Nat) (f : Frontier N)
    (child old : Nat)
    (hs : Selected f.heap f.opened f.closed child
      (fun q => g (f.heap.deref child) < g (f.heap.deref q)) old) :
    (aStarChild g h pbn f child).heap =
      (f.heap.setParent old pbn).setCost old
        (g (f.heap.deref child) + h (f.heap.deref child)) := by
  rcases hs with ⟨h1, h2⟩ | ⟨h0, h1, h2⟩
  · rw [aStarChild_update g h pbn f child old h1 h2]
  · rw [aStarChild_reopen g h pbn f child old h0 h1 h2]

theorem Selected.allocated {N : Nat} {f : Frontier N} {child it : Nat} {better : Nat → Prop}
    (hv : f.Valid) (hs : Selected f.heap f.opened f.closed child better it) :
    it < f.heap.length := by
  rcases hs with ⟨h1, _⟩ | ⟨_, h1, _⟩
  · exact hv.1 it h1.listed
  · exact hv.2 it h1.listed

theorem Selected.equal_state {N : Nat} {heap : Heap N} {opened closed : List Nat} {child it : Nat}
    {better : Nat → Prop} (hs : Selected heap opened closed child better it) :
    (heap.deref it).eq (heap.deref child) = true := by
  rcases hs with ⟨h1, _⟩ | ⟨_, h1, _⟩
  · exact h1.state_eq
  · exact h1.state_eq

theorem Selected.better {N : Nat} {heap : Heap N} {opened closed : List Nat} {child it : Nat}
    {better : Nat → Prop} (hs : Selected heap opened closed child better it) : better it := by
  rcases hs with ⟨_, h2⟩ | ⟨_, _, h2⟩
  · exact h2
  · exact h2

theorem Selected.in_lists {N : Nat} {heap : Heap N} {opened closed : List Nat} {child it : Nat}
    {better : Nat → Prop} (hs : Selected heap opened closed child better it) :
    it ∈ opened ∨ it ∈ closed := by
  rcases hs with ⟨h1, _⟩ | ⟨_, h1, _⟩
  · exact Or.inl h1.listed
  · exact Or.inr h1.listed

/-- The child step either writes to a selected node or selects nothing in
both lists. -/
theorem selected_or_insert {N : Nat} (heap : Heap N) (opened closed : List Nat) (child : Nat)
    (better : Nat → Prop) [DecidablePred better] :
    (∃ it, Selected heap opened closed child better it) ∨
      (NotSelected heap opened child better ∧ NotSelected heap closed child better) := by
  rcases selected_or_not heap opened child better with ⟨it, h1, h2⟩ | h0
  · exact Or.inl ⟨it, Or.inl ⟨h1, h2⟩⟩
  · rcases selected_or_not heap closed child better with ⟨it, h1, h2⟩ | h3
    · exact Or.inl ⟨it, Or.inr ⟨h0, h1, h2⟩⟩
    · exact Or.inr ⟨h0, h3⟩

theorem dupFrontier_valid : dupFrontier.Valid := by
  unfold Frontier.Valid
  decide

theorem staleFrontier_valid : staleFrontier.Valid := by
  unfold Frontier.Valid
  decide

theorem reopenFrontier_valid : reopenFrontier.Valid := by
  unfold Frontier.Valid
  decide


/-- C17 (amended): the child step of `bestFS` decides on the first
state-equal node of each list, the one `search::find` returns.  With `c` the
evaluator cost of the child: if the first state-equal open node has recorded
cost above `c`, that node gets the popped node as parent and cost `c`, every
other node and both lists stay as they are (no duplicate is inserted); else if
the first state-equal closed node has recorded cost above `c`, that node gets
the same update, is pushed at the front of the open list and is removed from
the closed list; else the child gets cost `c` and is pushed at the front of the
open list, the closed list staying as it is. -/
theorem bestFSChild_policy {N : Nat} (evaluator : Evaluator N) (pn : Nat) (f : Frontier N)
    (child : Nat) (hv : f.Valid) (hc : child < f.heap.length) :
    (∀ it, FirstEqual f.heap f.opened child it →
      evaluator (f.heap.deref child) < (f.heap.deref it).cost →
      (bestFSChild evaluator pn f child).opened = f.opened ∧
      (bestFSChild evaluator pn f child).closed = f.closed ∧
      ∀ q, (bestFSChild evaluator pn f child).heap.deref q =
        if q = it then
          { f.heap.deref it with parent := some pn, cost := evaluator (f.heap.deref child) }
        else f.heap.deref q) ∧
    (NotSelected f.heap f.opened child
        (fun q => evaluator (f.heap.deref child) < (f.heap.deref q).cost) →
      ∀ it, FirstEqual f.heap f.closed child it →
      evaluator (f.heap.deref child) < (f.heap.deref it).cost →
      (bestFSChild evaluator pn f child).opened = it :: f.opened ∧
      (bestFSChild evaluator pn f child).closed = f.closed.filter (fun q => q ≠ it) ∧
      it ∉ (bestFSChild evaluator pn f child).closed ∧
      ∀ q, (bestFSChild evaluator pn f child).heap.deref q =
        if q = it then
          { f.heap.deref it with parent := some pn, cost := evaluator (f.heap.deref child) }
        else f.heap.deref q) ∧
    (NotSelected f.heap f.opened child
        (fun q => evaluator (f.heap.deref child) < (f.heap.deref q).cost) →
      NotSelected f.heap f.closed child
        (fun q => evaluator (f.heap.deref child) < (f.heap.deref q).cost) →
      (bestFSChild evaluator pn f child).opened = child :: f.opened ∧
      (bestFSChild evaluator pn f child).closed = f.closed ∧
      ∀ q, (bestFSChild evaluator pn f child).heap.deref q =
        if q = child then { f.heap.deref child with cost := evaluator (f.heap.deref child) }
        else f.heap.deref q) := by
  refine ⟨?_, ?_, ?_⟩
  · intro it h1 h2
    rw [bestFSChild_update evaluator pn f child it h1 h2]
    exact ⟨rfl, rfl, deref_setParent_setCost f.heap it pn _ (hv.1 it h1.listed)⟩
  · intro h0 it h1 h2
    rw [bestFSChild_reopen evaluator pn f child it h0 h1 h2]
    refine ⟨rfl, rfl, ?_, deref_setParent_setCost f.heap it pn _ (hv.2 it h1.listed)⟩
    simp
  · intro h0 h1
    rw [bestFSChild_insert evaluator pn f child h0 h1]
    exact ⟨rfl, rfl, deref_setCost f.heap child _ hc⟩

/-- The three branches of `bestFSChild_policy` on concrete frontiers: the
update branch on `staleFrontier`, the reopen branch on `reopenFrontier` and
the insert branch on `dupFrontier`, with the evaluator of `boardBestFS`. -/
theorem bestFSChild_policy_witness :
    ((bestFSChild (compatibilityEvaluator scenarioTarget) 0 staleFrontier 2).opened = [1] ∧
      (bestFSChild (compatibilityEvaluator scenarioTarget) 0 staleFrontier 2).closed = [0] ∧
      ∀ q, (bestFSChild (compatibilityEvaluator scenarioTarget) 0 staleFrontier 2).heap.deref q =
        if q = 1 then { elem := scenarioTarget, parent := some 0, depth := 3, cost := 1 }
        else staleFrontier.heap.deref q) ∧
    ((bestFSChild (compatibilityEvaluator scenarioTarget) 0 reopenFrontier 2).opened = [1] ∧
      (bestFSChild (compatibilityEvaluator scenarioTarget) 0 reopenFrontier 2).closed = [0] ∧
      1 ∉ (bestFSChild (compatibilityEvaluator scenarioTarget) 0 reopenFrontier 2).closed ∧
      ∀ q, (bestFSChild (compatibilityEvaluator scenarioTarget) 0 reopenFrontier 2).heap.deref q =
        if q = 1 then { elem := scenarioTarget, parent := some 0, depth := 3, cost := 1 }
        else reopenFrontier.heap.deref q) ∧
    ((bestFSChild (compatibilityEvaluator scenarioTarget) 0 dupFrontier 3).opened = [3, 1, 2] ∧
      (bestFSChild (compatibilityEvaluator scenarioTarget) 0 dupFrontier 3).closed = [0] ∧
      ∀ q, (bestFSChild (compatibilityEvaluator scenarioTarget) 0 dupFrontier 3).heap.deref q =
        if q = 3 then { elem := scenarioTarget, parent := some 0, depth := 1, cost := 1 }
        else dupFrontier.heap.deref q) :=
  ⟨(bestFSChild_policy (compatibilityEvaluator scenarioTarget) 0 staleFrontier 2
      staleFrontier_valid (by decide)).1 1
      ((find_eq_some_iff _ _ _ _).1 (by decide)) (by decide),
   (bestFSChild_policy (compatibilityEvaluator scenarioTarget) 0 reopenFrontier 2
      reopenFrontier_valid (by decide)).2.1
      (Or.inl ((find_eq_none_iff _ _ _).1 (by decide))) 1
      ((find_eq_some_iff _ _ _ _).1 (by decide)) (by decide),
   (bestFSChild_policy (compatibilityEvaluator scenarioTarget) 0 dupFrontier 3
      dupFrontier_valid (by decide)).2.2
      (Or.inr ⟨1, (find_eq_some_iff _ _ _ _).1 (by decide), by decide⟩)
      (Or.inl ((find_eq_none_iff _ _ _).1 (by decide)))⟩

/-- C17, as stated, fails: in `dupFrontier` the open node `2` is state-equal
to the generated child `3` and its recorded cost `3` is above the child's
evaluator cost `1`, yet the child step of `bestFS` leaves node `2` as it is
(parent and cost included) and inserts the child into the open list as a
duplicate; `search::find` stops at the open node `1`, whose recorded cost `1`
is not above `1`. -/
theorem bestFSChild_later_equal_ignored :
    2 ∈ dupFrontier.opened ∧
    (dupFrontier.heap.deref 2).eq (dupFrontier.heap.deref 3) = true ∧
    compatibilityEvaluator scenarioTarget (dupFrontier.heap.deref 3) = 1 ∧
    (dupFrontier.heap.deref 2).cost = 3 ∧
    find dupFrontier.heap dupFrontier.opened 3 = some 1 ∧
    (dupFrontier.heap.deref 1).cost = 1 ∧
    (bestFSChild (compatibilityEvaluator scenarioTarget) 0 dupFrontier 3).heap.deref 2 =
      dupFrontier.heap.deref 2 ∧
    ((bestFSChild (compatibilityEvaluator scenarioTarget) 0 dupFrontier 3).heap.deref 2).cost ≠ 1 ∧
    (bestFSChild (compatibilityEvaluator scenarioTarget) 0 dupFrontier 3).opened = [3, 1, 2] ∧
    (bestFSChild (compatibilityEvaluator scenarioTarget) 0 dupFrontier 3).closed = [0] := by
  decide

/-- C18: the child step of `aStar`, for a frontier whose pointers are
allocated and a newly generated child (allocated, in neither list).  A node
of the open or closed list whose record differs after the step is state-equal
to the child, had `g(child) < g(node)` strictly, and now has recorded cost
`g(child) + h(child)` and the popped node as parent.  The step takes one of
two courses: it writes parent and cost `g(child) + h(child)` to one
state-equal listed node `old` with `g(child) < g(old)` and does not insert
the child, or it writes to no listed node and pushes the child at the front of
the open list with cost `g(child) + h(child)`. -/
theorem aStarChild_policy {N : Nat} (g h : Evaluator N) (pbn : Nat) (f : Frontier N)
    (child : Nat) (hv : f.Valid) (hc : child < f.heap.length)
    (hco : child ∉ f.opened) (hcc : child ∉ f.closed) :
    (∀ q, q ∈ f.opened ∨ q ∈ f.closed →
      (aStarChild g h pbn f child).heap.deref q ≠ f.heap.deref q →
      (f.heap.deref q).eq (f.heap.deref child) = true ∧
      g (f.heap.deref child) < g (f.heap.deref q) ∧
      ((aStarChild g h pbn f child).heap.deref q).cost =
        g (f.heap.deref child) + h (f.heap.deref child) ∧
      ((aStarChild g h pbn f child).heap.deref q).parent = some pbn) ∧
    ((∃ old, (old ∈ f.opened ∨ old ∈ f.closed) ∧
        (f.heap.deref old).eq (f.heap.deref child) = true ∧
        g (f.heap.deref child) < g (f.heap.deref old) ∧
        (∀ q, (aStarChild g h pbn f child).heap.deref q =
          if q = old then
            { f.heap.deref old with
              parent := some pbn,
              cost := g (f.heap.deref child) + h (f.heap.deref child) }
          else f.heap.deref q) ∧
        child ∉ (aStarChild g h pbn f child).opened ∧
        child ∉ (aStarChild g h pbn f child).closed) ∨
      ((∀ q, q ∈ f.opened ∨ q ∈ f.closed →
          (aStarChild g h pbn f child).heap.deref q = f.heap.deref q) ∧
        (aStarChild g h pbn f child).opened = child :: f.opened ∧
        (aStarChild g h pbn f child).closed = f.closed ∧
        ((aStarChild g h pbn f child).heap.deref child).cost =
          g (f.heap.deref child) + h (f.heap.deref child))) := by
  rcases selected_or_insert f.heap f.opened f.closed child
    (fun q => g (f.heap.deref child) < g (f.heap.deref q)) with ⟨old, hs⟩ | ⟨h0, h1⟩
  · have hold : old < f.heap.length := hs.allocated hv
    have hheap := aStarChild_selected g h pbn f child old hs
    have hd : ∀ q, (aStarChild g h pbn f child).heap.deref q =
        if q = old then
          { f.heap.deref old with
            parent := some pbn,
            cost := g (f.heap.deref child) + h (f.heap.deref child) }
        else f.heap.deref q := by
      intro q
      rw [hheap]
      exact deref_setParent_setCost f.heap old pbn _ hold q
    have hne : child ≠ old := by
      intro e
      rcases hs.in_lists with hm | hm
      · exact hco (e ▸ hm)
      · exact hcc (e ▸ hm)
    refine ⟨?_, Or.inl ⟨old, hs.in_lists, hs.equal_state, hs.better, hd, ?_, ?_⟩⟩
    · intro q _ hq
      rw [hd q] at hq ⊢
      by_cases hqo : q = old
      · subst hqo
        rw [if_pos rfl]
        exact ⟨hs.equal_state, hs.better, rfl, rfl⟩
      · rw [if_neg hqo] at hq
        exact absurd rfl hq
    · rcases hs with ⟨a, b⟩ | ⟨a0, a, b⟩
      · rw [aStarChild_update g h pbn f child old a b]
        exact hco
      · rw [aStarChild_reopen g h pbn f child old a0 a b]
        intro hm
        rcases List.mem_cons.1 hm with e | hm
        · exact hne e
        · exact hco hm
    · rcases hs with ⟨a, b⟩ | ⟨a0, a, b⟩
      · rw [aStarChild_update g h pbn f child old a b]
        exact hcc
      · rw [aStarChild_reopen g h pbn f child old a0 a b]
        intro hm
        exact hcc (List.mem_filter.1 hm).1
  · have he := aStarChild_insert g h pbn f child h0 h1
    have hd : ∀ q, (aStarChild g h pbn f child).heap.deref q =
        if q = child then
          { f.heap.deref child with cost := g (f.heap.deref child) + h (f.heap.deref child) }
        else f.heap.deref q := by
      intro q
      rw [he]
      exact deref_setCost f.heap child _ hc q
    have hsame : ∀ q, q ∈ f.opened ∨ q ∈ f.closed →
        (aStarChild g h pbn f child).heap.deref q = f.heap.deref q := by
      intro q hq
      rw [hd q]
      have hqc : q ≠ child := by
        intro e
        rcases hq with hm | hm
        · exact hco (e ▸ hm)
        · exact hcc (e ▸ hm)
      rw [if_neg hqc]
    refine ⟨fun q hq hch => absurd (hsame q hq) hch, Or.inr ⟨hsame, ?_, ?_, ?_⟩⟩
    · rw [he]
    · rw [he]
    · rw [hd child, if_pos rfl]

/-- The statement `aStarChild_policy` on `staleFrontier` with the evaluators
of `boardAStar`: the hypotheses hold there, and so does its conclusion. -/
theorem aStarChild_policy_witness :
    staleFrontier.Valid ∧ 2 < staleFrontier.heap.length ∧
    2 ∉ staleFrontier.opened ∧ 2 ∉ staleFrontier.closed ∧
    ((aStarChild depthEvaluator (similarityEvaluator scenarioTarget) 0 staleFrontier 2).heap.deref
      1).cost = 1 ∧
    (∀ q, q ∈ staleFrontier.opened ∨ q ∈ staleFrontier.closed →
      (aStarChild depthEvaluator (similarityEvaluator scenarioTarget) 0
        staleFrontier 2).heap.deref q ≠ staleFrontier.heap.deref q →
      (staleFrontier.heap.deref q).eq (staleFrontier.heap.deref 2) = true ∧
      depthEvaluator (staleFrontier.heap.deref 2) < depthEvaluator (staleFrontier.heap.deref q) ∧
      ((aStarChild depthEvaluator (similarityEvaluator scenarioTarget) 0
        staleFrontier 2).heap.deref q).cost =
        depthEvaluator (staleFrontier.heap.deref 2) +
          similarityEvaluator scenarioTarget (staleFrontier.heap.deref 2) ∧
      ((aStarChild depthEvaluator (similarityEvaluator scenarioTarget) 0
        staleFrontier 2).heap.deref q).parent = some 0) :=
  ⟨staleFrontier_valid, by decide, by decide, by decide, by decide,
   (aStarChild_policy depthEvaluator (similarityEvaluator scenarioTarget) 0 staleFrontier 2
      staleFrontier_valid (by decide) (by decide) (by decide)).1⟩

/-- State-equal boards have the same `compatibilityCalculate` value against
a target. -/
theorem compatibilityCalculate_congr {N : Nat} (target a b : Board N) (h : a.eq b = true) :
    target.compatibilityCalculate a = target.compatibilityCalculate b := by
  have hg : a.grid = b.grid := ((board.eq_iff a b).1 h).2
  unfold Board.compatibilityCalculate
  rw [hg]

/-- The depth of every node after a write of parent and cost to `it`. -/
theorem depth_setParent_setCost {N : Nat} (heap : Heap N) (it pn : Nat) (c : Int)
    (hit : it < heap.length) (q : Nat) :
    (((heap.setParent it pn).setCost it c).deref q).depth = (heap.deref q).depth := by
  rw [deref_setParent_setCost heap it pn c hit q]
  by_cases hq : q = it
  · subst hq
    rw [if_pos rfl]
  · rw [if_neg hq]

/-- The child step of `bestFS` with an evaluator `depth + k(state)` keeps
every listed node's recorded cost at most the evaluator's value of the
node. -/
theorem bestFSChild_cost_le {N : Nat} (k : Board N → Int) (pn : Nat) (f : Frontier N)
    (child : Nat) (hv : f.Valid) (hc : child < f.heap.length)
    (hinv : ∀ q, q ∈ f.opened ∨ q ∈ f.closed →
      (f.heap.deref q).cost ≤ ((f.heap.deref q).depth : Int) + k (f.heap.deref q).elem) :
    ∀ q, q ∈ (bestFSChild (fun node => (node.depth : Int) + k node.elem) pn f child).opened ∨
        q ∈ (bestFSChild (fun node => (node.depth : Int) + k node.elem) pn f child).closed →
      ((bestFSChild (fun node => (node.depth : Int) + k node.elem) pn f child).heap.deref q).cost ≤
        (((bestFSChild (fun node => (node.depth : Int) + k node.elem) pn f child).heap.deref
          q).depth : Int) +
        k ((bestFSChild (fun node => (node.depth : Int) + k node.elem) pn f child).heap.deref
          q).elem := by
  rcases selected_or_insert f.heap f.opened f.closed child
    (fun q => (fun node : Node N => (node.depth : Int) + k node.elem) (f.heap.deref child) <
      (f.heap.deref q).cost) with ⟨it, hs⟩ | ⟨h0, h1⟩
  · have hit : it < f.heap.length := hs.allocated hv
    have hb := hs.better
    have hiv := hinv it hs.in_lists
    have hmem : ∀ q,
        q ∈ (bestFSChild (fun node => (node.depth : Int) + k node.elem) pn f child).opened ∨
        q ∈ (bestFSChild (fun node => (node.depth : Int) + k node.elem) pn f child).closed →
        q = it ∨ q ∈ f.opened ∨ q ∈ f.closed := by
      intro q hq
      rcases hs with ⟨a, b⟩ | ⟨a0, a, b⟩
      · rw [bestFSChild_update _ pn f child it a b] at hq
        exact Or.inr hq
      · rw [bestFSChild_reopen _ pn f child it a0 a b] at hq
        rcases hq with hq | hq
        · rcases List.mem_cons.1 hq with e | hq
          · exact Or.inl e
          · exact Or.inr (Or.inl hq)
        · exact Or.inr (Or.inr (List.mem_filter.1 hq).1)
    intro q hq
    rw [bestFSChild_selected _ pn f child it hs, deref_setParent_setCost f.heap it pn _ hit q]
    by_cases hqi : q = it
    · subst hqi
      rw [if_pos rfl]
      simp only at hb ⊢
      omega
    · rw [if_neg hqi]
      rcases hmem q hq with e | hm
      · exact absurd e hqi
      · exact hinv q hm
  · have he := bestFSChild_insert (fun node : Node N => (node.depth : Int) + k node.elem)
      pn f child h0 h1
    intro q hq
    rw [he] at hq ⊢
    simp only at hq ⊢
    rw [deref_setCost f.heap child _ hc q]
    by_cases hqc : q = child
    · subst hqc
      rw [if_pos rfl]
    · rw [if_neg hqc]
      rcases hq with hq | hq
      · rcases List.mem_cons.1 hq with e | hq
        · exact absurd e hqc
        · exact hinv q (Or.inl hq)
      · exact hinv q (Or.inr hq)

/-- C20: when the child step of `bestFS` or of `aStar` writes to an existing
open or closed node `it` (update or reopen branch), for a child whose depth is
the popped node's depth plus one: the node `it` keeps its state and its depth
and gets the new parent and cost, and every other node is left as it is.
For `bestFS` with an evaluator `depth + k(state)` and a recorded cost no
higher than the evaluator's value of the node, and for `aStar` with the depth
as `g`, the depth of `it` after the write is above the new parent's depth plus
one, hence not equal to it, and the depth-based `g` of `it` still returns the
old value, above `g(child)`. -/
theorem update_keeps_depth {N : Nat} (pn : Nat) (f : Frontier N) (child it : Nat)
    (hv : f.Valid) (hd : (f.heap.deref child).depth = (f.heap.deref pn).depth + 1) :
    (∀ evaluator : Evaluator N,
      Selected f.heap f.opened f.closed child
        (fun q => evaluator (f.heap.deref child) < (f.heap.deref q).cost) it →
      (∀ q, (bestFSChild evaluator pn f child).heap.deref q =
        if q = it then
          { f.heap.deref it with parent := some pn, cost := evaluator (f.heap.deref child) }
        else f.heap.deref q) ∧
      ((bestFSChild evaluator pn f child).heap.deref it).depth = (f.heap.deref it).depth ∧
      ((bestFSChild evaluator pn f child).heap.deref it).elem = (f.heap.deref it).elem) ∧
    (∀ k : Board N → Int, (∀ a b, a.eq b = true → k a = k b) →
      Selected f.heap f.opened f.closed child
        (fun q => ((f.heap.deref child).depth : Int) + k (f.heap.deref child).elem <
          (f.heap.deref q).cost) it →
      (f.heap.deref it).cost ≤ ((f.heap.deref it).depth : Int) + k (f.heap.deref it).elem →
      ((bestFSChild (fun node => (node.depth : Int) + k node.elem) pn f child).heap.deref
          pn).depth + 1 <
        ((bestFSChild (fun node => (node.depth : Int) + k node.elem) pn f child).heap.deref
          it).depth ∧
      ((bestFSChild (fun node => (node.depth : Int) + k node.elem) pn f child).heap.deref
          it).depth ≠
        ((bestFSChild (fun node => (node.depth : Int) + k node.elem) pn f child).heap.deref
          pn).depth + 1) ∧
    (∀ g h : Evaluator N,
      Selected f.heap f.opened f.closed child
        (fun q => g (f.heap.deref child) < g (f.heap.deref q)) it →
      (∀ q, (aStarChild g h pn f child).heap.deref q =
        if q = it then
          { f.heap.deref it with
            parent := some pn,
            cost := g (f.heap.deref child) + h (f.heap.deref child) }
        else f.heap.deref q) ∧
      ((aStarChild g h pn f child).heap.deref it).depth = (f.heap.deref it).depth ∧
      ((aStarChild g h pn f child).heap.deref it).elem = (f.heap.deref it).elem) ∧
    (∀ h : Evaluator N,
      Selected f.heap f.opened f.closed child
        (fun q => depthEvaluator (f.heap.deref child) < depthEvaluator (f.heap.deref q)) it →
      ((aStarChild depthEvaluator h pn f child).heap.deref pn).depth + 1 <
        ((aStarChild depthEvaluator h pn f child).heap.deref it).depth ∧
      ((aStarChild depthEvaluator h pn f child).heap.deref it).depth ≠
        ((aStarChild depthEvaluator h pn f child).heap.deref pn).depth + 1 ∧
      depthEvaluator ((aStarChild depthEvaluator h pn f child).heap.deref it) =
        depthEvaluator (f.heap.deref it) ∧
      depthEvaluator (f.heap.deref child) <
        depthEvaluator ((aStarChild depthEvaluator h pn f child).heap.deref it)) := by
  refine ⟨?_, ?_, ?_, ?_⟩
  · intro evaluator hs
    have hit : it < f.heap.length := hs.allocated hv
    have hq : ∀ q, (bestFSChild evaluator pn f child).heap.deref q =
        if q = it then
          { f.heap.deref it with parent := some pn, cost := evaluator (f.heap.deref child) }
        else f.heap.deref q := by
      intro q
      rw [bestFSChild_selected evaluator pn f child it hs]
      exact deref_setParent_setCost f.heap it pn _ hit q
    refine ⟨hq, ?_, ?_⟩
    · rw [hq it, if_pos rfl]
    · rw [hq it, if_pos rfl]
  · intro k hk hs hcost
    have hit : it < f.heap.length := hs.allocated hv
    have hb := hs.better
    have he : k (f.heap.deref it).elem = k (f.heap.deref child).elem := hk _ _ hs.equal_state
    rw [bestFSChild_selected (fun node => (node.depth : Int) + k node.elem) pn f child it hs,
      depth_setParent_setCost f.heap it pn _ hit it,
      depth_setParent_setCost f.heap it pn _ hit pn]
    simp only at hb
    omega
  · intro g h hs
    have hit : it < f.heap.length := hs.allocated hv
    have hq : ∀ q, (aStarChild g h pn f child).heap.deref q =
        if q = it then
          { f.heap.deref it with
            parent := some pn,
            cost := g (f.heap.deref child) + h (f.heap.deref child) }
        else f.heap.deref q := by
      intro q
      rw [aStarChild_selected g h pn f child it hs]
      exact deref_setParent_setCost f.heap it pn _ hit q
    refine ⟨hq, ?_, ?_⟩
    · rw [hq it, if_pos rfl]
    · rw [hq it, if_pos rfl]
  · intro h hs
    have hit : it < f.heap.length := hs.allocated hv
    have hb := hs.better
    rw [aStarChild_selected depthEvaluator h pn f child it hs]
    unfold depthEvaluator at hb ⊢
    rw [depth_setParent_setCost f.heap it pn _ hit it,
      depth_setParent_setCost f.heap it pn _ hit pn]
    omega

/-- The statement `update_keeps_depth` on `staleFrontier`, where both child
steps take the update branch on node `1`: the hypotheses hold, node `1` keeps
depth `3` under the new parent `0` of depth `0`, and the depth-based `g` of
node `1` is still `3`, above the `1` of the child. -/
theorem update_keeps_depth_witness :
    staleFrontier.Valid ∧
    (staleFrontier.heap.deref 2).depth = (staleFrontier.heap.deref 0).depth + 1 ∧
    (((bestFSChild (fun node => (node.depth : Int) + scenarioTarget.compatibilityCalculate node.elem)
        0 staleFrontier 2).heap.deref 0).depth + 1 <
      ((bestFSChild (fun node => (node.depth : Int) + scenarioTarget.compatibilityCalculate node.elem)
        0 staleFrontier 2).heap.deref 1).depth ∧
      ((bestFSChild (fun node => (node.depth : Int) + scenarioTarget.compatibilityCalculate node.elem)
        0 staleFrontier 2).heap.deref 1).depth ≠
      ((bestFSChild (fun node => (node.depth : Int) + scenarioTarget.compatibilityCalculate node.elem)
        0 staleFrontier 2).heap.deref 0).depth + 1) ∧
    (((aStarChild depthEvaluator (similarityEvaluator scenarioTarget) 0
        staleFrontier 2).heap.deref 0).depth + 1 <
      ((aStarChild depthEvaluator (similarityEvaluator scenarioTarget) 0
        staleFrontier 2).heap.deref 1).depth ∧
      ((aStarChild depthEvaluator (similarityEvaluator scenarioTarget) 0
        staleFrontier 2).heap.deref 1).depth ≠
      ((aStarChild depthEvaluator (similarityEvaluator scenarioTarget) 0
        staleFrontier 2).heap.deref 0).depth + 1 ∧
      depthEvaluator ((aStarChild depthEvaluator (similarityEvaluator scenarioTarget) 0
        staleFrontier 2).heap.deref 1) = depthEvaluator (staleFrontier.heap.deref 1) ∧
      depthEvaluator (staleFrontier.heap.deref 2) <
        depthEvaluator ((aStarChild depthEvaluator (similarityEvaluator scenarioTarget) 0
          staleFrontier 2).heap.deref 1)) ∧
    ((aStarChild depthEvaluator (similarityEvaluator scenarioTarget) 0
        staleFrontier 2).heap.deref 1) =
      { elem := scenarioTarget, parent := some 0, depth := 3, cost := 1 } :=
  ⟨staleFrontier_valid, by decide,
   (update_keeps_depth 0 staleFrontier 2 1 staleFrontier_valid (by decide)).2.1
      scenarioTarget.compatibilityCalculate
      (compatibilityCalculate_congr scenarioTarget)
      (Or.inl ⟨(find_eq_some_iff _ _ _ _).1 (by decide), by decide⟩) (by decide),
   (update_keeps_depth 0 staleFrontier 2 1 staleFrontier_valid (by decide)).2.2.2
      (similarityEvaluator scenarioTarget)
      (Or.inl ⟨(find_eq_some_iff _ _ _ _).1 (by decide), by decide⟩),
   by decide⟩

end search

namespace search

open board

/-! ## The levels of the breadth-first tree and the loop of `bfs` -/

theorem mem_kids_iff {N : Nat} (s : Board N) (anc c : List (Board N)) :
    c ∈ kids (s :: anc) ↔ ∃ e, e ∈ s.expand ∧ passes (s :: anc) e = true ∧ c = e :: s :: anc := by
  simp only [kids, List.mem_map, List.mem_filter]
  constructor
  · rintro ⟨e, ⟨he, hp⟩, rfl⟩
    exact ⟨e, he, hp, rfl⟩
  · rintro ⟨e, he, hp, rfl⟩
    exact ⟨e, ⟨he, hp⟩, rfl⟩

theorem length_of_mem_kids {N : Nat} {c c1 : List (Board N)} (h : c1 ∈ kids c) :
    c1.length = c.length + 1 := by
  cases c with
  | nil => simp [kids] at h
  | cons s anc =>
    obtain ⟨e, _, _, rfl⟩ := (mem_kids_iff s anc c1).1 h
    simp

/-- A level of the tree is the list of the children of the level above. -/
theorem levelFrom_succ_eq {N : Nat} :
    ∀ (d : Nat) (c : List (Board N)), levelFrom (d + 1) c = (levelFrom d c).flatMap kids := by
  intro d
  induction d with
  | zero =>
    intro c
    simp [levelFrom]
  | succ d ih =>
    intro c
    have h1 : levelFrom (d + 1 + 1) c = (kids c).flatMap (levelFrom (d + 1)) := rfl
    have h2 : levelFrom (d + 1) c = (kids c).flatMap (levelFrom d) := rfl
    have h3 : (levelFrom (d + 1) : List (Board N) → List (List (Board N))) =
        fun c1 => (levelFrom d c1).flatMap kids := funext (ih)
    calc levelFrom (d + 1 + 1) c
        = (kids c).flatMap (fun c1 => (levelFrom d c1).flatMap kids) := by rw [h1, h3]
      _ = ((kids c).flatMap (levelFrom d)).flatMap kids := by rw [List.flatMap_assoc]
      _ = (levelFrom (d + 1) c).flatMap kids := by rw [h2]

theorem length_of_mem_levelFrom {N : Nat} :
    ∀ (d : Nat) (c c1 : List (Board N)), c1 ∈ levelFrom d c → c1.length = c.length + d := by
  intro d
  induction d with
  | zero =>
    intro c c1 h
    simp only [levelFrom, List.mem_singleton] at h
    rw [h]
    rfl
  | succ d ih =>
    intro c c1 h
    simp only [levelFrom, List.mem_flatMap] at h
    obtain ⟨c2, h2, h3⟩ := h
    rw [ih c2 c1 h3, length_of_mem_kids h2]
    omega

/-- A node of level `d` that holds the target gives a sequence of `d`
applied moves to the target. -/
theorem levelFrom_reaches {N : Nat} (target : Board N) :
    ∀ (d : Nat) (s : Board N) (anc c : List (Board N)), c ∈ levelFrom d (s :: anc) →
      atTarget target c = true → Reaches target s d := by
  intro d
  induction d with
  | zero =>
    intro s anc c h ht
    simp only [levelFrom, List.mem_singleton] at h
    subst h
    exact reaches_zero.2 ht
  | succ d ih =>
    intro s anc c h ht
    simp only [levelFrom, List.mem_flatMap] at h
    obtain ⟨c2, h2, h3⟩ := h
    obtain ⟨e, he, _, rfl⟩ := (mem_kids_iff s anc c2).1 h2
    exact reaches_succ.2 ⟨e, he, ih e (s :: anc) c h3 ht⟩

/-- A hit of the bounded tree is a node of one of its levels that holds the
target. -/
theorem hit_levelFrom {N : Nat} (target : Board N) :
    ∀ (b : Nat) (s : Board N) (anc : List (Board N)), hit target b (s :: anc) = true →
      ∃ j, j ≤ b ∧ ∃ c ∈ levelFrom j (s :: anc), atTarget target c = true := by
  intro b
  induction b with
  | zero =>
    intro s anc h
    simp only [hit] at h
    exact ⟨0, Nat.le_refl 0, s :: anc, by simp [levelFrom], h⟩
  | succ b ih =>
    intro s anc h
    simp only [hit, Bool.or_eq_true, List.any_eq_true, List.mem_filter] at h
    rcases h with h | ⟨e, ⟨he, hp⟩, hh⟩
    · exact ⟨0, Nat.zero_le _, s :: anc, by simp [levelFrom], h⟩
    · obtain ⟨j, hj, c, hc, ht⟩ := ih e (s :: anc) hh
      refine ⟨j + 1, by omega, c, ?_, ht⟩
      simp only [levelFrom, List.mem_flatMap]
      exact ⟨e :: s :: anc, (mem_kids_iff s anc _).2 ⟨e, he, hp, rfl⟩, hc⟩

/-- When no level up to `m` holds the target, no sequence of at most `m`
applied moves reaches it from a well-formed start. -/
theorem not_reaches_of_levels_clear {N : Nat} (start target : Board N) (hw : WellFormed start)
    (m : Nat) (hclear : ∀ j, j ≤ m → ∀ c ∈ levelFrom j [start], atTarget target c = false)
    (k : Nat) (hk : k ≤ m) : ¬ Reaches target start k := by
  intro hr
  have hh := (hit_iff_reaches target start m hw).2 ⟨k, hk, hr⟩
  obtain ⟨j, hj, c, hc, ht⟩ := hit_levelFrom target m start [] hh
  rw [hclear j hj c hc] at ht
  cases ht

/-- The level at the least number of moves to the target holds the target. -/
theorem level_of_min_reaches {N : Nat} (start target : Board N) (hw : WellFormed start)
    (k : Nat) (hr : Reaches target start k) (hmin : ∀ j, j < k → ¬ Reaches target start j) :
    ∃ c ∈ levelFrom k [start], atTarget target c = true := by
  have hh := (hit_iff_reaches target start k hw).2 ⟨k, Nat.le_refl k, hr⟩
  obtain ⟨j, hj, c, hc, ht⟩ := hit_levelFrom target k start [] hh
  have hrj := levelFrom_reaches target j start [] c hc ht
  have hjk : j = k := by
    by_contra hne
    exact hmin j (by omega) hrj
  subst hjk
  exact ⟨c, hc, ht⟩


/-- The child loop of `bfs`: it returns at the first child equal to the
target, and otherwise pushes every child on the queue. -/
theorem bfsChildren_spec {N : Nat} (heap : Heap N) (pt : Nat) :
    ∀ (children opened : List Nat) (steps : Nat) (logged : Option Nat),
      (∃ child steps1, child ∈ children ∧ impl.check heap child pt = true ∧
        bfsChildren heap pt children opened steps logged = Flow.ret (steps1, child)) ∨
      (∃ steps1 logged1, (∀ child ∈ children, impl.check heap child pt = false) ∧
        bfsChildren heap pt children opened steps logged =
          Flow.next (opened ++ children, steps1, logged1)) := by
  intro children
  induction children with
  | nil =>
    intro opened steps logged
    exact Or.inr ⟨steps, logged, by simp, by simp [bfsChildren]⟩
  | cons child rest ih =>
    intro opened steps logged
    by_cases hc : impl.check heap child pt = true
    · exact Or.inl ⟨child, steps + 1, List.mem_cons_self _ _, hc, by simp [bfsChildren, hc]⟩
    · have hc1 : impl.check heap child pt = false := by
        cases h : impl.check heap child pt
        · rfl
        · exact absurd h hc
      rcases ih (opened ++ [child]) (steps + 1) (some child) with
        ⟨c, s1, hm, hcc, he⟩ | ⟨s1, l1, hall, he⟩
      · refine Or.inl ⟨c, s1, List.mem_cons_of_mem _ hm, hcc, ?_⟩
        simp only [bfsChildren, hc1, Bool.false_eq_true, if_false]
        exact he
      · refine Or.inr ⟨s1, l1, ?_, ?_⟩
        · intro q hq
          rcases List.mem_cons.1 hq with rfl | hq
          · exact hc1
          · exact hall q hq
        · simp only [bfsChildren, hc1, Bool.false_eq_true, if_false]
          rw [he]
          simp

theorem Queued.lift {N : Nat} {heap : Heap N} {q : Nat} {c : List (Board N)}
    (h : Queued heap q c) (extra : Heap N) : Queued (heap ++ extra) q c := by
  refine ⟨h.1.append extra, ?_⟩
  rw [deref_append_left heap extra h.1.lt_length]
  exact h.2

theorem forall2_of_pairs {α β γ : Type} (R : α → γ → Prop) (f : β → γ) :
    ∀ l : List (α × β), (∀ x ∈ l, R x.1 (f x.2)) →
      List.Forall₂ R (l.map Prod.fst) ((l.map Prod.snd).map f) := by
  intro l
  induction l with
  | nil => intro _; exact List.Forall₂.nil
  | cons x l ih =>
    intro h
    simp only [List.map_cons]
    exact List.Forall₂.cons (h x (List.mem_cons_self _ _))
      (ih (fun y hy => h y (List.mem_cons_of_mem _ hy)))

theorem forall2_append_of {α β : Type} {R : α → β → Prop} {l1 l2 : List α} {m1 m2 : List β}
    (h1 : List.Forall₂ R l1 m1) (h2 : List.Forall₂ R l2 m2) :
    List.Forall₂ R (l1 ++ l2) (m1 ++ m2) := by
  induction h1 with
  | nil => exact h2
  | cons hab _ ih => exact List.Forall₂.cons hab ih

/-- When the nodes of level `m` are all expanded, the queue holds level
`m + 1`. -/
theorem BfsInv.next_level {N : Nat} {start target : Board N} {pt : Nat} {heap : Heap N}
    {opened : List Nat} {m : Nat} {done : List (List (Board N))}
    (h : BfsInv start target pt heap opened m done []) :
    BfsInv start target pt heap opened (m + 1) [] (levelFrom (m + 1) [start]) := by
  obtain ⟨h1, h2, h3, h4, h5, h6⟩ := h
  rw [List.append_nil] at h3
  have hl : levelFrom (m + 1) [start] = done.flatMap kids := by
    rw [levelFrom_succ_eq, h3]
  refine ⟨h1, h2, by simp, ?_, ?_, by simp⟩
  · rw [hl]
    simpa using h4
  · intro j hj c hc
    by_cases hjm : j ≤ m
    · exact h5 j hjm c hc
    · have : j = m + 1 := by omega
      subst this
      rw [hl] at hc
      exact h6 c hc


/-- One iteration of the loop of `bfs` on the next node `cf` of level `m`:
either a child equal to the target is generated and the loop returns SUCCESS
with that child, a node of level `m + 1`, or no child is equal to the target
and the loop goes on with the children pushed on the queue. -/
theorem bfsLoop_step {N : Nat} {start target : Board N} {pt : Nat} {heap : Heap N}
    {front : Nat} {opened : List Nat} {m : Nat} {done rest : List (List (Board N))}
    {cf : List (Board N)}
    (hinv : BfsInv start target pt heap (front :: opened) m done (cf :: rest))
    (closed : List Nat) (steps : Nat) (logged : Option Nat) :
    (∃ o child, (∀ fuel, bfsLoop pt (fuel + 1) heap (front :: opened) closed steps logged = some o) ∧
      o.result.result = results.SUCCESS ∧ o.logged = some child ∧
      (o.heap.deref child).depth = m + 1 ∧ (o.heap.deref child).elem.eq target = true ∧
      ∃ c ∈ levelFrom (m + 1) [start], atTarget target c = true) ∨
    (∃ heap1 opened1 closed1 steps1 logged1,
      (∀ fuel, bfsLoop pt (fuel + 1) heap (front :: opened) closed steps logged =
        bfsLoop pt fuel heap1 opened1 closed1 steps1 logged1) ∧
      BfsInv start target pt heap1 opened1 m (done ++ [cf]) rest) := by
  obtain ⟨hpt, htgt, hlev, hq, hclear, hkids⟩ := hinv
  rw [List.cons_append, List.forall₂_cons] at hq
  obtain ⟨⟨hchain, hdepth⟩, hq⟩ := hq
  have hexp := implExpand_eq heap front cf hchain
  have hcfmem : cf ∈ levelFrom m [start] := by rw [hlev]; simp
  have hcflen : cf.length = m + 1 := by
    rw [length_of_mem_levelFrom m [start] cf hcfmem]
    simp
    omega
  obtain ⟨anc, hcf⟩ := hchain.head_eq
  have hkidsEq : kids cf =
      ((filterPairs cf heap.length (heap.deref front).elem.expand).map Prod.snd).map
        (fun e => e :: cf) := by
    rw [filterPairs_map_snd]
    conv_lhs => rw [hcf]
    rw [kids, ← hcf]
  have hpt1 : ∀ extra : Heap N, (heap ++ extra).deref pt = heap.deref pt :=
    fun extra => deref_append_left heap extra hpt
  have hchild : ∀ x ∈ filterPairs cf heap.length (heap.deref front).elem.expand,
      Queued (heap ++ (heap.deref front).elem.expand.map (mkChild front (heap.deref front).depth))
        x.1 (x.2 :: cf) ∧
      (Heap.deref
        (heap ++ (heap.deref front).elem.expand.map (mkChild front (heap.deref front).depth))
        x.1).depth = m + 1 ∧
      impl.check
        (heap ++ (heap.deref front).elem.expand.map (mkChild front (heap.deref front).depth))
        x.1 pt = atTarget target (x.2 :: cf) ∧
      (Heap.deref
        (heap ++ (heap.deref front).elem.expand.map (mkChild front (heap.deref front).depth))
        x.1).elem = x.2 := by
    intro x hx
    obtain ⟨hc, hd⟩ := implExpand_children heap front cf hchain x hx
    refine ⟨⟨hc, ?_⟩, ?_, ?_, ?_⟩
    · rw [hd]
      simp only [mkChild, List.length_cons]
      omega
    · rw [hd]
      simp only [mkChild]
      omega
    · unfold impl.check Node.eq
      rw [hd, hpt1, htgt]
      rfl
    · rw [hd]
      rfl
  rcases bfsChildren_spec
      (heap ++ (heap.deref front).elem.expand.map (mkChild front (heap.deref front).depth)) pt
      ((filterPairs cf heap.length (heap.deref front).elem.expand).map Prod.fst)
      opened steps logged with ⟨child, s1, hm, hcc, he⟩ | ⟨s1, l1, hall, he⟩
  · left
    obtain ⟨x, hx, rfl⟩ := List.mem_map.1 hm
    obtain ⟨_, hxd, hxc, hxe⟩ := hchild x hx
    refine ⟨{ result := Result.make results.SUCCESS s1,
              heap := heap ++
                (heap.deref front).elem.expand.map (mkChild front (heap.deref front).depth),
              logged := some x.1 }, x.1,
      fun fuel => by simp only [bfsLoop, hexp, he], rfl, rfl, hxd, ?_, x.2 :: cf, ?_, ?_⟩
    · simp only
      rw [hxe]
      rw [hxc] at hcc
      exact hcc
    · rw [levelFrom_succ_eq, List.mem_flatMap]
      refine ⟨cf, hcfmem, ?_⟩
      rw [hkidsEq]
      exact List.mem_map.2 ⟨x.2, List.mem_map.2 ⟨x, hx, rfl⟩, rfl⟩
    · rw [← hxc]
      exact hcc
  · right
    refine ⟨heap ++ (heap.deref front).elem.expand.map (mkChild front (heap.deref front).depth),
      opened ++ (filterPairs cf heap.length (heap.deref front).elem.expand).map Prod.fst,
      closed ++ [front], s1, l1, fun fuel => by simp only [bfsLoop, hexp, he], ?_⟩
    have hk : ∀ c ∈ kids cf, atTarget target c = false := by
      intro c hc
      rw [hkidsEq] at hc
      obtain ⟨e, he2, rfl⟩ := List.mem_map.1 hc
      obtain ⟨x, hx, rfl⟩ := List.mem_map.1 he2
      rw [← (hchild x hx).2.2.1]
      exact hall x.1 (List.mem_map.2 ⟨x, hx, rfl⟩)
    refine ⟨?_, ?_, ?_, ?_, hclear, ?_⟩
    · rw [List.length_append]
      omega
    · rw [hpt1]
      exact htgt
    · rw [hlev]
      simp
    · have hold := hq.imp (fun a b (h : Queued heap a b) => h.lift
        ((heap.deref front).elem.expand.map (mkChild front (heap.deref front).depth)))
      have hnew := forall2_of_pairs
        (Queued (heap ++
          (heap.deref front).elem.expand.map (mkChild front (heap.deref front).depth)))
        (fun e => e :: cf) (filterPairs cf heap.length (heap.deref front).elem.expand)
        (fun x hx => (hchild x hx).1)
      rw [← hkidsEq] at hnew
      have := forall2_append_of hold hnew
      rw [List.flatMap_append, List.flatMap_singleton, ← List.append_assoc]
      exact this
    · intro c hc
      rw [List.flatMap_append, List.flatMap_singleton, List.mem_append] at hc
      rcases hc with hc | hc
      · exact hkids c hc
      · exact hk c hc


/-- With a node at the front of the queue, the state of the loop of `bfs` can
be read as one in which a node of the current level is still to be
expanded. -/
theorem BfsInv.front {N : Nat} {start target : Board N} {pt : Nat} {heap : Heap N}
    {front : Nat} {opened : List Nat} {m : Nat} {done rest : List (List (Board N))}
    (h : BfsInv start target pt heap (front :: opened) m done rest) :
    ∃ m1 done1 cf rest1, BfsInv start target pt heap (front :: opened) m1 done1 (cf :: rest1) := by
  cases rest with
  | cons cf rest1 => exact ⟨m, done, cf, rest1, h⟩
  | nil =>
    have h1 := h.next_level
    cases hl : levelFrom (m + 1) [start] with
    | cons cf rest1 =>
      rw [hl] at h1
      exact ⟨m + 1, [], cf, rest1, h1⟩
    | nil =>
      rw [hl] at h1
      have hq := h1.2.2.2.1
      simp at hq

/-- A run of the loop of `bfs` that ends in SUCCESS ends on a generated
child equal to the target, at the first level of the tree that holds the
target. -/
theorem bfsLoop_sound {N : Nat} (start target : Board N) (pt : Nat) :
    ∀ (fuel : Nat) (heap : Heap N) (opened closed : List Nat) (steps : Nat)
      (logged : Option Nat) (m : Nat) (done rest : List (List (Board N))) (o : Outcome N),
      BfsInv start target pt heap opened m done rest →
      bfsLoop pt fuel heap opened closed steps logged = some o →
      o.result.result = results.SUCCESS →
      ∃ child d, o.logged = some child ∧ (o.heap.deref child).depth = d ∧
        (o.heap.deref child).elem.eq target = true ∧
        (∃ c ∈ levelFrom d [start], atTarget target c = true) ∧
        ∀ j, j < d → ∀ c ∈ levelFrom j [start], atTarget target c = false := by
  intro fuel
  induction fuel with
  | zero =>
    intro heap opened closed steps logged m done rest o hinv hrun hs
    cases opened with
    | nil =>
      simp only [bfsLoop, Option.some.injEq] at hrun
      subst hrun
      simp [Result.make] at hs
    | cons front opened => simp [bfsLoop] at hrun
  | succ fuel ih =>
    intro heap opened closed steps logged m done rest o hinv hrun hs
    cases opened with
    | nil =>
      simp only [bfsLoop, Option.some.injEq] at hrun
      subst hrun
      simp [Result.make] at hs
    | cons front opened =>
      obtain ⟨m1, done1, cf, rest1, hinv1⟩ := hinv.front
      rcases bfsLoop_step hinv1 closed steps logged with
        ⟨o1, child, hr, _, hlog, hd, he, hc⟩ | ⟨heap1, opened1, closed1, steps1, logged1, hr, hinv2⟩
      · rw [hr fuel, Option.some.injEq] at hrun
        subst hrun
        exact ⟨child, m1 + 1, hlog, hd, he, hc,
          fun j hj c hc => hinv1.2.2.2.2.1 j (by omega) c hc⟩
      · rw [hr fuel] at hrun
        exact ih heap1 opened1 closed1 steps1 logged1 m1 (done1 ++ [cf]) rest1 o hinv2 hrun hs

/-- The loop of `bfs` on the rest of a level: it returns SUCCESS, or it
arrives, after one iteration per node, at the state in which the whole level
is expanded. -/
theorem bfsLoop_rest {N : Nat} (start target : Board N) (pt m : Nat) :
    ∀ (rest done : List (List (Board N))) (heap : Heap N) (opened closed : List Nat) (steps : Nat)
      (logged : Option Nat),
      BfsInv start target pt heap opened m done rest →
      (∃ n o, (∀ fuel, bfsLoop pt (fuel + n) heap opened closed steps logged = some o) ∧
        o.result.result = results.SUCCESS) ∨
      (∃ heap1 opened1 closed1 steps1 logged1,
        (∀ fuel, bfsLoop pt (fuel + rest.length) heap opened closed steps logged =
          bfsLoop pt fuel heap1 opened1 closed1 steps1 logged1) ∧
        BfsInv start target pt heap1 opened1 m (done ++ rest) []) := by
  intro rest
  induction rest with
  | nil =>
    intro done heap opened closed steps logged hinv
    refine Or.inr ⟨heap, opened, closed, steps, logged, fun fuel => rfl, ?_⟩
    rw [List.append_nil]
    exact hinv
  | cons cf rest ih =>
    intro done heap opened closed steps logged hinv
    cases opened with
    | nil =>
      have hq := hinv.2.2.2.1
      simp at hq
    | cons front opened =>
      rcases bfsLoop_step hinv closed steps logged with
        ⟨o1, child, hr, hs, _⟩ | ⟨heap1, opened1, closed1, steps1, logged1, hr, hinv2⟩
      · exact Or.inl ⟨1, o1, hr, hs⟩
      · rcases ih (done ++ [cf]) heap1 opened1 closed1 steps1 logged1 hinv2 with
          ⟨n, o, hrun, hs⟩ | ⟨heap2, opened2, closed2, steps2, logged2, hrun, hinv3⟩
        · refine Or.inl ⟨n + 1, o, fun fuel => ?_, hs⟩
          rw [← Nat.add_assoc, hr (fuel + n)]
          exact hrun fuel
        · refine Or.inr ⟨heap2, opened2, closed2, steps2, logged2, fun fuel => ?_, ?_⟩
          · rw [List.length_cons, ← Nat.add_assoc, hr (fuel + rest.length)]
            exact hrun fuel
          · rw [List.append_assoc] at hinv3
            exact hinv3

/-- When a level of the tree holds the target, the loop of `bfs` returns
SUCCESS with enough fuel. -/
theorem bfsLoop_finds {N : Nat} (start target : Board N) (pt k : Nat)
    (hk : ∃ c ∈ levelFrom k [start], atTarget target c = true) :
    ∀ (gap m : Nat) (heap : Heap N) (opened closed : List Nat) (steps : Nat)
      (logged : Option Nat), m + gap = k →
      BfsInv start target pt heap opened m [] (levelFrom m [start]) →
      ∃ n o, (∀ fuel, bfsLoop pt (fuel + n) heap opened closed steps logged = some o) ∧
        o.result.result = results.SUCCESS := by
  intro gap
  induction gap with
  | zero =>
    intro m heap opened closed steps logged hm hinv
    obtain ⟨c, hc, ht⟩ := hk
    have hmk : m = k := by omega
    subst hmk
    rw [hinv.2.2.2.2.1 m (Nat.le_refl m) c hc] at ht
    cases ht
  | succ gap ih =>
    intro m heap opened closed steps logged hm hinv
    rcases bfsLoop_rest start target pt m (levelFrom m [start]) [] heap opened closed steps
        logged hinv with
      ⟨n, o, hrun, hs⟩ | ⟨heap1, opened1, closed1, steps1, logged1, hrun, hinv1⟩
    · exact ⟨n, o, hrun, hs⟩
    · rw [List.nil_append] at hinv1
      obtain ⟨n, o, hrun2, hs⟩ := ih (m + 1) heap1 opened1 closed1 steps1 logged1 (by omega)
        hinv1.next_level
      refine ⟨n + (levelFrom m [start]).length, o, fun fuel => ?_, hs⟩
      rw [← Nat.add_assoc, hrun (fuel + n)]
      exact hrun2 fuel

/-- The loop of `bfs` starts with the start node alone in the queue, at
level `0` of the tree. -/
theorem bfsInv_init {N : Nat} (start target : Board N) (hne : start.eq target = false) :
    BfsInv start target 1 [Node.new start, Node.new target] [0] 0 [] (levelFrom 0 [start]) := by
  refine ⟨by simp, rfl, rfl, ?_, ?_, by simp⟩
  · simp only [levelFrom, List.flatMap_nil, List.append_nil]
    exact List.Forall₂.cons ⟨Chain.root 0 (Node.new start) rfl rfl, rfl⟩ List.Forall₂.nil
  · intro j hj c hc
    have : j = 0 := by omega
    subst this
    simp only [levelFrom, List.mem_singleton] at hc
    subst hc
    exact hne

theorem bfsRun_eq_loop {N : Nat} (start target : Board N) (hne : start.eq target = false)
    (fuel : Nat) :
    bfsRun fuel start target =
      bfsLoop 1 fuel [Node.new start, Node.new target] [0] [] 1 (some 0) := by
  have hc : impl.check [Node.new start, Node.new target] 0 1 = false := by
    simp [impl.check, Heap.deref, Node.eq, Node.new, hne]
  simp only [bfsRun, hne, Bool.false_eq_true, if_false, Heap.alloc, List.nil_append,
    List.length_nil, List.length_cons, List.singleton_append, hc]

/-- C21: for a well-formed start that differs from the target, whenever
`bfs` returns SUCCESS the last logged node is a generated child whose state is
equal to the target, and with `d` the depth of that child some sequence of `d`
applied blank moves transforms the start into a board equal to the target and
no shorter sequence does.  The case occurs: whenever some sequence of applied
moves leads from the start to the target, `bfs` returns SUCCESS (with enough
fuel it returns a result that more fuel does not change). -/
theorem bfs_success_minimal_depth {N : Nat} (start target : Board N) (hw : WellFormed start)
    (hne : start.eq target = false) :
    (∀ fuel o, bfsRun fuel start target = some o → o.result.result = results.SUCCESS →
      bfs fuel start target = some o.result ∧
      ∃ child, o.logged = some child ∧ (o.heap.deref child).elem.eq target = true ∧
        Reaches target start (o.heap.deref child).depth ∧
        ∀ k, k < (o.heap.deref child).depth → ¬ Reaches target start k) ∧
    (∀ k, Reaches target start k →
      ∃ fuel0 o, (∀ n, bfsRun (n + fuel0) start target = some o) ∧
        o.result.result = results.SUCCESS) := by
  constructor
  · intro fuel o hrun hs
    refine ⟨by simp [bfs, hrun], ?_⟩
    rw [bfsRun_eq_loop start target hne] at hrun
    obtain ⟨child, d, hlog, hd, he, ⟨c, hc, ht⟩, hmin⟩ :=
      bfsLoop_sound start target 1 fuel _ _ _ _ _ 0 [] (levelFrom 0 [start]) o
        (bfsInv_init start target hne) hrun hs
    refine ⟨child, hlog, he, ?_, ?_⟩
    · rw [hd]
      exact levelFrom_reaches target d start [] c hc ht
    · rw [hd]
      intro k hk
      cases d with
      | zero => omega
      | succ d =>
        exact not_reaches_of_levels_clear start target hw d
          (fun j hj => hmin j (by omega)) k (by omega)
  · intro k hr
    classical
    have hex : ∃ j, Reaches target start j := ⟨k, hr⟩
    have hmin := fun j (hj : j < Nat.find hex) => Nat.find_min hex hj
    have hlev := level_of_min_reaches start target hw (Nat.find hex) (Nat.find_spec hex) hmin
    obtain ⟨n, o, hrun, hs⟩ := bfsLoop_finds start target 1 (Nat.find hex) hlev
      (Nat.find hex) 0 [Node.new start, Node.new target] [0] [] 1 (some 0) (by omega)
      (bfsInv_init start target hne)
    exact ⟨n, o, fun fuel => by rw [bfsRun_eq_loop start target hne]; exact hrun fuel, hs⟩

/-- The statement `bfs_success_minimal_depth` on the breadth-first scenario:
the start is well-formed and differs from the target, the run returns SUCCESS
on the node `4` of depth `1`, and the conclusion holds. -/
theorem bfs_success_minimal_depth_witness :
    WellFormed scenarioStart ∧ scenarioStart.eq scenarioTarget = false ∧
    (∃ o, bfsRun 1 scenarioStart scenarioTarget = some o ∧
      o.result.result = results.SUCCESS ∧ o.logged = some 4 ∧ (o.heap.deref 4).depth = 1) ∧
    ((∀ fuel o, bfsRun fuel scenarioStart scenarioTarget = some o →
      o.result.result = results.SUCCESS →
      bfs fuel scenarioStart scenarioTarget = some o.result ∧
      ∃ child, o.logged = some child ∧ (o.heap.deref child).elem.eq scenarioTarget = true ∧
        Reaches scenarioTarget scenarioStart (o.heap.deref child).depth ∧
        ∀ k, k < (o.heap.deref child).depth → ¬ Reaches scenarioTarget scenarioStart k) ∧
    (∀ k, Reaches scenarioTarget scenarioStart k →
      ∃ fuel0 o, (∀ n, bfsRun (n + fuel0) scenarioStart scenarioTarget = some o) ∧
        o.result.result = results.SUCCESS)) :=
  ⟨⟨by decide, by decide, by decide, hashOk_ofList 3 _⟩, by decide,
   ⟨_, rfl, rfl, rfl, rfl⟩,
   bfs_success_minimal_depth scenarioStart scenarioTarget
     ⟨by decide, by decide, by decide, hashOk_ofList 3 _⟩ (by decide)⟩

end search
